import Mathlib

/-!
# Output-contract utilities of `904-test-utilities/contract.go`

A shallow embedding of the naming-convention translator (`SnakeToCamelCase`,
`CamelToSnakeCase`, `transformMapKeysRecursive`), of the output-contract engine
(`ValidateOutputContract`, `ValidateBicepContract`, `GetOutputKeysFromStruct`,
`parseOutputsFromMap` and its two entry points), of the blueprint's output struct
(`outputs.go`) and of the output conversion of `GetBicepOutputs` (`deployment.go`).

## Strings

A Go string is modelled as the list of its runes (`rune` is `int32` in Go; here a rune is a
`Nat` code point).  The strings the functions receive are struct tags and decoded JSON keys,
which are well-formed UTF-8, so rune lists lose nothing.  The places where the source works on
bytes rather than runes are modelled explicitly:

* `strings.Split(s, "_")` cuts at the byte `0x5F`, which in UTF-8 only occurs as the rune `_`;
* `part[:1]` / `part[1:]` in `SnakeToCamelCase` cut after the first *byte*: when the first rune
  of `part` is not ASCII both halves are ill-formed and `strings.ToUpper` / `strings.ToLower`
  replace every stray byte by U+FFFD (see `capitalize`);
* `len` is the byte length (`byteLen`).

The Unicode case table consulted by `unicode.ToLower` for runes above U+007F belongs to the Go
standard library and is a parameter `tbl : Nat → Nat` of the model; the ASCII branch of
`unicode.ToLower` is explicit code and is embedded as such.
-/

namespace Testutil

/-! ## Runes and strings -/

/-- A Go string, as the list of its runes (code points). -/
abbrev GoString := List Nat

/-- The runes of a string literal. -/
def runes (s : String) : GoString := s.toList.map Char.toNat

/-- The delimiter `_`. -/
def underscore : Nat := 95

/-- The replacement rune U+FFFD (`utf8.RuneError`). -/
def runeError : Nat := 0xFFFD

/-- The test `r >= 'A' && r <= 'Z'` of `CamelToSnakeCase`. -/
def isUpperAZ (r : Nat) : Bool := decide (65 ≤ r) && decide (r ≤ 90)

/-- The test `'a' <= c && c <= 'z'`. -/
def isLowerAZ (r : Nat) : Bool := decide (97 ≤ r) && decide (r ≤ 122)

/-- A rune below `utf8.RuneSelf`. -/
def isASCII (r : Nat) : Bool := decide (r < 128)

/-- Number of bytes of the UTF-8 encoding of a rune (`utf8.RuneLen`). -/
def runeLen (r : Nat) : Nat :=
  if r < 0x80 then 1 else if r < 0x800 then 2 else if r < 0x10000 then 3 else 4

/-- Go `len(s)`: the number of bytes of the string. -/
def byteLen (s : GoString) : Nat := (s.map runeLen).sum

/-- Go `unicode.ToLower`: the ASCII branch is explicit, other runes go through the case
table `tbl`. -/
def toLowerRune (tbl : Nat → Nat) (r : Nat) : Nat :=
  if r ≤ 127 then (if isUpperAZ r then r + 32 else r) else tbl r

/-- Go `strings.ToLower` on a well-formed string: every rune is mapped by
`unicode.ToLower`. -/
def toLower (tbl : Nat → Nat) (s : GoString) : GoString := s.map (toLowerRune tbl)

/-- Go `strings.ToUpper` on a one-byte ASCII string. -/
def toUpperASCII (r : Nat) : Nat := if isLowerAZ r then r - 32 else r

/-- Go `strings.Split(s, "_")`: the segments between delimiters; `n` delimiters give
`n + 1` segments, and the empty string gives one empty segment. -/
def split : GoString → List GoString
  | [] => [[]]
  | c :: cs =>
    if c = underscore then [] :: split cs
    else match split cs with
      | [] => [[c]]
      | p :: ps => (c :: p) :: ps

/-- The expression `strings.ToUpper(part[:1]) + strings.ToLower(part[1:])` for a non-empty
`part`.  The slices are byte slices: if the first rune is ASCII the first half is that rune
uppercased; otherwise the first half is the lone lead byte and the second half starts with the
remaining `runeLen c - 1` continuation bytes, and each of these ill-formed bytes is turned
into U+FFFD by the case mapping. -/
def capitalize (tbl : Nat → Nat) : GoString → GoString
  | [] => []
  | c :: rest =>
    if isASCII c then toUpperASCII c :: toLower tbl rest
    else runeError :: (List.replicate (runeLen c - 1) runeError ++ toLower tbl rest)

/-- The loop `for i, part := range parts` of `SnakeToCamelCase`; `acc` is the
`strings.Builder`. -/
def snakeLoop (tbl : Nat → Nat) : Nat → List GoString → GoString → GoString
  | _, [], acc => acc
  | i, part :: ps, acc =>
    if part = [] then snakeLoop tbl (i + 1) ps acc
    else if i = 0 then snakeLoop tbl (i + 1) ps (acc ++ toLower tbl part)
    else snakeLoop tbl (i + 1) ps (acc ++ capitalize tbl part)

/-- Go `SnakeToCamelCase` (contract.go, lines 356-380). -/
def SnakeToCamelCase (tbl : Nat → Nat) (s : GoString) : GoString :=
  if s = [] then s
  else
    let parts := split s
    if parts.length = 1 then toLower tbl s
    else snakeLoop tbl 0 parts []

/-- The loop `for i, r := range s` of `CamelToSnakeCase`; `first` tells whether the byte
offset `i` is `0`. -/
def camelLoop : Bool → GoString → GoString → GoString
  | _, [], acc => acc
  | first, r :: rs, acc =>
    if !first && isUpperAZ r then camelLoop false rs (acc ++ [underscore] ++ [r])
    else camelLoop false rs (acc ++ [r])

/-- Go `CamelToSnakeCase` (contract.go, lines 390-405). -/
def CamelToSnakeCase (tbl : Nat → Nat) (s : GoString) : GoString :=
  if s = [] then s
  else toLower tbl (camelLoop true s [])

/-! ## Values and maps

A deployment output is a dynamically typed Go value (`any`): `nil`, a string, a number, a
boolean, a `map[string]any` or a `[]any`.  Numbers are never inspected by the code, only
carried around.  A `map[string]any` is modelled by the list of its entries; the order of the
list is the order in which a `range` loop visits the map, which Go leaves unspecified, so a
statement about a map is a statement about every list of its entries.  Two `range` loops
over the same map may visit it in different orders: where a statement involves two
traversals of one map, each traversal has its own entry list and the two lists are related
by `sameValue`. -/

/-- A Go value of type `any`, as produced by decoding deployment outputs. -/
inductive Value where
  | null
  | str (s : GoString)
  | num (n : Int)
  | bool (b : Bool)
  | map (entries : List (GoString × Value))
  | seq (items : List Value)

/-- A Go `map[string]any`, as the list of its entries. -/
abbrev GoMap := List (GoString × Value)

/-- Go `v, ok := m[k]`: `none` when the key is absent. -/
def mapGet : GoMap → GoString → Option Value
  | [], _ => none
  | (k1, v1) :: rest, k => if k1 = k then some v1 else mapGet rest k

/-- Go `m[k] = v`: the value of an existing key is overwritten, a new key adds an entry. -/
def mapSet : GoMap → GoString → Value → GoMap
  | [], k, v => [(k, v)]
  | (k1, v1) :: rest, k, v => if k1 = k then (k1, v) :: rest else (k1, v1) :: mapSet rest k v

/-- The keys of a map. -/
def mapKeys (m : GoMap) : List GoString := m.map Prod.fst

mutual
/-- Go `transformMapKeysRecursive` (contract.go, lines 287-309). -/
def transformMapKeysRecursive (tbl : Nat → Nat) : Value → Value
  | .map v => .map (transformEntries tbl v [])
  | .seq v => .seq (transformItems tbl v)
  | value => value
/-- The loop `for key, val := range v` of the `map[string]any` case; `result` is the map
under construction. -/
def transformEntries (tbl : Nat → Nat) : GoMap → GoMap → GoMap
  | [], result => result
  | (key, val) :: rest, result =>
    transformEntries tbl rest
      (mapSet result (CamelToSnakeCase tbl key) (transformMapKeysRecursive tbl val))
/-- The loop `for i, item := range v` of the `[]any` case. -/
def transformItems (tbl : Nat → Nat) : List Value → List Value
  | [] => []
  | item :: rest => transformMapKeysRecursive tbl item :: transformItems tbl rest
end

/-! ## The output-contract engine -/

/-- The declared Go type of a struct field, as far as assignability of a decoded value is
concerned; `other` stands for every type to which no decoded value is assignable. -/
inductive FieldType where
  | any
  | string
  | float64
  | bool
  | mapStringAny
  | sliceAny
  | other
  deriving DecidableEq, Repr

/-- A field of the output struct: its `output` tag (empty when the field has none), its
declared type and whether `reflect.Value.CanSet` holds for it (the field is exported). -/
structure Field where
  tag : GoString
  typ : FieldType
  canSet : Bool

/-- The struct behind the `outputStruct` pointer: its fields in declaration order, each
with its current value. -/
abbrev StructValue := List (Field × Value)

/-- The argument `outputStruct any` of the parse functions and of
`GetOutputKeysFromStruct`: a pointer to a struct, a struct passed by value, or a value of
any other kind. -/
inductive OutputStruct where
  | ptrToStruct (fields : StructValue)
  | structByValue (fields : StructValue)
  | notPtrToStruct

/-- Go `reflect.TypeOf(value)` for a decoded value; `none` is the nil `reflect.Type` of a
nil value. -/
def typeOf : Value → Option FieldType
  | .null => none
  | .str _ => some .string
  | .num _ => some .float64
  | .bool _ => some .bool
  | .map _ => some .mapStringAny
  | .seq _ => some .sliceAny

/-- Go `valueType.AssignableTo(fieldType)` for the dynamic type of a decoded value: the
types are identical or the field is an empty interface. -/
def assignableTo (valueType fieldType : FieldType) : Bool :=
  decide (fieldType = FieldType.any) || decide (valueType = fieldType)

/-- The condition of line 263:
`value == nil || !fieldValue.CanSet() || !valueType.AssignableTo(fieldValue.Type())`. -/
def typeMismatch (value : Value) (field : Field) : Bool :=
  match typeOf value with
  | none => true
  | some valueType => !field.canSet || !assignableTo valueType field.typ

/-- How a call of `parseOutputsFromMap` ends.  `require.Fail` stops the test at once
(`t.FailNow`), so each failure is a terminal outcome; every outcome carries the state of the
struct at that moment. -/
inductive ParseResult where
  | success (fields : StructValue)
  | notAStructPointer
  | typeMismatchFailure (lookupKey : GoString) (fields : StructValue)
  | missingOutputs (keys : List GoString) (fileHint : GoString) (fields : StructValue)

/-- The loop `for i := 0; i < v.NumField(); i++` of `parseOutputsFromMap`: `done` are the
fields already visited (with their values after the visit), `missingOutputs` the keys
recorded so far.  On a type mismatch the loop is left at once. -/
def parseLoop (raw : GoMap) (keyTransform : GoString → GoString) (transformMapKeys : Bool)
    (tbl : Nat → Nat) :
    StructValue → StructValue → List GoString →
      Except (GoString × StructValue) (StructValue × List GoString)
  | [], done, missingOutputs => .ok (done, missingOutputs)
  | (field, old) :: rest, done, missingOutputs =>
    if field.tag = [] then
      parseLoop raw keyTransform transformMapKeys tbl rest (done ++ [(field, old)]) missingOutputs
    else
      let lookupKey := keyTransform field.tag
      match mapGet raw lookupKey with
      | none =>
        parseLoop raw keyTransform transformMapKeys tbl rest (done ++ [(field, old)])
          (missingOutputs ++ [lookupKey])
      | some value0 =>
        let value := if transformMapKeys then transformMapKeysRecursive tbl value0 else value0
        if typeMismatch value field then
          .error (lookupKey, done ++ (field, old) :: rest)
        else
          parseLoop raw keyTransform transformMapKeys tbl rest (done ++ [(field, value)])
            missingOutputs

/-- Go `parseOutputsFromMap` (contract.go, lines 230-283). -/
def parseOutputsFromMap (raw : GoMap) (outputStruct : OutputStruct) (framework : GoString)
    (keyTransform : GoString → GoString) (transformMapKeys : Bool) (tbl : Nat → Nat) :
    ParseResult :=
  match outputStruct with
  | .notPtrToStruct => .notAStructPointer
  | .structByValue _ => .notAStructPointer
  | .ptrToStruct fields =>
    match parseLoop raw keyTransform transformMapKeys tbl fields [] [] with
    | .error (lookupKey, now) => .typeMismatchFailure lookupKey now
    | .ok (now, missingOutputs) =>
      if 0 < missingOutputs.length then
        let fileHint :=
          if framework = runes "terraform" then runes "terraform/outputs.tf"
          else runes "bicep/main.bicep"
        .missingOutputs missingOutputs fileHint now
      else .success now

/-- Go `ParseTerraformOutputsFromMap` (contract.go, lines 201-203). -/
def ParseTerraformOutputsFromMap (tbl : Nat → Nat) (raw : GoMap) (outputStruct : OutputStruct) :
    ParseResult :=
  parseOutputsFromMap raw outputStruct (runes "terraform") (fun key => key) false tbl

/-- Go `ParseBicepOutputsFromMap` (contract.go, lines 223-225). -/
def ParseBicepOutputsFromMap (tbl : Nat → Nat) (raw : GoMap) (outputStruct : OutputStruct) :
    ParseResult :=
  parseOutputsFromMap raw outputStruct (runes "bicep") (SnakeToCamelCase tbl) true tbl

/-- Whether a parse ended without any failure being reported. -/
def ParseResult.succeeded : ParseResult → Bool
  | .success _ => true
  | _ => false

/-! ## Static contract validation -/

/-- A Go `map[string]bool`, as the list of its entries. -/
abbrev BoolMap := List (GoString × Bool)

/-- Go `m[k]` on a `map[string]bool`: the zero value `false` when the key is absent. -/
def boolMapGet : BoolMap → GoString → Bool
  | [], _ => false
  | (k1, b1) :: rest, k => if k1 = k then b1 else boolMapGet rest k

/-- Go `m[k] = b` on a `map[string]bool`. -/
def boolMapSet : BoolMap → GoString → Bool → BoolMap
  | [], k, b => [(k, b)]
  | (k1, b1) :: rest, k, b => if k1 = k then (k1, b) :: rest else (k1, b1) :: boolMapSet rest k b

/-- The loop `for _, declared := range declaredOutputs` of `ValidateOutputContract`. -/
def declaredLoop : List GoString → BoolMap → BoolMap
  | [], declaredMap => declaredMap
  | declared :: rest, declaredMap => declaredLoop rest (boolMapSet declaredMap declared true)

/-- The loop `for _, required := range requiredOutputs` of `ValidateOutputContract`. -/
def missingLoop (declaredMap : BoolMap) : List GoString → List GoString → List GoString
  | [], missing => missing
  | required :: rest, missing =>
    if !boolMapGet declaredMap required then missingLoop declaredMap rest (missing ++ [required])
    else missingLoop declaredMap rest missing

/-- A report of `ValidateOutputContract` to the test: the two `t.Errorf` lines, the
`t.Logf` line of the passing branch, and the failure of `require.Empty`.  The two opening
`t.Logf` lines, which only echo the arguments, are not recorded. -/
inductive Report where
  | missingRequired (count : Nat) (framework : GoString) (missing : List GoString)
  | ensureDeclaredIn (file : GoString)
  | allDeclared (count : Nat) (framework : GoString)
  | contractValidationFailed (missing : List GoString)

/-- The observable outcome of `ValidateOutputContract`: the missing list it computed, what
it reported, and whether the test is marked as failed. -/
structure ContractResult where
  missing : List GoString
  reports : List Report
  failed : Bool

/-- Go `ValidateOutputContract` (contract.go, lines 151-181). -/
def ValidateOutputContract (declaredOutputs requiredOutputs : List GoString)
    (framework : GoString) : ContractResult :=
  let declaredMap := declaredLoop declaredOutputs []
  let missing := missingLoop declaredMap requiredOutputs []
  if 0 < missing.length then
    let hint :=
      if framework = runes "terraform" then [Report.ensureDeclaredIn (runes "terraform/outputs.tf")]
      else if framework = runes "bicep" then [Report.ensureDeclaredIn (runes "bicep/main.bicep")]
      else []
    { missing := missing
      reports := [Report.missingRequired missing.length framework missing] ++ hint
        ++ [Report.contractValidationFailed missing]
      failed := true }
  else
    { missing := missing
      reports := [Report.allDeclared requiredOutputs.length framework]
      failed := false }

/-- The loop `for i, output := range requiredOutputs` of `ValidateBicepContract`, which
stores `SnakeToCamelCase(output)` at index `i` of the slice made beforehand. -/
def convertLoop (tbl : Nat → Nat) : Nat → List GoString → List GoString → List GoString
  | _, [], camelCaseRequiredOutputs => camelCaseRequiredOutputs
  | i, output :: rest, camelCaseRequiredOutputs =>
    convertLoop tbl (i + 1) rest (camelCaseRequiredOutputs.set i (SnakeToCamelCase tbl output))

/-- Go `ValidateBicepContract` (contract.go, lines 123-133).  The names declared by the
Bicep file are obtained from the Azure CLI by `GetBicepDeclaredOutputs`; they are the
argument `declaredOutputs` here. -/
def ValidateBicepContract (tbl : Nat → Nat) (declaredOutputs requiredOutputs : List GoString) :
    ContractResult :=
  let camelCaseRequiredOutputs :=
    convertLoop tbl 0 requiredOutputs (List.replicate requiredOutputs.length [])
  ValidateOutputContract declaredOutputs camelCaseRequiredOutputs (runes "bicep")

/-- The loop `for i := 0; i < typ.NumField(); i++` of `GetOutputKeysFromStruct`. -/
def outputKeysLoop : StructValue → List GoString → List GoString
  | [], keys => keys
  | (field, _) :: rest, keys =>
    if field.tag ≠ [] then outputKeysLoop rest (keys ++ [field.tag])
    else outputKeysLoop rest keys

/-- Go `GetOutputKeysFromStruct` (contract.go, lines 329-345).  A pointer is dereferenced
first; on a value that is not a struct `reflect` panics (`none`). -/
def GetOutputKeysFromStruct : OutputStruct → Option (List GoString)
  | .ptrToStruct fields => some (outputKeysLoop fields [])
  | .structByValue fields => some (outputKeysLoop fields [])
  | .notPtrToStruct => none

/-! ## The blueprint's output struct (`outputs.go`) -/

/-- The zero value `BlueprintOutputs{}` of the struct of outputs.go, lines 15-30: its 14
fields in declaration order, each with its `output` tag and its type, all exported and all
holding their zero value. -/
def BlueprintOutputs : StructValue :=
  [ (⟨runes "deployment_summary", .mapStringAny, true⟩, .null),
    (⟨runes "security_identity", .mapStringAny, true⟩, .null),
    (⟨runes "observability", .mapStringAny, true⟩, .null),
    (⟨runes "nat_gateway", .any, true⟩, .null),
    (⟨runes "nat_gateway_public_ips", .any, true⟩, .null),
    (⟨runes "data_storage", .mapStringAny, true⟩, .null),
    (⟨runes "container_registry", .mapStringAny, true⟩, .null),
    (⟨runes "messaging", .mapStringAny, true⟩, .null),
    (⟨runes "vm_host", .any, true⟩, .null),
    (⟨runes "arc_connected_cluster", .mapStringAny, true⟩, .null),
    (⟨runes "cluster_connection", .mapStringAny, true⟩, .null),
    (⟨runes "azure_iot_operations", .mapStringAny, true⟩, .null),
    (⟨runes "assets", .mapStringAny, true⟩, .null),
    (⟨runes "acr_network_posture", .any, true⟩, .null) ]

/-- Go `BlueprintOutputs.GetRequiredOutputKeys` (outputs.go, lines 55-57). -/
def GetRequiredOutputKeys : Option (List GoString) :=
  GetOutputKeysFromStruct (.structByValue BlueprintOutputs)

/-- Go `ParseTerraformBlueprintOutputs` (outputs.go, lines 36-40): the outcome of the parse
into a fresh `BlueprintOutputs{}`; on success the struct carried by the outcome is the one
returned. -/
def ParseTerraformBlueprintOutputs (tbl : Nat → Nat) (raw : GoMap) : ParseResult :=
  ParseTerraformOutputsFromMap tbl raw (.ptrToStruct BlueprintOutputs)

/-- Go `ParseBicepBlueprintOutputs` (outputs.go, lines 46-50). -/
def ParseBicepBlueprintOutputs (tbl : Nat → Nat) (raw : GoMap) : ParseResult :=
  ParseBicepOutputsFromMap tbl raw (.ptrToStruct BlueprintOutputs)

/-! ## Deployment outputs of Bicep (`deployment.go`) -/

/-- The parsed document `azureOutputs map[string]map[string]any` of `GetBicepOutputs`, as
the list of its entries. -/
abbrev AzureOutputs := List (GoString × GoMap)

/-- The loop `for key, outputObj := range azureOutputs` of `GetBicepOutputs`;
`terraformCompatible` is the map under construction. -/
def azureLoop : AzureOutputs → GoMap → GoMap
  | [], terraformCompatible => terraformCompatible
  | (key, outputObj) :: rest, terraformCompatible =>
    match mapGet outputObj (runes "value") with
    | some val => azureLoop rest (mapSet terraformCompatible key val)
    | none => azureLoop rest terraformCompatible

/-- Go `GetBicepOutputs` (deployment.go, lines 183-213), from the parsed document on: the
query through the Azure CLI and the JSON decoding happen before and their result is the
argument. -/
def GetBicepOutputs (azureOutputs : AzureOutputs) : GoMap :=
  azureLoop azureOutputs []

/-! ## Specification-side notions for maps -/

/-- The nesting structure of a value: which mappings and sequences it contains and how many
entries each has, keys and leaves forgotten. -/
inductive Shape where
  | leaf
  | map (children : List Shape)
  | seq (children : List Shape)

mutual
/-- The nesting structure of a value. -/
def shapeOf : Value → Shape
  | .map es => .map (shapeOfEntries es)
  | .seq xs => .seq (shapeOfItems xs)
  | _ => .leaf
/-- The structures of the values of the entries of a mapping. -/
def shapeOfEntries : GoMap → List Shape
  | [] => []
  | (_, v) :: rest => shapeOf v :: shapeOfEntries rest
/-- The structures of the elements of a sequence. -/
def shapeOfItems : List Value → List Shape
  | [] => []
  | v :: rest => shapeOf v :: shapeOfItems rest
end

/-- The keys of a mapping have pairwise distinct `CamelToSnakeCase` images. -/
def distinctImages (tbl : Nat → Nat) (m : GoMap) : Bool :=
  decide (m.map (fun e => CamelToSnakeCase tbl e.1)).Nodup

mutual
/-- At every nesting depth, the keys of each mapping have pairwise distinct
`CamelToSnakeCase` images. -/
def distinctImagesDeep (tbl : Nat → Nat) : Value → Bool
  | .map es => distinctImages tbl es && distinctImagesEntries tbl es
  | .seq xs => distinctImagesItems tbl xs
  | _ => true
/-- The values of the entries of a mapping satisfy `distinctImagesDeep`. -/
def distinctImagesEntries (tbl : Nat → Nat) : GoMap → Bool
  | [] => true
  | (_, v) :: rest => distinctImagesDeep tbl v && distinctImagesEntries tbl rest
/-- The elements of a sequence satisfy `distinctImagesDeep`. -/
def distinctImagesItems (tbl : Nat → Nat) : List Value → Bool
  | [] => true
  | v :: rest => distinctImagesDeep tbl v && distinctImagesItems tbl rest
end

/-- Go `delete(m, k)`. -/
def mapErase : GoMap → GoString → GoMap
  | [], _ => []
  | (k1, v1) :: rest, k => if k1 = k then rest else (k1, v1) :: mapErase rest k

mutual
/-- Two models of the same Go value: equal up to the order in which the entries of each
mapping, at every nesting depth, are listed.  Two traversals of one Go map may visit its
entries in different orders; they are modelled by two entry lists related in this way. -/
def sameValue : Value → Value → Bool
  | .null, w => match w with
    | .null => true
    | _ => false
  | .str a, w => match w with
    | .str b => decide (a = b)
    | _ => false
  | .num a, w => match w with
    | .num b => decide (a = b)
    | _ => false
  | .bool a, w => match w with
    | .bool b => decide (a = b)
    | _ => false
  | .seq xs, w => match w with
    | .seq ys => sameItems xs ys
    | _ => false
  | .map es, w => match w with
    | .map fs => sameEntries es fs
    | _ => false
/-- Two sequences of the same length whose elements are pairwise the same value. -/
def sameItems : List Value → List Value → Bool
  | [], ys => ys.isEmpty
  | x :: xs, ys => match ys with
    | [] => false
    | y :: rest => sameValue x y && sameItems xs rest
/-- Two entry lists of the same mapping: every entry of the first is found in the second
under the same key with the same value, and nothing else is left in the second. -/
def sameEntries : GoMap → GoMap → Bool
  | [], fs => fs.isEmpty
  | (k, v) :: es, fs =>
    match mapGet fs k with
    | none => false
    | some w => sameValue v w && sameEntries es (mapErase fs k)
end

/-- Two states of a struct with the same fields, holding pairwise the same values. -/
def sameFields : StructValue → StructValue → Prop
  | [], now2 => now2 = []
  | (field, value) :: rest, now2 =>
    ∃ value2 rest2, now2 = (field, value2) :: rest2 ∧ sameValue value value2 = true ∧
      sameFields rest rest2

/-! ## Specification-side notions for the naming translator -/

/-- Joining segments with the delimiter `_` (the inverse of `split`). -/
def joinSegs : List GoString → GoString
  | [] => []
  | p :: ps => p ++ ps.flatMap (fun q => underscore :: q)

/-- ASCII lowercasing of a string, as the spec words it: every letter `A`-`Z` becomes the
corresponding letter `a`-`z`, nothing else changes. -/
def lowerASCII (s : GoString) : GoString := s.map (fun r => if isUpperAZ r then r + 32 else r)

/-- A segment with its first character uppercased and its remainder lowercased, as the spec
words it (ASCII). -/
def capitalizeASCII : GoString → GoString
  | [] => []
  | c :: rest => (if isLowerAZ c then c - 32 else c) :: lowerASCII rest

/-- No two delimiters are adjacent. -/
def noConsecutiveDelims : GoString → Bool
  | a :: b :: rest => !(a == underscore && b == underscore) && noConsecutiveDelims (b :: rest)
  | _ => true

/-- The first rune of a segment is a letter `a`-`z`. -/
def startsLower : GoString → Bool
  | [] => false
  | c :: _ => isLowerAZ c

/-- The string obtained by inserting one `_` immediately before every letter `A`-`Z` that is
not at position 0, as the spec words it: position by position. -/
def insertDelims (s : GoString) : GoString :=
  s.enum.flatMap (fun ir => if 0 < ir.1 ∧ isUpperAZ ir.2 = true then [underscore, ir.2] else [ir.2])

/-- The delimiter insertion of `CamelToSnakeCase` on the runes after the first. -/
def camelBody (s : GoString) : GoString :=
  s.flatMap (fun r => if isUpperAZ r then [underscore, r] else [r])

/-! ## Specification-side notions for the contract engine -/

mutual
/-- The leaf values (null and scalars) of a nested value, in traversal order. -/
def leaves : Value → List Value
  | .map es => leavesEntries es
  | .seq xs => leavesItems xs
  | v => [v]
/-- The leaf values below the entries of a mapping. -/
def leavesEntries : GoMap → List Value
  | [] => []
  | (_, v) :: rest => leaves v ++ leavesEntries rest
/-- The leaf values below the elements of a sequence. -/
def leavesItems : List Value → List Value
  | [] => []
  | v :: rest => leaves v ++ leavesItems rest
end

/-- The names of `requiredOutputs` that do not occur in `declaredOutputs`, in the order of
`requiredOutputs`, as the spec words the missing list. -/
def missingNames (declaredOutputs requiredOutputs : List GoString) : List GoString :=
  requiredOutputs.filter (fun name => decide (name ∉ declaredOutputs))

/-- The `output` tag values of the fields in declaration order, fields without a tag
skipped, as the spec words the required list. -/
def tagsOf (fields : StructValue) : List GoString :=
  (fields.map (fun fv => fv.1.tag)).filter (fun tag => decide (tag ≠ []))

/-- The lookup keys of the tagged fields that are absent from the raw map, in field
declaration order. -/
def absentKeys (raw : GoMap) (keyTransform : GoString → GoString) (fields : StructValue) :
    List GoString :=
  ((tagsOf fields).map keyTransform).filter (fun key => (mapGet raw key).isNone)

/-- A value has the declared shape of a field type: it is not null, and its dynamic type is
the field type or the field is an empty interface. -/
def hasDeclaredShape : Value → FieldType → Bool
  | .null, _ => false
  | _, .any => true
  | .str _, .string => true
  | .num _, .float64 => true
  | .bool _, .bool => true
  | .map _, .mapStringAny => true
  | .seq _, .sliceAny => true
  | _, _ => false

/-- The struct after population from `raw`, as the spec words it: a tagged field whose
lookup key is present holds the value found under it (key-transformed below when
`transformMapKeys` is set), every other field keeps its value. -/
def populated (raw : GoMap) (keyTransform : GoString → GoString) (transformMapKeys : Bool)
    (tbl : Nat → Nat) (fields : StructValue) : StructValue :=
  fields.map (fun fv =>
    if fv.1.tag = [] then fv
    else match mapGet raw (keyTransform fv.1.tag) with
      | none => fv
      | some value =>
        (fv.1, if transformMapKeys then transformMapKeysRecursive tbl value else value))

/-- No value present under the lookup key of a tagged field is type-mismatched (the
condition of line 263 is false for it, after the key transformation of the value when
`transformMapKeys` is set). -/
def noTypeMismatch (raw : GoMap) (keyTransform : GoString → GoString) (transformMapKeys : Bool)
    (tbl : Nat → Nat) (fields : StructValue) : Bool :=
  fields.all (fun fv =>
    decide (fv.1.tag = []) ||
      match mapGet raw (keyTransform fv.1.tag) with
      | none => true
      | some value =>
        !typeMismatch
          (if transformMapKeys then transformMapKeysRecursive tbl value else value) fv.1)

/-- An ASCII letter or digit. -/
def isAlnum (r : Nat) : Bool :=
  isUpperAZ r || isLowerAZ r || (decide (48 ≤ r) && decide (r ≤ 57))

/-- The missing list a parse reported: empty unless it ended in a missing-outputs
failure. -/
def reportedMissing : ParseResult → List GoString
  | .missingOutputs keys _ _ => keys
  | _ => []

/-- Lookup in the parsed Azure document: `none` when the name is absent. -/
def azureGet : AzureOutputs → GoString → Option GoMap
  | [], _ => none
  | (k1, obj1) :: rest, k => if k1 = k then some obj1 else azureGet rest k

/-- The entry `{name: v}` an Azure entry `{name: {"value": v, ...}}` unwraps to, if it has
a `value` member. -/
def unwrapEntry (e : GoString × GoMap) : Option (GoString × Value) :=
  (mapGet e.2 (runes "value")).map (fun val => (e.1, val))

/-- A raw Bicep output map with all 14 outputs of the blueprint: mappings with camelCase
keys for the `map[string]any` fields, a string, a mapping or a sequence for the fields of
type `any`. -/
def sampleBicepOutputs : GoMap :=
  [ (runes "deploymentSummary",
      .map [(runes "resourceGroup", .str (runes "rg")), (runes "location", .str (runes "w"))]),
    (runes "securityIdentity", .map [(runes "keyVaultName", .str (runes "kv"))]),
    (runes "observability", .map []),
    (runes "natGateway", .map [(runes "publicIp", .null), (runes "name", .str (runes "n"))]),
    (runes "natGatewayPublicIps", .seq [.map [(runes "ipAddress", .str (runes "a"))]]),
    (runes "dataStorage", .map [(runes "storageAccount", .num 1)]),
    (runes "containerRegistry", .map [(runes "loginServer", .str (runes "s"))]),
    (runes "messaging", .map []),
    (runes "vmHost", .str (runes "host")),
    (runes "arcConnectedCluster", .map [(runes "clusterName", .str (runes "c"))]),
    (runes "clusterConnection", .map []),
    (runes "azureIotOperations", .map [(runes "aioIdentity", .bool true)]),
    (runes "assets", .map []),
    (runes "acrNetworkPosture", .str (runes "private")) ]

/-- The map `sampleBicepOutputs` as another traversal may visit it: the last output first,
and the entries of two nested mappings in the other order. -/
def sampleBicepOutputsReordered : GoMap :=
  [ (runes "acrNetworkPosture", .str (runes "private")),
    (runes "deploymentSummary",
      .map [(runes "location", .str (runes "w")), (runes "resourceGroup", .str (runes "rg"))]),
    (runes "securityIdentity", .map [(runes "keyVaultName", .str (runes "kv"))]),
    (runes "observability", .map []),
    (runes "natGateway", .map [(runes "name", .str (runes "n")), (runes "publicIp", .null)]),
    (runes "natGatewayPublicIps", .seq [.map [(runes "ipAddress", .str (runes "a"))]]),
    (runes "dataStorage", .map [(runes "storageAccount", .num 1)]),
    (runes "containerRegistry", .map [(runes "loginServer", .str (runes "s"))]),
    (runes "messaging", .map []),
    (runes "vmHost", .str (runes "host")),
    (runes "arcConnectedCluster", .map [(runes "clusterName", .str (runes "c"))]),
    (runes "clusterConnection", .map []),
    (runes "azureIotOperations", .map [(runes "aioIdentity", .bool true)]),
    (runes "assets", .map []) ]

/-- The map `sampleBicepOutputsReordered` after `transformMapKeysRecursive`. -/
def sampleRenamedOutputs : GoMap :=
  [ (runes "acr_network_posture", .str (runes "private")),
    (runes "deployment_summary",
      .map [(runes "location", .str (runes "w")), (runes "resource_group", .str (runes "rg"))]),
    (runes "security_identity", .map [(runes "key_vault_name", .str (runes "kv"))]),
    (runes "observability", .map []),
    (runes "nat_gateway", .map [(runes "name", .str (runes "n")), (runes "public_ip", .null)]),
    (runes "nat_gateway_public_ips", .seq [.map [(runes "ip_address", .str (runes "a"))]]),
    (runes "data_storage", .map [(runes "storage_account", .num 1)]),
    (runes "container_registry", .map [(runes "login_server", .str (runes "s"))]),
    (runes "messaging", .map []),
    (runes "vm_host", .str (runes "host")),
    (runes "arc_connected_cluster", .map [(runes "cluster_name", .str (runes "c"))]),
    (runes "cluster_connection", .map []),
    (runes "azure_iot_operations", .map [(runes "aio_identity", .bool true)]),
    (runes "assets", .map []) ]

/-- A raw Bicep output map with all 14 outputs whose top-level keys have pairwise distinct
images, while the mapping under `natGateway` holds the two keys `publicIp` and `public_ip`,
which have the same image. -/
def collidingBicepOutputs : GoMap :=
  [ (runes "deploymentSummary", .map []),
    (runes "securityIdentity", .map []),
    (runes "observability", .map []),
    (runes "natGateway", .map [(runes "publicIp", .num 1), (runes "public_ip", .num 2)]),
    (runes "natGatewayPublicIps", .str (runes "a")),
    (runes "dataStorage", .map []),
    (runes "containerRegistry", .map []),
    (runes "messaging", .map []),
    (runes "vmHost", .str (runes "host")),
    (runes "arcConnectedCluster", .map []),
    (runes "clusterConnection", .map []),
    (runes "azureIotOperations", .map []),
    (runes "assets", .map []),
    (runes "acrNetworkPosture", .str (runes "private")) ]

/-- The map `collidingBicepOutputs` as another traversal may visit it: the two entries
under `natGateway` in the other order. -/
def collidingBicepOutputsReordered : GoMap :=
  [ (runes "deploymentSummary", .map []),
    (runes "securityIdentity", .map []),
    (runes "observability", .map []),
    (runes "natGateway", .map [(runes "public_ip", .num 2), (runes "publicIp", .num 1)]),
    (runes "natGatewayPublicIps", .str (runes "a")),
    (runes "dataStorage", .map []),
    (runes "containerRegistry", .map []),
    (runes "messaging", .map []),
    (runes "vmHost", .str (runes "host")),
    (runes "arcConnectedCluster", .map []),
    (runes "clusterConnection", .map []),
    (runes "azureIotOperations", .map []),
    (runes "assets", .map []),
    (runes "acrNetworkPosture", .str (runes "private")) ]

/-- Go `unicode.IsUpper`: below U+0080 the uppercase letters are `A`-`Z`; other runes go
through the Unicode category table of the standard library, the parameter `upperTbl`. -/
def isUpperRune (upperTbl : Nat → Bool) (r : Nat) : Bool :=
  if r ≤ 127 then isUpperAZ r else upperTbl r

/-! ## Lemmas on `split` -/

theorem split_ne_nil (s : GoString) : split s ≠ [] := by
  cases s with
  | nil => simp [split]
  | cons c cs =>
    unfold split
    split_ifs
    · simp
    · split <;> simp

theorem split_of_not_mem (s : GoString) (h : underscore ∉ s) : split s = [s] := by
  induction s with
  | nil => rfl
  | cons c cs ih =>
    have hc : c ≠ underscore := fun e => h (by simp [e])
    have hcs : underscore ∉ cs := fun e => h (List.mem_cons_of_mem _ e)
    simp [split, hc, ih hcs]

theorem split_length_of_mem (s : GoString) (h : underscore ∈ s) : 2 ≤ (split s).length := by
  induction s with
  | nil => simp at h
  | cons c cs ih =>
    by_cases hc : c = underscore
    · have := split_ne_nil cs
      simp only [split, hc, if_true, List.length_cons]
      cases hs : split cs with
      | nil => exact absurd hs this
      | cons p ps => simp
    · have hcs : underscore ∈ cs := by
        rcases List.mem_cons.1 h with e | e
        · exact absurd e.symm hc
        · exact e
      have ih2 := ih hcs
      simp only [split, hc, if_false]
      cases hs : split cs with
      | nil => exact absurd hs (split_ne_nil cs)
      | cons p ps => simpa [hs] using ih2

theorem split_length_one_iff (s : GoString) : (split s).length = 1 ↔ underscore ∉ s := by
  constructor
  · intro h hm
    have := split_length_of_mem s hm
    omega
  · intro h
    simp [split_of_not_mem s h]

theorem joinSegs_split (s : GoString) : joinSegs (split s) = s := by
  induction s with
  | nil => rfl
  | cons c cs ih =>
    by_cases hc : c = underscore
    · simp only [split, hc, if_true]
      cases hs : split cs with
      | nil => exact absurd hs (split_ne_nil cs)
      | cons p ps =>
        rw [hs] at ih
        simp only [joinSegs, List.flatMap_cons, List.nil_append] at ih ⊢
        simp only [List.cons_append, ih]
    · simp only [split, hc, if_false]
      cases hs : split cs with
      | nil => exact absurd hs (split_ne_nil cs)
      | cons p ps =>
        rw [hs] at ih
        simp only [joinSegs, List.cons_append] at ih ⊢
        rw [ih]

theorem mem_split_no_delim (s : GoString) : ∀ p ∈ split s, underscore ∉ p := by
  induction s with
  | nil => simp [split]
  | cons c cs ih =>
    by_cases hc : c = underscore
    · simp only [split, hc, if_true]
      intro p hp
      rcases List.mem_cons.1 hp with e | e
      · simp [e]
      · exact ih p e
    · simp only [split, hc, if_false]
      cases hs : split cs with
      | nil => exact absurd hs (split_ne_nil cs)
      | cons q qs =>
        rw [hs] at ih
        intro p hp
        rcases List.mem_cons.1 hp with e | e
        · subst e
          intro hm
          rcases List.mem_cons.1 hm with e2 | e2
          · exact hc e2.symm
          · exact ih q (List.mem_cons_self _ _) e2
        · exact ih p (List.mem_cons_of_mem _ e)

theorem mem_of_mem_split (s : GoString) : ∀ p ∈ split s, ∀ c ∈ p, c ∈ s := by
  intro p hp c hc
  have h := joinSegs_split s
  rw [← h]
  cases hs : split s with
  | nil => exact absurd hs (split_ne_nil s)
  | cons q qs =>
    rw [hs] at hp
    simp only [joinSegs, List.mem_append, List.mem_flatMap, List.mem_cons]
    rcases List.mem_cons.1 hp with e | e
    · left; rw [← e]; exact hc
    · right; exact ⟨p, e, Or.inr hc⟩

/-! ## Lemmas on the case mappings -/

theorem isUpperAZ_iff (r : Nat) : isUpperAZ r = true ↔ 65 ≤ r ∧ r ≤ 90 := by
  simp [isUpperAZ]

theorem isLowerAZ_iff (r : Nat) : isLowerAZ r = true ↔ 97 ≤ r ∧ r ≤ 122 := by
  simp [isLowerAZ]

theorem isUpperAZ_eq_false_iff (r : Nat) : isUpperAZ r = false ↔ r < 65 ∨ 90 < r := by
  rw [← Bool.not_eq_true, isUpperAZ_iff]
  omega

theorem toLowerRune_ascii (tbl : Nat → Nat) (r : Nat) (h : r < 128) :
    toLowerRune tbl r = if isUpperAZ r then r + 32 else r := by
  have : r ≤ 127 := by omega
  simp [toLowerRune, this]

theorem toLowerRune_not_upper (tbl : Nat → Nat) (htbl : ∀ r, 127 < r → isUpperAZ (tbl r) = false)
    (r : Nat) : isUpperAZ (toLowerRune tbl r) = false := by
  unfold toLowerRune
  split_ifs with h1 h2
  · rw [isUpperAZ_iff] at h2
    rw [isUpperAZ_eq_false_iff]
    omega
  · simpa using h2
  · exact htbl r (by omega)

theorem toLowerRune_ne_underscore (tbl : Nat → Nat) (htbl : ∀ r, 127 < r → tbl r ≠ underscore)
    (r : Nat) (hr : r ≠ underscore) : toLowerRune tbl r ≠ underscore := by
  unfold toLowerRune
  split_ifs with h1 h2
  · rw [isUpperAZ_iff] at h2
    unfold underscore
    omega
  · exact hr
  · exact htbl r (by omega)

theorem not_upper_of_fixed (tbl : Nat → Nat) (r : Nat) (h : toLowerRune tbl r = r) :
    isUpperAZ r = false := by
  by_contra hu
  have hu2 : isUpperAZ r = true := by simpa using hu
  have hb := (isUpperAZ_iff r).1 hu2
  have : r ≤ 127 := by omega
  simp [toLowerRune, this, hu2] at h

theorem toLower_eq_self_iff (tbl : Nat → Nat) (s : GoString) :
    toLower tbl s = s ↔ ∀ r ∈ s, toLowerRune tbl r = r := by
  induction s with
  | nil => simp [toLower]
  | cons c cs ih =>
    simp only [toLower, List.map_cons, List.cons.injEq, List.mem_cons, forall_eq_or_imp] at ih ⊢
    rw [ih]

theorem toLower_ascii (tbl : Nat → Nat) (s : GoString) (h : ∀ r ∈ s, r < 128) :
    toLower tbl s = lowerASCII s := by
  unfold toLower lowerASCII
  apply List.map_congr_left
  intro r hr
  exact toLowerRune_ascii tbl r (h r hr)

theorem capitalize_ascii (tbl : Nat → Nat) (p : GoString) (h : ∀ r ∈ p, r < 128) :
    capitalize tbl p = capitalizeASCII p := by
  cases p with
  | nil => rfl
  | cons c rest =>
    have hc : c < 128 := h c (List.mem_cons_self _ _)
    have hr : ∀ r ∈ rest, r < 128 := fun r hr => h r (List.mem_cons_of_mem _ hr)
    simp [capitalize, capitalizeASCII, isASCII, hc, toUpperASCII, toLower_ascii tbl rest hr]

/-! ## Lemmas on the two loops -/

theorem snakeLoop_succ (tbl : Nat → Nat) (ps : List GoString) :
    ∀ (i : Nat) (acc : GoString),
      snakeLoop tbl (i + 1) ps acc = acc ++ ps.flatMap (capitalize tbl) := by
  induction ps with
  | nil => intro i acc; simp [snakeLoop]
  | cons p ps ih =>
    intro i acc
    unfold snakeLoop
    by_cases hp : p = []
    · simp [hp, ih, capitalize]
    · simp [hp, ih]

theorem snakeLoop_zero (tbl : Nat → Nat) (p : GoString) (ps : List GoString) (acc : GoString) :
    snakeLoop tbl 0 (p :: ps) acc = acc ++ toLower tbl p ++ ps.flatMap (capitalize tbl) := by
  unfold snakeLoop
  by_cases hp : p = []
  · simp [hp, snakeLoop_succ, toLower]
  · simp [hp, snakeLoop_succ]

theorem camelLoop_false (s : GoString) :
    ∀ acc : GoString, camelLoop false s acc = acc ++ camelBody s := by
  induction s with
  | nil => intro acc; simp [camelLoop, camelBody]
  | cons r rs ih =>
    intro acc
    unfold camelLoop
    by_cases hr : isUpperAZ r = true
    · simp [hr, ih, camelBody]
    · simp [hr, ih, camelBody]

theorem camelLoop_true (r : Nat) (rs : GoString) (acc : GoString) :
    camelLoop true (r :: rs) acc = acc ++ r :: camelBody rs := by
  unfold camelLoop
  simp [camelLoop_false]

theorem CamelToSnakeCase_cons (tbl : Nat → Nat) (r : Nat) (rs : GoString) :
    CamelToSnakeCase tbl (r :: rs) = toLower tbl (r :: camelBody rs) := by
  simp [CamelToSnakeCase, camelLoop_true]

theorem SnakeToCamelCase_of_not_mem (tbl : Nat → Nat) (s : GoString) (h : underscore ∉ s) :
    SnakeToCamelCase tbl s = toLower tbl s := by
  unfold SnakeToCamelCase
  by_cases hs : s = []
  · simp [hs, toLower]
  · simp [hs, (split_length_one_iff s).2 h]

theorem SnakeToCamelCase_of_mem (tbl : Nat → Nat) (s : GoString) (h : underscore ∈ s) :
    SnakeToCamelCase tbl s
      = toLower tbl ((split s).headD []) ++ (split s).tail.flatMap (capitalize tbl) := by
  unfold SnakeToCamelCase
  have hs : s ≠ [] := by rintro rfl; simp at h
  have hl : (split s).length ≠ 1 := by
    have := split_length_of_mem s h
    omega
  simp only [hs, hl, if_false]
  cases hsp : split s with
  | nil => exact absurd hsp (split_ne_nil s)
  | cons p ps => simp [snakeLoop_zero]

/-! ## Round trip on canonical names -/

theorem camelBody_of_fixed (tbl : Nat → Nat) (p : GoString)
    (h : ∀ r ∈ p, toLowerRune tbl r = r) : camelBody p = p := by
  induction p with
  | nil => rfl
  | cons c cs ih =>
    have hc := not_upper_of_fixed tbl c (h c (List.mem_cons_self _ _))
    have := ih (fun r hr => h r (List.mem_cons_of_mem _ hr))
    simp only [camelBody, List.flatMap_cons] at this ⊢
    simp [hc, this]

theorem camelBody_append (a b : GoString) : camelBody (a ++ b) = camelBody a ++ camelBody b := by
  simp [camelBody]

theorem toLower_append (tbl : Nat → Nat) (a b : GoString) :
    toLower tbl (a ++ b) = toLower tbl a ++ toLower tbl b := by
  simp [toLower]

theorem toLower_camelBody_capitalize (tbl : Nat → Nat) (p : GoString)
    (h : ∀ r ∈ p, toLowerRune tbl r = r) (hs : startsLower p = true) :
    toLower tbl (camelBody (capitalize tbl p)) = underscore :: p := by
  cases p with
  | nil => simp [startsLower] at hs
  | cons c rest =>
    have hc : 97 ≤ c ∧ c ≤ 122 := (isLowerAZ_iff c).1 hs
    have hrest : ∀ r ∈ rest, toLowerRune tbl r = r := fun r hr => h r (List.mem_cons_of_mem _ hr)
    have h1 : toLower tbl rest = rest := (toLower_eq_self_iff tbl rest).2 hrest
    have h2 : isASCII c = true := by simp [isASCII]; omega
    have h3 : toUpperASCII c = c - 32 := by simp [toUpperASCII, show isLowerAZ c = true from hs]
    have h4 : isUpperAZ (c - 32) = true := by rw [isUpperAZ_iff]; omega
    have h5 : camelBody ((c - 32) :: rest) = underscore :: (c - 32) :: rest := by
      have := camelBody_of_fixed tbl rest hrest
      simp only [camelBody, List.flatMap_cons] at this ⊢
      simp [h4, this]
    have h6 : toLowerRune tbl underscore = underscore := by
      simp [toLowerRune, underscore, isUpperAZ]
    have h7 : toLowerRune tbl (c - 32) = c := by
      have : c - 32 ≤ 127 := by omega
      simp only [toLowerRune, this, if_true, h4]
      omega
    simp only [capitalize, h2, if_true, h3, h1, h5]
    simp only [toLower, List.map_cons, h6, h7]
    exact congrArg (fun l => underscore :: c :: l) h1

theorem toLower_camelBody_segments (tbl : Nat → Nat) (ps : List GoString)
    (h : ∀ p ∈ ps, ∀ r ∈ p, toLowerRune tbl r = r) (hs : ∀ p ∈ ps, startsLower p = true) :
    toLower tbl (camelBody (ps.flatMap (capitalize tbl)))
      = ps.flatMap (fun q => underscore :: q) := by
  induction ps with
  | nil => rfl
  | cons p ps ih =>
    have ih2 := ih (fun q hq => h q (List.mem_cons_of_mem _ hq))
      (fun q hq => hs q (List.mem_cons_of_mem _ hq))
    simp only [List.flatMap_cons, camelBody_append, toLower_append, ih2]
    rw [toLower_camelBody_capitalize tbl p (h p (List.mem_cons_self _ _))
      (hs p (List.mem_cons_self _ _))]

/-- C1 (as amended): for every input `x` that is lowercase (`strings.ToLower` leaves it
unchanged), whose segments are all non-empty (no leading, trailing or consecutive delimiter)
and whose segments after the first each start with a letter `a`-`z`,
`CamelToSnakeCase(SnakeToCamelCase(x)) == x`. -/
theorem CamelToSnakeCase_SnakeToCamelCase (tbl : Nat → Nat) (x : GoString)
    (hlow : toLower tbl x = x)
    (hseg : ∀ p ∈ split x, p ≠ [])
    (hstart : ∀ p ∈ (split x).tail, startsLower p = true) :
    CamelToSnakeCase tbl (SnakeToCamelCase tbl x) = x := by
  have hfix : ∀ r ∈ x, toLowerRune tbl r = r := (toLower_eq_self_iff tbl x).1 hlow
  have hjoin := joinSegs_split x
  have hmem := mem_of_mem_split x
  cases hsp : split x with
  | nil => exact absurd hsp (split_ne_nil x)
  | cons p0 ps =>
    rw [hsp] at hseg hstart hjoin hmem
    have hp0 : p0 ≠ [] := hseg p0 (List.mem_cons_self _ _)
    have hp0fix : ∀ r ∈ p0, toLowerRune tbl r = r :=
      fun r hr => hfix r (hmem p0 (List.mem_cons_self _ _) r hr)
    have hpsfix : ∀ p ∈ ps, ∀ r ∈ p, toLowerRune tbl r = r :=
      fun p hp r hr => hfix r (hmem p (List.mem_cons_of_mem _ hp) r hr)
    have hsnake : SnakeToCamelCase tbl x = p0 ++ ps.flatMap (capitalize tbl) := by
      by_cases hm : underscore ∈ x
      · rw [SnakeToCamelCase_of_mem tbl x hm, hsp]
        simp [(toLower_eq_self_iff tbl p0).2 hp0fix]
      · have h1 := split_of_not_mem x hm
        rw [hsp] at h1
        have h2 : p0 = x := by simpa using (List.cons.inj h1).1
        have h3 : ps = [] := (List.cons.inj h1).2
        rw [SnakeToCamelCase_of_not_mem tbl x hm, hlow, h3, h2]
        simp
    rw [hsnake]
    cases p0 with
    | nil => exact absurd rfl hp0
    | cons a as =>
      rw [List.cons_append, CamelToSnakeCase_cons, camelBody_append]
      have ha : toLowerRune tbl a = a := hp0fix a (List.mem_cons_self _ _)
      have has : ∀ r ∈ as, toLowerRune tbl r = r :=
        fun r hr => hp0fix r (List.mem_cons_of_mem _ hr)
      rw [camelBody_of_fixed tbl as has]
      have h4 := toLower_camelBody_segments tbl ps hpsfix hstart
      have h5 : toLower tbl (a :: (as ++ camelBody (ps.flatMap (capitalize tbl))))
          = a :: (as ++ ps.flatMap (fun q => underscore :: q)) := by
        show toLowerRune tbl a :: toLower tbl (as ++ camelBody (ps.flatMap (capitalize tbl))) = _
        rw [ha, toLower_append, h4, (toLower_eq_self_iff tbl as).2 has]
      rw [h5]
      simpa [joinSegs] using hjoin

/-- Witness of C1 (as amended) at `nat_gateway_public_ips`. -/
theorem CamelToSnakeCase_SnakeToCamelCase_witness :
    toLower id (runes "nat_gateway_public_ips") = runes "nat_gateway_public_ips" ∧
    (∀ p ∈ split (runes "nat_gateway_public_ips"), p ≠ []) ∧
    (∀ p ∈ (split (runes "nat_gateway_public_ips")).tail, startsLower p = true) ∧
    CamelToSnakeCase id (SnakeToCamelCase id (runes "nat_gateway_public_ips"))
      = runes "nat_gateway_public_ips" :=
  ⟨by decide, by decide, by decide,
    CamelToSnakeCase_SnakeToCamelCase id (runes "nat_gateway_public_ips")
      (by decide) (by decide) (by decide)⟩

/-- C1 (as stated) fails: `tier_1` is non-empty, underscore-delimited, lowercase and has no
consecutive delimiters, yet the round trip yields `tier1`, whatever the case table; likewise
`foo_` comes back as `foo` and `Foo_bar` as `foo_bar`. -/
theorem CamelToSnakeCase_SnakeToCamelCase_counterexample :
    runes "tier_1" ≠ [] ∧ noConsecutiveDelims (runes "tier_1") = true ∧
    (∀ tbl : Nat → Nat,
      CamelToSnakeCase tbl (SnakeToCamelCase tbl (runes "tier_1")) = runes "tier1") ∧
    runes "tier1" ≠ runes "tier_1" ∧
    noConsecutiveDelims (runes "foo_") = true ∧
    (∀ tbl : Nat → Nat,
      CamelToSnakeCase tbl (SnakeToCamelCase tbl (runes "foo_")) = runes "foo") ∧
    noConsecutiveDelims (runes "Foo_bar") = true ∧
    (∀ tbl : Nat → Nat,
      CamelToSnakeCase tbl (SnakeToCamelCase tbl (runes "Foo_bar")) = runes "foo_bar") :=
  ⟨by decide, by decide, fun _ => rfl, by decide, by decide, fun _ => rfl, by decide,
    fun _ => rfl⟩

/-! ## `SnakeToCamelCase` -/

/-- C3: the input `_foo` has exactly one non-empty segment, `foo`, whose lowercasing is `foo`,
but `SnakeToCamelCase` returns `Foo`: the segment is written by the `i != 0` branch.  With a
trailing delimiter (`foo_`) the result is `foo`. -/
theorem SnakeToCamelCase_single_segment_leading_delim :
    (split (runes "_foo")).filter (fun p => p ≠ []) = [runes "foo"] ∧
    (∀ tbl : Nat → Nat,
      toLower tbl (runes "foo") = runes "foo" ∧
      SnakeToCamelCase tbl (runes "_foo") = runes "Foo" ∧
      SnakeToCamelCase tbl (runes "foo_") = runes "foo") ∧
    runes "Foo" ≠ runes "foo" :=
  ⟨by decide, fun _ => ⟨rfl, rfl, rfl⟩, by decide⟩

/-- C4: on the non-empty input `_foo` the result of `SnakeToCamelCase` is `Foo`, which is
non-empty and starts with the uppercase letter `F`. -/
theorem SnakeToCamelCase_first_rune_upper :
    runes "_foo" ≠ [] ∧
    ∀ tbl : Nat → Nat,
      SnakeToCamelCase tbl (runes "_foo") ≠ [] ∧
      (SnakeToCamelCase tbl (runes "_foo")).head? = some 70 ∧
      isUpperAZ 70 = true :=
  ⟨by decide, fun tbl =>
    ⟨(show SnakeToCamelCase tbl (runes "_foo") = runes "Foo" from rfl) ▸ (by decide), rfl, rfl⟩⟩

/-- C5: for every ASCII input that contains a `_` and whose first segment is non-empty,
`SnakeToCamelCase` returns the lowercased first segment followed, in order and with no
separator, by each later non-empty segment with its first character uppercased and its
remainder lowercased; empty segments contribute nothing (`a__b` gives `aB`), and the four
documented examples evaluate as documented. -/
theorem SnakeToCamelCase_spec :
    (∀ (tbl : Nat → Nat) (s : GoString),
      (∀ r ∈ s, r < 128) → underscore ∈ s → ((split s).headD []) ≠ [] →
      SnakeToCamelCase tbl s
        = lowerASCII ((split s).headD [])
          ++ (((split s).tail.filter (fun p => p ≠ [])).map capitalizeASCII).flatten) ∧
    (∀ tbl : Nat → Nat,
      SnakeToCamelCase tbl (runes "a__b") = runes "aB" ∧
      SnakeToCamelCase tbl (runes "deployment_summary") = runes "deploymentSummary" ∧
      SnakeToCamelCase tbl (runes "azure_iot_operations") = runes "azureIotOperations" ∧
      SnakeToCamelCase tbl (runes "acr_network_posture") = runes "acrNetworkPosture" ∧
      SnakeToCamelCase tbl (runes "nat_gateway_public_ips") = runes "natGatewayPublicIps") := by
  refine ⟨?_, fun _ => ⟨rfl, rfl, rfl, rfl, rfl⟩⟩
  intro tbl s hascii hdelim _
  rw [SnakeToCamelCase_of_mem tbl s hdelim]
  have hmem := mem_of_mem_split s
  cases hsp : split s with
  | nil => exact absurd hsp (split_ne_nil s)
  | cons p0 ps =>
    rw [hsp] at hmem
    have h0 : ∀ r ∈ p0, r < 128 := fun r hr => hascii r (hmem p0 (List.mem_cons_self _ _) r hr)
    have hps : ∀ p ∈ ps, ∀ r ∈ p, r < 128 :=
      fun p hp r hr => hascii r (hmem p (List.mem_cons_of_mem _ hp) r hr)
    simp only [List.headD, List.tail_cons]
    rw [toLower_ascii tbl p0 h0]
    congr 1
    clear hsp hmem
    induction ps with
    | nil => rfl
    | cons p ps ih =>
      have ih2 := ih (fun q hq => hps q (List.mem_cons_of_mem _ hq))
      have hp := capitalize_ascii tbl p (hps p (List.mem_cons_self _ _))
      by_cases hpe : p = []
      · subst hpe
        simpa [capitalize] using ih2
      · simp [List.filter_cons, hpe, hp, ih2]

/-- Witness of C5 at `a__b`. -/
theorem SnakeToCamelCase_spec_witness :
    (∀ r ∈ runes "a__b", r < 128) ∧ underscore ∈ runes "a__b" ∧
    ((split (runes "a__b")).headD []) ≠ [] ∧
    SnakeToCamelCase id (runes "a__b")
      = lowerASCII ((split (runes "a__b")).headD [])
        ++ (((split (runes "a__b")).tail.filter (fun p => p ≠ [])).map capitalizeASCII).flatten :=
  ⟨by decide, by decide, by decide,
    SnakeToCamelCase_spec.1 id (runes "a__b") (by decide) (by decide) (by decide)⟩

theorem capitalize_no_delim (tbl : Nat → Nat) (htbl : ∀ r, 127 < r → tbl r ≠ underscore)
    (p : GoString) (hp : underscore ∉ p) : underscore ∉ capitalize tbl p := by
  cases p with
  | nil => simp [capitalize]
  | cons c rest =>
    have hc : c ≠ underscore := fun e => hp (by simp [e])
    have hrest : underscore ∉ toLower tbl rest := by
      intro hm
      rcases List.mem_map.1 hm with ⟨r, hr, e⟩
      exact toLowerRune_ne_underscore tbl htbl r (fun e2 => hp (by simp [← e2, hr])) e
    simp only [capitalize]
    split_ifs with h
    · intro hm
      rcases List.mem_cons.1 hm with e | e
      · unfold toUpperASCII at e
        split_ifs at e with h2
        · rw [isLowerAZ_iff] at h2
          unfold underscore at e
          omega
        · exact hc e.symm
      · exact hrest e
    · intro hm
      rcases List.mem_cons.1 hm with e | e
      · simp [underscore, runeError] at e
      · rcases List.mem_append.1 e with e2 | e2
        · have := List.eq_of_mem_replicate e2
          simp [underscore, runeError] at this
        · exact hrest e2

/-- C6: for every input string the result of `SnakeToCamelCase` contains no `_`, given that
the Unicode lowercase table never maps a non-ASCII rune to `_`. -/
theorem SnakeToCamelCase_no_delim (tbl : Nat → Nat)
    (htbl : ∀ r, 127 < r → tbl r ≠ underscore) (s : GoString) :
    underscore ∉ SnakeToCamelCase tbl s := by
  have hlow : ∀ p : GoString, underscore ∉ p → underscore ∉ toLower tbl p := by
    intro p hp hm
    rcases List.mem_map.1 hm with ⟨r, hr, e⟩
    exact toLowerRune_ne_underscore tbl htbl r (fun e2 => hp (by simpa [← e2] using hr)) e
  by_cases hm : underscore ∈ s
  · rw [SnakeToCamelCase_of_mem tbl s hm]
    have hnd := mem_split_no_delim s
    cases hsp : split s with
    | nil => exact absurd hsp (split_ne_nil s)
    | cons p0 ps =>
      rw [hsp] at hnd
      simp only [List.headD, List.tail_cons, List.mem_append, List.mem_flatMap, not_or,
        not_exists, not_and]
      exact ⟨hlow p0 (hnd p0 (List.mem_cons_self _ _)),
        fun p hp => capitalize_no_delim tbl htbl p (hnd p (List.mem_cons_of_mem _ hp))⟩
  · rw [SnakeToCamelCase_of_not_mem tbl s hm]
    exact hlow s hm

/-- Witness of C6 with the identity table at `_a__b_`. -/
theorem SnakeToCamelCase_no_delim_witness :
    (∀ r, 127 < r → id r ≠ underscore) ∧
    underscore ∉ SnakeToCamelCase id (runes "_a__b_") :=
  ⟨fun r h => by simp only [id, underscore]; omega,
    SnakeToCamelCase_no_delim id (fun r h => by simp only [id, underscore]; omega)
      (runes "_a__b_")⟩

/-! ## `CamelToSnakeCase` -/

theorem flatMap_enumFrom_succ (rs : GoString) :
    ∀ n : Nat,
      (List.enumFrom (n + 1) rs).flatMap
        (fun ir => if 0 < ir.1 ∧ isUpperAZ ir.2 = true then [underscore, ir.2] else [ir.2])
      = camelBody rs := by
  induction rs with
  | nil => intro n; rfl
  | cons r rs ih =>
    intro n
    have := ih (n + 1)
    simp only [camelBody] at this
    simp only [List.enumFrom_cons, List.flatMap_cons, camelBody, this]
    simp

theorem insertDelims_cons (r : Nat) (rs : GoString) :
    insertDelims (r :: rs) = r :: camelBody rs := by
  have := flatMap_enumFrom_succ rs 0
  simp only [Nat.zero_add] at this
  simp [insertDelims, List.enum, List.enumFrom_cons, this]

theorem CamelToSnakeCase_eq_insertDelims (tbl : Nat → Nat) (s : GoString) :
    CamelToSnakeCase tbl s = toLower tbl (insertDelims s) := by
  cases s with
  | nil => rfl
  | cons r rs => rw [CamelToSnakeCase_cons, insertDelims_cons]

theorem camelBody_ascii (rs : GoString) (h : ∀ r ∈ rs, r < 128) : ∀ r ∈ camelBody rs, r < 128 := by
  intro r hr
  simp only [camelBody, List.mem_flatMap] at hr
  rcases hr with ⟨a, ha, hra⟩
  split_ifs at hra
  · simp only [List.mem_cons, List.mem_singleton, List.not_mem_nil, or_false] at hra
    rcases hra with e | e
    · rw [e]; decide
    · rw [e]; exact h a ha
  · simp only [List.mem_singleton] at hra
    rw [hra]; exact h a ha

theorem camelBody_length (rs : GoString) :
    (camelBody rs).length = rs.length + rs.countP isUpperAZ := by
  induction rs with
  | nil => rfl
  | cons r rs ih =>
    simp only [camelBody, List.flatMap_cons, List.length_append] at ih ⊢
    by_cases hr : isUpperAZ r = true
    · simp [hr, ih]; omega
    · simp [hr, ih]; omega

theorem byteLen_ascii (s : GoString) (h : ∀ r ∈ s, r < 128) : byteLen s = s.length := by
  induction s with
  | nil => rfl
  | cons c cs ih =>
    have hc : c < 128 := h c (List.mem_cons_self _ _)
    have := ih (fun r hr => h r (List.mem_cons_of_mem _ hr))
    simp only [byteLen, List.map_cons, List.sum_cons, List.length_cons] at this ⊢
    simp [runeLen, hc, this]; omega

theorem lowerASCII_ascii (s : GoString) (h : ∀ r ∈ s, r < 128) : ∀ r ∈ lowerASCII s, r < 128 := by
  intro r hr
  rcases List.mem_map.1 hr with ⟨a, ha, e⟩
  have := h a ha
  split_ifs at e with hu
  · rw [isUpperAZ_iff] at hu; omega
  · omega

/-- C7: for every ASCII input `s`, `CamelToSnakeCase(s)` is the lowercasing of the string
obtained from `s` by inserting one `_` immediately before every letter `A`-`Z` that is not at
position 0, and its length is `len(s)` plus the number of uppercase letters at positions
`> 0`; consecutive uppercase letters each get their own delimiter (`aBC` gives `a_b_c`), and
the three documented examples evaluate as documented. -/
theorem CamelToSnakeCase_spec :
    (∀ (tbl : Nat → Nat) (s : GoString), (∀ r ∈ s, r < 128) →
      CamelToSnakeCase tbl s = lowerASCII (insertDelims s) ∧
      byteLen (CamelToSnakeCase tbl s) = byteLen s + (s.drop 1).countP isUpperAZ) ∧
    (∀ tbl : Nat → Nat,
      CamelToSnakeCase tbl (runes "aBC") = runes "a_b_c" ∧
      CamelToSnakeCase tbl (runes "resourceGroup") = runes "resource_group" ∧
      CamelToSnakeCase tbl (runes "keyVaultName") = runes "key_vault_name" ∧
      CamelToSnakeCase tbl (runes "aioIdentity") = runes "aio_identity") := by
  refine ⟨?_, fun _ => ⟨rfl, rfl, rfl, rfl⟩⟩
  intro tbl s hascii
  have hins : ∀ r ∈ insertDelims s, r < 128 := by
    cases s with
    | nil => intro r hr; simp [insertDelims] at hr
    | cons c cs =>
      rw [insertDelims_cons]
      intro r hr
      rcases List.mem_cons.1 hr with e | e
      · rw [e]; exact hascii c (List.mem_cons_self _ _)
      · exact camelBody_ascii cs (fun a ha => hascii a (List.mem_cons_of_mem _ ha)) r e
  have heq : CamelToSnakeCase tbl s = lowerASCII (insertDelims s) := by
    rw [CamelToSnakeCase_eq_insertDelims, toLower_ascii tbl _ hins]
  refine ⟨heq, ?_⟩
  rw [heq, byteLen_ascii _ (lowerASCII_ascii _ hins), byteLen_ascii s hascii]
  cases s with
  | nil => rfl
  | cons c cs =>
    rw [insertDelims_cons]
    simp [lowerASCII, camelBody_length]
    omega

/-- Witness of C7 at `aBC`. -/
theorem CamelToSnakeCase_spec_witness :
    (∀ r ∈ runes "aBC", r < 128) ∧
    CamelToSnakeCase id (runes "aBC") = lowerASCII (insertDelims (runes "aBC")) ∧
    byteLen (CamelToSnakeCase id (runes "aBC"))
      = byteLen (runes "aBC") + ((runes "aBC").drop 1).countP isUpperAZ :=
  ⟨by decide, CamelToSnakeCase_spec.1 id (runes "aBC") (by decide)⟩

theorem toLowerRune_idem (tbl : Nat → Nat)
    (hidem : ∀ r, 127 < r → toLowerRune tbl (tbl r) = tbl r) (a : Nat) :
    toLowerRune tbl (toLowerRune tbl a) = toLowerRune tbl a := by
  by_cases h1 : a ≤ 127
  · by_cases h2 : isUpperAZ a = true
    · have h3 : toLowerRune tbl a = a + 32 := by simp [toLowerRune, h1, h2]
      rw [isUpperAZ_iff] at h2
      have h4 : a + 32 ≤ 127 := by omega
      have h5 : isUpperAZ (a + 32) = false := by rw [isUpperAZ_eq_false_iff]; omega
      rw [h3]
      simp [toLowerRune, h4, h5]
    · have h3 : toLowerRune tbl a = a := by simp [toLowerRune, h1, h2]
      rw [h3, h3]
  · have h3 : toLowerRune tbl a = tbl a := by simp [toLowerRune, h1]
    rw [h3]
    exact hidem a (by omega)

/-- C8 (as amended): for every input string the result of `CamelToSnakeCase` contains no
letter `A`-`Z` (as soon as the Unicode lowercase table yields none) and is left unchanged by
`strings.ToLower` (as soon as lowercasing is idempotent on the values of that table): every
letter that has a lowercase form is in that form.  An uppercase letter without a lowercase
form is kept as it is. -/
theorem CamelToSnakeCase_lowercase (tbl : Nat → Nat) (s : GoString) :
    ((∀ r, 127 < r → isUpperAZ (tbl r) = false) →
      ∀ r ∈ CamelToSnakeCase tbl s, isUpperAZ r = false) ∧
    ((∀ r, 127 < r → toLowerRune tbl (tbl r) = tbl r) →
      toLower tbl (CamelToSnakeCase tbl s) = CamelToSnakeCase tbl s) := by
  rw [CamelToSnakeCase_eq_insertDelims]
  constructor
  · intro htbl r hr
    rcases List.mem_map.1 hr with ⟨a, _, e⟩
    rw [← e]
    exact toLowerRune_not_upper tbl htbl a
  · intro hidem
    rw [toLower_eq_self_iff]
    intro r hr
    rcases List.mem_map.1 hr with ⟨a, _, e⟩
    rw [← e]
    exact toLowerRune_idem tbl hidem a

/-- Witness of C8 (as amended) with the identity table at `keyVaultName`. -/
theorem CamelToSnakeCase_lowercase_witness :
    (∀ r, 127 < r → isUpperAZ (id r) = false) ∧
    (∀ r, 127 < r → toLowerRune id (id r) = id r) ∧
    (∀ r ∈ CamelToSnakeCase id (runes "keyVaultName"), isUpperAZ r = false) ∧
    toLower id (CamelToSnakeCase id (runes "keyVaultName"))
      = CamelToSnakeCase id (runes "keyVaultName") :=
  have h1 : ∀ r, 127 < r → isUpperAZ (id r) = false := fun r h => by
    rw [isUpperAZ_eq_false_iff]; simp only [id]; omega
  have h2 : ∀ r, 127 < r → toLowerRune id (id r) = id r := fun r h => by
    have : ¬ r ≤ 127 := by omega
    simp [toLowerRune, this]
  ⟨h1, h2, (CamelToSnakeCase_lowercase id (runes "keyVaultName")).1 h1,
    (CamelToSnakeCase_lowercase id (runes "keyVaultName")).2 h2⟩

/-- C8 (as stated) fails: U+03D2 (GREEK UPSILON WITH HOOK SYMBOL) is an uppercase letter
without a lowercase form, so `unicode.IsUpper` holds for it and `unicode.ToLower` returns it
unchanged.  With these two entries of the standard library's tables,
`CamelToSnakeCase("ϒ")` is `"ϒ"` itself and contains an uppercase letter, although
it contains no letter `A`-`Z`. -/
theorem CamelToSnakeCase_lowercase_counterexample :
    (∀ (tbl : Nat → Nat) (upperTbl : Nat → Bool), tbl 0x3D2 = 0x3D2 → upperTbl 0x3D2 = true →
      CamelToSnakeCase tbl [0x3D2] = [0x3D2] ∧
      ∃ r ∈ CamelToSnakeCase tbl [0x3D2], isUpperRune upperTbl r = true) ∧
    CamelToSnakeCase (fun r => r) [0x3D2] = [0x3D2] ∧
    isUpperAZ 0x3D2 = false := by
  refine ⟨?_, by decide, by decide⟩
  intro tbl upperTbl h1 h2
  have hc : CamelToSnakeCase tbl [0x3D2] = [0x3D2] := by
    simp [CamelToSnakeCase, camelLoop, toLower, toLowerRune, isUpperAZ, h1]
  refine ⟨hc, ?_⟩
  rw [hc]
  exact ⟨0x3D2, by simp, by simp [isUpperRune, h2]⟩

/-! ## `transformMapKeysRecursive` -/

theorem mapSet_of_not_mem (m : GoMap) (k : GoString) (v : Value) (h : k ∉ mapKeys m) :
    mapSet m k v = m ++ [(k, v)] := by
  induction m with
  | nil => rfl
  | cons e rest ih =>
    obtain ⟨k1, v1⟩ := e
    have h1 : k1 ≠ k := fun e => h (by simp [mapKeys, e])
    have h2 : k ∉ mapKeys rest := fun e => h (by simp only [mapKeys, List.map_cons, List.mem_cons]; exact Or.inr e)
    simp [mapSet, h1, ih h2]

theorem transformEntries_of_distinct (tbl : Nat → Nat) (es : GoMap) :
    ∀ result : GoMap,
      (mapKeys result ++ es.map (fun e => CamelToSnakeCase tbl e.1)).Nodup →
      transformEntries tbl es result
        = result ++ es.map
            (fun e => (CamelToSnakeCase tbl e.1, transformMapKeysRecursive tbl e.2)) := by
  induction es with
  | nil => intro result _; simp [transformEntries]
  | cons e rest ih =>
    intro result hnd
    obtain ⟨key, val⟩ := e
    have hk : CamelToSnakeCase tbl key ∉ mapKeys result := by
      intro hm
      rw [List.nodup_append] at hnd
      exact hnd.2.2 hm (by simp)
    have hnd2 : (mapKeys (result ++ [(CamelToSnakeCase tbl key,
        transformMapKeysRecursive tbl val)]) ++ rest.map (fun e => CamelToSnakeCase tbl e.1)).Nodup := by
      simpa [mapKeys] using hnd
    simp only [transformEntries]
    rw [mapSet_of_not_mem _ _ _ hk, ih _ hnd2]
    simp

theorem transformMapKeysRecursive_map_eq (tbl : Nat → Nat) (m : GoMap)
    (h : distinctImages tbl m = true) :
    transformMapKeysRecursive tbl (.map m)
      = .map (m.map (fun e => (CamelToSnakeCase tbl e.1, transformMapKeysRecursive tbl e.2))) := by
  have hnd : (m.map (fun e => CamelToSnakeCase tbl e.1)).Nodup := by
    simpa [distinctImages] using h
  simp only [transformMapKeysRecursive]
  rw [transformEntries_of_distinct tbl m [] (by simpa [mapKeys] using hnd)]
  simp

theorem mapGet_isSome_mem (m : GoMap) (k : GoString) (v : Value) (h : mapGet m k = some v) :
    k ∈ mapKeys m := by
  induction m with
  | nil => simp [mapGet] at h
  | cons e rest ih =>
    obtain ⟨k1, v1⟩ := e
    simp only [mapGet] at h
    by_cases hk : k1 = k
    · simp [mapKeys, hk]
    · simp only [hk, if_false] at h
      simp only [mapKeys, List.map_cons, List.mem_cons]
      exact Or.inr (ih h)

theorem mapGet_renamed (tbl : Nat → Nat) (m : GoMap)
    (hnd : (m.map (fun e => CamelToSnakeCase tbl e.1)).Nodup) (k : GoString) (v : Value)
    (h : mapGet m k = some v) :
    mapGet (m.map (fun e => (CamelToSnakeCase tbl e.1, transformMapKeysRecursive tbl e.2)))
        (CamelToSnakeCase tbl k)
      = some (transformMapKeysRecursive tbl v) := by
  induction m with
  | nil => simp [mapGet] at h
  | cons e rest ih =>
    obtain ⟨k1, v1⟩ := e
    rw [List.map_cons, List.nodup_cons] at hnd
    simp only [mapGet] at h
    by_cases hk : k1 = k
    · simp only [hk, if_true, Option.some.injEq] at h
      simp [mapGet, hk, h]
    · simp only [hk, if_false] at h
      have hmem := mapGet_isSome_mem rest k v h
      have hne : CamelToSnakeCase tbl k1 ≠ CamelToSnakeCase tbl k := by
        intro e
        apply hnd.1
        simp only [List.mem_map]
        simp only [mapKeys, List.mem_map] at hmem
        obtain ⟨a, ha, hak⟩ := hmem
        exact ⟨a, ha, by rw [hak, e]⟩
      simp only [List.map_cons, mapGet, hne, if_false]
      exact ih hnd.2 h

/-- C9: for every mapping `m` whose keys have pairwise distinct `CamelToSnakeCase` images,
`transformMapKeysRecursive(m)` is a mapping whose keys are exactly the images of the keys of
`m` and which sends `CamelToSnakeCase(k)` to `transformMapKeysRecursive(m[k])` for every key
`k` of `m`; `{"resourceGroup": {"keyVaultName": "x"}}` becomes
`{"resource_group": {"key_vault_name": "x"}}`. -/
theorem transformMapKeysRecursive_map :
    (∀ (tbl : Nat → Nat) (m : GoMap), distinctImages tbl m = true →
      ∃ res : GoMap,
        transformMapKeysRecursive tbl (.map m) = .map res ∧
        mapKeys res = (mapKeys m).map (CamelToSnakeCase tbl) ∧
        ∀ k v, mapGet m k = some v →
          mapGet res (CamelToSnakeCase tbl k) = some (transformMapKeysRecursive tbl v)) ∧
    (∀ tbl : Nat → Nat,
      transformMapKeysRecursive tbl
          (.map [(runes "resourceGroup", .map [(runes "keyVaultName", .str (runes "x"))])])
        = .map [(runes "resource_group", .map [(runes "key_vault_name", .str (runes "x"))])]) := by
  refine ⟨?_, fun _ => rfl⟩
  intro tbl m h
  refine ⟨_, transformMapKeysRecursive_map_eq tbl m h, ?_, ?_⟩
  · simp [mapKeys]
  · intro k v hkv
    exact mapGet_renamed tbl m (by simpa [distinctImages] using h) k v hkv

/-- Witness of C9 at a mapping with two keys, one of them holding a nested mapping. -/
theorem transformMapKeysRecursive_map_witness :
    distinctImages id
        [(runes "resourceGroup", .map [(runes "keyVaultName", .str (runes "x"))]),
         (runes "aioIdentity", .null)] = true ∧
    ∃ res : GoMap,
      transformMapKeysRecursive id
          (.map [(runes "resourceGroup", .map [(runes "keyVaultName", .str (runes "x"))]),
                 (runes "aioIdentity", .null)]) = .map res ∧
      mapKeys res = (mapKeys
          [(runes "resourceGroup", .map [(runes "keyVaultName", .str (runes "x"))]),
           (runes "aioIdentity", .null)]).map (CamelToSnakeCase id) ∧
      ∀ k v, mapGet
          [(runes "resourceGroup", .map [(runes "keyVaultName", .str (runes "x"))]),
           (runes "aioIdentity", .null)] k = some v →
        mapGet res (CamelToSnakeCase id k) = some (transformMapKeysRecursive id v) :=
  ⟨by decide, transformMapKeysRecursive_map.1 id _ (by decide)⟩

theorem transformItems_eq_map (tbl : Nat → Nat) (xs : List Value) :
    transformItems tbl xs = xs.map (transformMapKeysRecursive tbl) := by
  induction xs with
  | nil => rfl
  | cons x rest ih => simp [transformItems, ih]

mutual
theorem shapeOf_transform (tbl : Nat → Nat) :
    ∀ v : Value, distinctImagesDeep tbl v = true →
      shapeOf (transformMapKeysRecursive tbl v) = shapeOf v
  | .null, _ => rfl
  | .str _, _ => rfl
  | .num _, _ => rfl
  | .bool _, _ => rfl
  | .map es, h => by
    simp only [distinctImagesDeep, Bool.and_eq_true] at h
    rw [transformMapKeysRecursive_map_eq tbl es h.1]
    simp only [shapeOf]
    rw [shapeOfEntries_transform tbl es h.2]
  | .seq xs, h => by
    simp only [distinctImagesDeep] at h
    simp only [transformMapKeysRecursive, shapeOf, transformItems_eq_map]
    rw [shapeOfItems_transform tbl xs h]
theorem shapeOfEntries_transform (tbl : Nat → Nat) :
    ∀ es : GoMap, distinctImagesEntries tbl es = true →
      shapeOfEntries
          (es.map (fun e => (CamelToSnakeCase tbl e.1, transformMapKeysRecursive tbl e.2)))
        = shapeOfEntries es
  | [], _ => rfl
  | (k, v) :: rest, h => by
    simp only [distinctImagesEntries, Bool.and_eq_true] at h
    simp only [List.map_cons, shapeOfEntries]
    rw [shapeOf_transform tbl v h.1, shapeOfEntries_transform tbl rest h.2]
theorem shapeOfItems_transform (tbl : Nat → Nat) :
    ∀ xs : List Value, distinctImagesItems tbl xs = true →
      shapeOfItems (xs.map (transformMapKeysRecursive tbl)) = shapeOfItems xs
  | [], _ => rfl
  | v :: rest, h => by
    simp only [distinctImagesItems, Bool.and_eq_true] at h
    simp only [List.map_cons, shapeOfItems]
    rw [shapeOf_transform tbl v h.1, shapeOfItems_transform tbl rest h.2]
end

/-- C10 (as amended): for every nested value in which, at every nesting depth, the keys of
each mapping have pairwise distinct `CamelToSnakeCase` images, the output of
`transformMapKeysRecursive` has the nesting structure of its input: every mapping and every
sequence of the result has exactly as many entries as the corresponding one of the input. -/
theorem transformMapKeysRecursive_shape (tbl : Nat → Nat) (v : Value)
    (h : distinctImagesDeep tbl v = true) :
    shapeOf (transformMapKeysRecursive tbl v) = shapeOf v :=
  shapeOf_transform tbl v h

/-- Witness of C10 (as amended) at a sequence holding a nested mapping. -/
theorem transformMapKeysRecursive_shape_witness :
    distinctImagesDeep id
        (.seq [.map [(runes "resourceGroup", .map [(runes "keyVaultName", .num 1)]),
                     (runes "aioIdentity", .null)], .bool true]) = true ∧
    shapeOf (transformMapKeysRecursive id
        (.seq [.map [(runes "resourceGroup", .map [(runes "keyVaultName", .num 1)]),
                     (runes "aioIdentity", .null)], .bool true]))
      = shapeOf
        (.seq [.map [(runes "resourceGroup", .map [(runes "keyVaultName", .num 1)]),
                     (runes "aioIdentity", .null)], .bool true]) :=
  ⟨by decide, transformMapKeysRecursive_shape id _ (by decide)⟩

/-- C10 (as stated) fails: the keys `resourceGroup` and `resource_group` have the same
image, so the two-entry mapping `{"resourceGroup": 1, "resource_group": 2}` is turned into a
one-entry mapping, in whichever order the entries are visited. -/
theorem transformMapKeysRecursive_shape_counterexample :
    (∀ tbl : Nat → Nat,
      transformMapKeysRecursive tbl
          (.map [(runes "resourceGroup", .num 1), (runes "resource_group", .num 2)])
        = .map [(runes "resource_group", .num 2)] ∧
      transformMapKeysRecursive tbl
          (.map [(runes "resource_group", .num 2), (runes "resourceGroup", .num 1)])
        = .map [(runes "resource_group", .num 1)]) ∧
    shapeOf (.map [(runes "resourceGroup", .num 1), (runes "resource_group", .num 2)])
      = .map [.leaf, .leaf] ∧
    shapeOf (.map [(runes "resource_group", .num 2)]) = .map [.leaf] ∧
    shapeOf (.map [(runes "resource_group", .num 1)]) = .map [.leaf] ∧
    Shape.map [.leaf] ≠ Shape.map [.leaf, .leaf] :=
  ⟨fun _ => ⟨rfl, rfl⟩, rfl, rfl, rfl, fun h => by cases h⟩

/-! ## `parseOutputsFromMap` -/

/-- C2: the struct has the single field `NatGateway any` tagged `nat_gateway`, and the raw
map contains that key with a null value.  `ParseTerraformOutputsFromMap` and
`ParseBicepOutputsFromMap` both end in the type-mismatch failure of line 263 (`value == nil`)
and leave the field unassigned, although every lookup key is present; with a non-null value
under the same key they succeed. -/
theorem ParseOutputsFromMap_null_value :
    ∀ tbl : Nat → Nat,
      mapGet [(runes "nat_gateway", Value.null)] (runes "nat_gateway") = some .null ∧
      ParseTerraformOutputsFromMap tbl [(runes "nat_gateway", .null)]
          (.ptrToStruct [(⟨runes "nat_gateway", .any, true⟩, .null)])
        = .typeMismatchFailure (runes "nat_gateway")
            [(⟨runes "nat_gateway", .any, true⟩, .null)] ∧
      mapGet [(runes "natGateway", Value.null)] (SnakeToCamelCase tbl (runes "nat_gateway"))
        = some .null ∧
      ParseBicepOutputsFromMap tbl [(runes "natGateway", .null)]
          (.ptrToStruct [(⟨runes "nat_gateway", .any, true⟩, .null)])
        = .typeMismatchFailure (runes "natGateway")
            [(⟨runes "nat_gateway", .any, true⟩, .null)] ∧
      ParseTerraformOutputsFromMap tbl [(runes "nat_gateway", .str (runes "x"))]
          (.ptrToStruct [(⟨runes "nat_gateway", .any, true⟩, .null)])
        = .success [(⟨runes "nat_gateway", .any, true⟩, .str (runes "x"))] :=
  fun _ => ⟨rfl, rfl, rfl, rfl, rfl⟩

/-! ## `transformMapKeysRecursive` on sequences and leaves -/

/-- C11: for every sequence `xs`, `transformMapKeysRecursive(xs)` is a sequence of the same
length whose `i`-th element is `transformMapKeysRecursive(xs[i])` for every index `i`; on a
sequence of two mappings the keys inside both elements are renamed and the order is kept. -/
theorem transformMapKeysRecursive_seq :
    (∀ (tbl : Nat → Nat) (xs : List Value),
      ∃ ys : List Value,
        transformMapKeysRecursive tbl (.seq xs) = .seq ys ∧
        ys.length = xs.length ∧
        ∀ i : Nat, ys[i]? = (xs[i]?).map (transformMapKeysRecursive tbl)) ∧
    (∀ tbl : Nat → Nat,
      transformMapKeysRecursive tbl
          (.seq [.map [(runes "resourceGroup", .str (runes "a"))],
                 .map [(runes "keyVaultName", .num 2)], .null])
        = .seq [.map [(runes "resource_group", .str (runes "a"))],
                .map [(runes "key_vault_name", .num 2)], .null]) := by
  refine ⟨?_, fun _ => rfl⟩
  intro tbl xs
  refine ⟨xs.map (transformMapKeysRecursive tbl), ?_, ?_, ?_⟩
  · simp only [transformMapKeysRecursive, transformItems_eq_map]
  · simp
  · intro i
    simp

theorem leavesEntries_append (a b : GoMap) :
    leavesEntries (a ++ b) = leavesEntries a ++ leavesEntries b := by
  induction a with
  | nil => rfl
  | cons e rest ih =>
    obtain ⟨k, v⟩ := e
    simp [leavesEntries, ih]

theorem leavesEntries_mapSet (m : GoMap) (k : GoString) (v : Value) :
    ∀ l ∈ leavesEntries (mapSet m k v), l ∈ leavesEntries m ∨ l ∈ leaves v := by
  induction m with
  | nil =>
    intro l hl
    simp only [mapSet, leavesEntries, List.append_nil] at hl
    exact Or.inr hl
  | cons e rest ih =>
    obtain ⟨k1, v1⟩ := e
    intro l hl
    simp only [mapSet] at hl
    split_ifs at hl with hk
    · simp only [leavesEntries, List.mem_append] at hl ⊢
      rcases hl with h | h
      · exact Or.inr h
      · exact Or.inl (Or.inr h)
    · simp only [leavesEntries, List.mem_append] at hl ⊢
      rcases hl with h | h
      · exact Or.inl (Or.inl h)
      · rcases ih l h with h2 | h2
        · exact Or.inl (Or.inr h2)
        · exact Or.inr h2

mutual
theorem leaves_transform_subset (tbl : Nat → Nat) :
    ∀ (v : Value) (l : Value), l ∈ leaves (transformMapKeysRecursive tbl v) → l ∈ leaves v
  | .null, _, h => h
  | .str _, _, h => h
  | .num _, _, h => h
  | .bool _, _, h => h
  | .map es, l, h => by
    simp only [transformMapKeysRecursive, leaves] at h ⊢
    rcases leavesEntries_transform_subset tbl es [] l h with h2 | h2
    · simp [leavesEntries] at h2
    · exact h2
  | .seq xs, l, h => by
    simp only [transformMapKeysRecursive, leaves] at h ⊢
    exact leavesItems_transform_subset tbl xs l h
theorem leavesEntries_transform_subset (tbl : Nat → Nat) :
    ∀ (es result : GoMap) (l : Value), l ∈ leavesEntries (transformEntries tbl es result) →
      l ∈ leavesEntries result ∨ l ∈ leavesEntries es
  | [], _, _, h => Or.inl (by simpa [transformEntries] using h)
  | (key, val) :: rest, result, l, h => by
    simp only [transformEntries] at h
    simp only [leavesEntries, List.mem_append]
    rcases leavesEntries_transform_subset tbl rest _ l h with h2 | h2
    · rcases leavesEntries_mapSet result _ _ l h2 with h3 | h3
      · exact Or.inl h3
      · exact Or.inr (Or.inl (leaves_transform_subset tbl val l h3))
    · exact Or.inr (Or.inr h2)
theorem leavesItems_transform_subset (tbl : Nat → Nat) :
    ∀ (xs : List Value) (l : Value), l ∈ leavesItems (transformItems tbl xs) →
      l ∈ leavesItems xs
  | [], _, h => by simpa [transformItems] using h
  | v :: rest, l, h => by
    simp only [transformItems, leavesItems, List.mem_append] at h ⊢
    rcases h with h2 | h2
    · exact Or.inl (leaves_transform_subset tbl v l h2)
    · exact Or.inr (leavesItems_transform_subset tbl rest l h2)
end

mutual
theorem leaves_transform_eq (tbl : Nat → Nat) :
    ∀ v : Value, distinctImagesDeep tbl v = true →
      leaves (transformMapKeysRecursive tbl v) = leaves v
  | .null, _ => rfl
  | .str _, _ => rfl
  | .num _, _ => rfl
  | .bool _, _ => rfl
  | .map es, h => by
    simp only [distinctImagesDeep, Bool.and_eq_true] at h
    rw [transformMapKeysRecursive_map_eq tbl es h.1]
    simp only [leaves]
    rw [leavesEntries_transform_eq tbl es h.2]
  | .seq xs, h => by
    simp only [distinctImagesDeep] at h
    simp only [transformMapKeysRecursive, leaves, transformItems_eq_map]
    rw [leavesItems_transform_eq tbl xs h]
theorem leavesEntries_transform_eq (tbl : Nat → Nat) :
    ∀ es : GoMap, distinctImagesEntries tbl es = true →
      leavesEntries
          (es.map (fun e => (CamelToSnakeCase tbl e.1, transformMapKeysRecursive tbl e.2)))
        = leavesEntries es
  | [], _ => rfl
  | (k, v) :: rest, h => by
    simp only [distinctImagesEntries, Bool.and_eq_true] at h
    simp only [List.map_cons, leavesEntries]
    rw [leaves_transform_eq tbl v h.1, leavesEntries_transform_eq tbl rest h.2]
theorem leavesItems_transform_eq (tbl : Nat → Nat) :
    ∀ xs : List Value, distinctImagesItems tbl xs = true →
      leavesItems (xs.map (transformMapKeysRecursive tbl)) = leavesItems xs
  | [], _ => rfl
  | v :: rest, h => by
    simp only [distinctImagesItems, Bool.and_eq_true] at h
    simp only [List.map_cons, leavesItems]
    rw [leaves_transform_eq tbl v h.1, leavesItems_transform_eq tbl rest h.2]
end

/-- C12: `transformMapKeysRecursive` returns null for null input and returns every string,
number and boolean unchanged.  Hence no leaf of a nested input is ever altered: every leaf
of the result is a leaf of the input, and the result has exactly the leaves of the input, in
the same order, as soon as no two keys of a mapping are renamed to the same key. -/
theorem transformMapKeysRecursive_leaf (tbl : Nat → Nat) :
    transformMapKeysRecursive tbl .null = .null ∧
    (∀ s : GoString, transformMapKeysRecursive tbl (.str s) = .str s) ∧
    (∀ n : Int, transformMapKeysRecursive tbl (.num n) = .num n) ∧
    (∀ b : Bool, transformMapKeysRecursive tbl (.bool b) = .bool b) ∧
    (∀ v l : Value, l ∈ leaves (transformMapKeysRecursive tbl v) → l ∈ leaves v) ∧
    (∀ v : Value, distinctImagesDeep tbl v = true →
      leaves (transformMapKeysRecursive tbl v) = leaves v) :=
  ⟨rfl, fun _ => rfl, fun _ => rfl, fun _ => rfl, leaves_transform_subset tbl,
    leaves_transform_eq tbl⟩

/-- Witness of C12 at `{"resourceGroup": {"keyVaultName": "x"}, "tags": [null, true, 3]}`. -/
theorem transformMapKeysRecursive_leaf_witness :
    distinctImagesDeep id
        (.map [(runes "resourceGroup", .map [(runes "keyVaultName", .str (runes "x"))]),
               (runes "tags", .seq [.null, .bool true, .num 3])]) = true ∧
    leaves (transformMapKeysRecursive id
        (.map [(runes "resourceGroup", .map [(runes "keyVaultName", .str (runes "x"))]),
               (runes "tags", .seq [.null, .bool true, .num 3])]))
      = [.str (runes "x"), .null, .bool true, .num 3] :=
  ⟨by decide,
    ((transformMapKeysRecursive_leaf id).2.2.2.2.2 _ (by decide)).trans rfl⟩

/-! ## `ValidateOutputContract` -/

theorem boolMapGet_boolMapSet (m : BoolMap) (k k2 : GoString) (b : Bool) :
    boolMapGet (boolMapSet m k b) k2 = if k = k2 then b else boolMapGet m k2 := by
  induction m with
  | nil => simp [boolMapSet, boolMapGet]
  | cons e rest ih =>
    obtain ⟨k1, b1⟩ := e
    by_cases h1 : k1 = k
    · subst h1
      by_cases h2 : k1 = k2
      · simp [boolMapSet, boolMapGet, h2]
      · simp [boolMapSet, boolMapGet, h2]
    · by_cases h2 : k1 = k2
      · have h3 : k ≠ k2 := fun e => h1 (h2.trans e.symm)
        simp [boolMapSet, boolMapGet, h1, h3]
        simp [h2]
      · simp [boolMapSet, boolMapGet, h1, h2, ih]

theorem boolMapGet_declaredLoop (declared : List GoString) :
    ∀ (declaredMap : BoolMap) (k : GoString),
      boolMapGet (declaredLoop declared declaredMap) k
        = (decide (k ∈ declared) || boolMapGet declaredMap k) := by
  induction declared with
  | nil => intro declaredMap k; simp [declaredLoop]
  | cons d rest ih =>
    intro declaredMap k
    simp only [declaredLoop, ih, boolMapGet_boolMapSet, List.mem_cons]
    by_cases h1 : d = k
    · simp [h1]
    · have h2 : ¬ k = d := fun e => h1 e.symm
      simp [h1, h2]

theorem missingLoop_eq (declaredMap : BoolMap) (required : List GoString) :
    ∀ missing : List GoString,
      missingLoop declaredMap required missing
        = missing ++ required.filter (fun name => !boolMapGet declaredMap name) := by
  induction required with
  | nil => intro missing; simp [missingLoop]
  | cons r rest ih =>
    intro missing
    simp only [missingLoop]
    by_cases h : boolMapGet declaredMap r = true
    · simp [h, ih]
    · simp [h, ih]

theorem missingLoop_declaredLoop (declared required : List GoString) :
    missingLoop (declaredLoop declared []) required [] = missingNames declared required := by
  rw [missingLoop_eq]
  simp only [List.nil_append, missingNames]
  apply List.filter_congr
  intro name _
  rw [boolMapGet_declaredLoop]
  simp [boolMapGet]

theorem ValidateOutputContract_missing (declared required : List GoString)
    (framework : GoString) :
    (ValidateOutputContract declared required framework).missing
      = missingNames declared required := by
  unfold ValidateOutputContract
  simp only [missingLoop_declaredLoop]
  split_ifs <;> rfl

theorem ValidateOutputContract_failed (declared required : List GoString)
    (framework : GoString) :
    (ValidateOutputContract declared required framework).failed
      = decide (missingNames declared required ≠ []) := by
  unfold ValidateOutputContract
  simp only [missingLoop_declaredLoop]
  by_cases h : 0 < (missingNames declared required).length
  · have : missingNames declared required ≠ [] := List.ne_nil_of_length_pos h
    simp [h, this]
  · have : missingNames declared required = [] := by
      cases hm : missingNames declared required with
      | nil => rfl
      | cons a l => rw [hm] at h; simp at h
    simp [this]

theorem missingNames_eq_nil_iff (declared required : List GoString) :
    missingNames declared required = [] ↔ ∀ name ∈ required, name ∈ declared := by
  simp [missingNames, List.filter_eq_nil_iff]

theorem missingNames_congr (d1 d2 required : List GoString)
    (h : ∀ name, name ∈ d1 ↔ name ∈ d2) :
    missingNames d1 required = missingNames d2 required := by
  unfold missingNames
  apply List.filter_congr
  intro name _
  simp [h name]

/-- C13: for every declared list, required list and framework label,
`ValidateOutputContract` succeeds if and only if every name of the required list occurs in
the declared list, so a single missing required name fails the whole check.  Declared
`[a, b, c]` with required `[a, c]` succeeds; declared `[a, b]` with required `[a, c]`
fails. -/
theorem ValidateOutputContract_succeeds_iff :
    (∀ (declared required : List GoString) (framework : GoString),
      (ValidateOutputContract declared required framework).failed = false
        ↔ ∀ name ∈ required, name ∈ declared) ∧
    (ValidateOutputContract [runes "a", runes "b", runes "c"] [runes "a", runes "c"]
        (runes "terraform")).failed = false ∧
    (ValidateOutputContract [runes "a", runes "b"] [runes "a", runes "c"]
        (runes "terraform")).failed = true := by
  refine ⟨?_, by decide, by decide⟩
  intro declared required framework
  rw [ValidateOutputContract_failed, ← missingNames_eq_nil_iff]
  simp

/-- C14: the missing list computed by `ValidateOutputContract` is exactly the subsequence
of the required list made of the names that do not occur in the declared list, in the order
of the required list, without deduplication.  Declared `[a, b]` with required `[a, c]`
gives `[c]`; required `[c, a, c]` gives `[c, c]`. -/
theorem ValidateOutputContract_missing_eq :
    (∀ (declared required : List GoString) (framework : GoString),
      (ValidateOutputContract declared required framework).missing
        = required.filter (fun name => decide (name ∉ declared))) ∧
    (ValidateOutputContract [runes "a", runes "b"] [runes "a", runes "c"]
        (runes "terraform")).missing = [runes "c"] ∧
    (ValidateOutputContract [runes "a", runes "b"] [runes "c", runes "a", runes "c"]
        (runes "bicep")).missing = [runes "c", runes "c"] :=
  ⟨fun declared required framework =>
    ValidateOutputContract_missing declared required framework, by decide, by decide⟩

/-- C15: `ValidateOutputContract` treats the declared list as a set: two declared lists
that contain the same names, in whatever order and with whatever repetitions, give the same
missing list and the same pass/fail outcome for every required list. -/
theorem ValidateOutputContract_declared_set (d1 d2 : List GoString)
    (h : ∀ name, name ∈ d1 ↔ name ∈ d2) (required : List GoString) (framework : GoString) :
    (ValidateOutputContract d1 required framework).missing
        = (ValidateOutputContract d2 required framework).missing ∧
    (ValidateOutputContract d1 required framework).failed
        = (ValidateOutputContract d2 required framework).failed := by
  rw [ValidateOutputContract_missing, ValidateOutputContract_missing,
    ValidateOutputContract_failed, ValidateOutputContract_failed,
    missingNames_congr d1 d2 required h]
  exact ⟨rfl, rfl⟩

/-- Witness of C15 at declared `[a, b]` against `[b, a, a]`, required `[a, c]`. -/
theorem ValidateOutputContract_declared_set_witness :
    (∀ name, name ∈ [runes "a", runes "b"] ↔ name ∈ [runes "b", runes "a", runes "a"]) ∧
    (ValidateOutputContract [runes "a", runes "b"] [runes "a", runes "c"]
        (runes "bicep")).missing
      = (ValidateOutputContract [runes "b", runes "a", runes "a"] [runes "a", runes "c"]
        (runes "bicep")).missing ∧
    (ValidateOutputContract [runes "a", runes "b"] [runes "a", runes "c"]
        (runes "bicep")).failed
      = (ValidateOutputContract [runes "b", runes "a", runes "a"] [runes "a", runes "c"]
        (runes "bicep")).failed :=
  have h : ∀ name, name ∈ [runes "a", runes "b"] ↔ name ∈ [runes "b", runes "a", runes "a"] :=
    fun name => by simp only [List.mem_cons, List.mem_singleton, List.not_mem_nil]; tauto
  ⟨h, ValidateOutputContract_declared_set _ _ h [runes "a", runes "c"] (runes "bicep")⟩

/-! ## `ValidateBicepContract` -/

theorem take_succ_set (x : GoString) :
    ∀ (acc : List GoString) (i : Nat), i < acc.length →
      (acc.set i x).take (i + 1) = acc.take i ++ [x] := by
  intro acc
  induction acc with
  | nil => intro i h; simp at h
  | cons a rest ih =>
    intro i h
    cases i with
    | zero => simp
    | succ j =>
      have hj : j < rest.length := by simpa using h
      simp [List.set, ih j hj]

theorem convertLoop_eq (tbl : Nat → Nat) (required : List GoString) :
    ∀ (i : Nat) (acc : List GoString), acc.length = i + required.length →
      convertLoop tbl i required acc
        = acc.take i ++ required.map (SnakeToCamelCase tbl) := by
  induction required with
  | nil =>
    intro i acc h
    simp only [convertLoop, List.map_nil, List.append_nil]
    rw [List.take_of_length_le (by simp at h; omega)]
  | cons r rest ih =>
    intro i acc h
    simp only [List.length_cons] at h
    simp only [convertLoop]
    rw [ih (i + 1) _ (by simp; omega), take_succ_set _ acc i (by omega)]
    simp

theorem ValidateBicepContract_eq (tbl : Nat → Nat) (declared required : List GoString) :
    ValidateBicepContract tbl declared required
      = ValidateOutputContract declared (required.map (SnakeToCamelCase tbl)) (runes "bicep") := by
  unfold ValidateBicepContract
  rw [convertLoop_eq tbl required 0 _ (by simp)]
  simp

/-- C16: given the declared Bicep output names `D` and the required names `R`,
`ValidateBicepContract` passes if and only if `SnakeToCamelCase(r)` occurs in `D` for every
`r` in `R`; what it checks against `D`, with the framework label `bicep`, is the list
obtained from `R` by applying `SnakeToCamelCase` position by position. -/
theorem ValidateBicepContract_passes_iff (tbl : Nat → Nat) (D R : List GoString) :
    ((ValidateBicepContract tbl D R).failed = false
      ↔ ∀ r ∈ R, SnakeToCamelCase tbl r ∈ D) ∧
    ValidateBicepContract tbl D R
      = ValidateOutputContract D (R.map (SnakeToCamelCase tbl)) (runes "bicep") ∧
    ((R.map (SnakeToCamelCase tbl)).length = R.length ∧
      ∀ i : Nat, (R.map (SnakeToCamelCase tbl))[i]? = (R[i]?).map (SnakeToCamelCase tbl)) := by
  refine ⟨?_, ValidateBicepContract_eq tbl D R, by simp, fun i => by simp⟩
  rw [ValidateBicepContract_eq, ValidateOutputContract_failed, decide_eq_false_iff_not,
    not_not, missingNames_eq_nil_iff]
  simp

/-! ## `GetOutputKeysFromStruct` and the blueprint's struct -/

theorem outputKeysLoop_eq (fields : StructValue) :
    ∀ keys : List GoString, outputKeysLoop fields keys = keys ++ tagsOf fields := by
  induction fields with
  | nil => intro keys; simp [outputKeysLoop, tagsOf]
  | cons fv rest ih =>
    obtain ⟨field, old⟩ := fv
    intro keys
    simp only [outputKeysLoop]
    by_cases h : field.tag = []
    · simp only [h, ne_eq, not_true_eq_false, if_false, ih]
      simp [tagsOf, h]
    · simp only [ne_eq, h, not_false_eq_true, if_true, ih]
      simp [tagsOf, h]

/-- C17: for every struct, `GetOutputKeysFromStruct` returns the `output` tag values of the
fields in declaration order, skipping the fields whose tag is empty or absent and without
deduplicating, and the result is the same whether the struct is passed by value or by
pointer.  A struct with the tags `resource_group_name` and `location` gives
`["resource_group_name", "location"]`. -/
theorem GetOutputKeysFromStruct_eq :
    (∀ fields : StructValue,
      GetOutputKeysFromStruct (.structByValue fields)
        = some ((fields.map (fun fv => fv.1.tag)).filter (fun tag => decide (tag ≠ []))) ∧
      GetOutputKeysFromStruct (.ptrToStruct fields)
        = GetOutputKeysFromStruct (.structByValue fields)) ∧
    GetOutputKeysFromStruct (.structByValue
        [(⟨runes "resource_group_name", .string, true⟩, .str []),
         (⟨runes "location", .string, true⟩, .str [])])
      = some [runes "resource_group_name", runes "location"] ∧
    GetOutputKeysFromStruct (.ptrToStruct
        [(⟨runes "location", .string, true⟩, .str []),
         (⟨[], .bool, true⟩, .bool false),
         (⟨runes "location", .any, false⟩, .null)])
      = some [runes "location", runes "location"] := by
  refine ⟨?_, by decide, by decide⟩
  intro fields
  simp only [GetOutputKeysFromStruct, outputKeysLoop_eq, List.nil_append, tagsOf]
  exact ⟨trivial, trivial⟩

/-- C18: every field of `BlueprintOutputs` carries a non-empty `output` tag, and
`BlueprintOutputs.GetRequiredOutputKeys` returns exactly 14 pairwise distinct names, one
per field in declaration order, from `deployment_summary` to `acr_network_posture`. -/
theorem GetRequiredOutputKeys_eq :
    (∀ fv ∈ BlueprintOutputs, fv.1.tag ≠ []) ∧
    GetRequiredOutputKeys
      = some [runes "deployment_summary", runes "security_identity", runes "observability",
          runes "nat_gateway", runes "nat_gateway_public_ips", runes "data_storage",
          runes "container_registry", runes "messaging", runes "vm_host",
          runes "arc_connected_cluster", runes "cluster_connection",
          runes "azure_iot_operations", runes "assets", runes "acr_network_posture"] ∧
    GetRequiredOutputKeys = some (BlueprintOutputs.map (fun fv => fv.1.tag)) ∧
    (GetRequiredOutputKeys.map List.length) = some 14 ∧
    BlueprintOutputs.length = 14 ∧
    (BlueprintOutputs.map (fun fv => fv.1.tag)).Nodup := by
  refine ⟨by decide, by decide, by decide, by decide, by decide, by decide⟩

/-! ## Population of the struct -/

theorem tagsOf_cons (field : Field) (old : Value) (rest : StructValue) :
    tagsOf ((field, old) :: rest)
      = if field.tag = [] then tagsOf rest else field.tag :: tagsOf rest := by
  by_cases h : field.tag = []
  · simp [tagsOf, h]
  · simp [tagsOf, h]

theorem absentKeys_cons (raw : GoMap) (keyTransform : GoString → GoString) (field : Field)
    (old : Value) (rest : StructValue) :
    absentKeys raw keyTransform ((field, old) :: rest)
      = if field.tag = [] then absentKeys raw keyTransform rest
        else if (mapGet raw (keyTransform field.tag)).isNone then
          keyTransform field.tag :: absentKeys raw keyTransform rest
        else absentKeys raw keyTransform rest := by
  unfold absentKeys
  rw [tagsOf_cons]
  by_cases h : field.tag = []
  · simp [h]
  · by_cases h2 : (mapGet raw (keyTransform field.tag)).isNone = true
    · simp [h, h2, List.filter_cons]
    · simp [h, h2, List.filter_cons]

theorem parseLoop_ok (raw : GoMap) (keyTransform : GoString → GoString)
    (transformMapKeys : Bool) (tbl : Nat → Nat) (fields : StructValue) :
    ∀ (done : StructValue) (missing : List GoString),
      noTypeMismatch raw keyTransform transformMapKeys tbl fields = true →
      parseLoop raw keyTransform transformMapKeys tbl fields done missing
        = .ok (done ++ populated raw keyTransform transformMapKeys tbl fields,
            missing ++ absentKeys raw keyTransform fields) := by
  induction fields with
  | nil => intro done missing _; simp [parseLoop, populated, absentKeys, tagsOf]
  | cons fv rest ih =>
    obtain ⟨field, old⟩ := fv
    intro done missing hno
    simp only [noTypeMismatch, List.all_cons, Bool.and_eq_true] at hno
    have hrest : noTypeMismatch raw keyTransform transformMapKeys tbl rest = true := hno.2
    have hhead := hno.1
    rw [absentKeys_cons]
    simp only [parseLoop]
    by_cases htag : field.tag = []
    · simp only [htag, if_true, ih _ _ hrest]
      simp [populated, htag]
    · simp only [htag, if_false]
      cases hget : mapGet raw (keyTransform field.tag) with
      | none =>
        simp only [ih _ _ hrest, Option.isNone_none, if_true]
        simp [populated, htag, hget]
      | some value =>
        have hm : typeMismatch
            (if transformMapKeys then transformMapKeysRecursive tbl value else value) field
              = false := by
          simpa [htag, hget] using hhead
        simp only [hm, Bool.false_eq_true, if_false, ih _ _ hrest, Option.isNone_some]
        simp [populated, htag, hget]

theorem absentKeys_ne_nil (raw : GoMap) (keyTransform : GoString → GoString)
    (fields : StructValue)
    (h : ∃ fv ∈ fields, fv.1.tag ≠ [] ∧ mapGet raw (keyTransform fv.1.tag) = none) :
    absentKeys raw keyTransform fields ≠ [] := by
  obtain ⟨fv, hfv, htag, hget⟩ := h
  intro hnil
  have hmem : keyTransform fv.1.tag ∈ absentKeys raw keyTransform fields := by
    simp only [absentKeys, tagsOf, List.mem_filter, List.mem_map, decide_eq_true_eq]
    exact ⟨⟨fv.1.tag, ⟨⟨fv, hfv, rfl⟩, htag⟩, rfl⟩, by simp [hget]⟩
  rw [hnil] at hmem
  exact List.not_mem_nil _ hmem

theorem absentKeys_eq_nil (raw : GoMap) (keyTransform : GoString → GoString)
    (fields : StructValue)
    (h : ∀ fv ∈ fields, fv.1.tag ≠ [] → ∃ value, mapGet raw (keyTransform fv.1.tag) = some value) :
    absentKeys raw keyTransform fields = [] := by
  simp only [absentKeys, tagsOf, List.filter_eq_nil_iff, List.mem_map, List.mem_filter,
    decide_eq_true_eq]
  rintro key ⟨tag, ⟨⟨fv, hfv, rfl⟩, htag⟩, rfl⟩
  obtain ⟨value, hv⟩ := h fv hfv htag
  simp [hv]

theorem typeMismatch_eq_false_iff (value : Value) (field : Field) :
    typeMismatch value field = false
      ↔ field.canSet = true ∧ hasDeclaredShape value field.typ = true := by
  obtain ⟨tag, typ, canSet⟩ := field
  cases value <;> cases typ <;> cases canSet <;>
    simp [typeMismatch, typeOf, assignableTo, hasDeclaredShape]

theorem parseOutputsFromMap_of_ok (raw : GoMap) (fields : StructValue) (framework : GoString)
    (keyTransform : GoString → GoString) (transformMapKeys : Bool) (tbl : Nat → Nat)
    (hno : noTypeMismatch raw keyTransform transformMapKeys tbl fields = true) :
    parseOutputsFromMap raw (.ptrToStruct fields) framework keyTransform transformMapKeys tbl
      = if 0 < (absentKeys raw keyTransform fields).length then
          .missingOutputs (absentKeys raw keyTransform fields)
            (if framework = runes "terraform" then runes "terraform/outputs.tf"
              else runes "bicep/main.bicep")
            (populated raw keyTransform transformMapKeys tbl fields)
        else .success (populated raw keyTransform transformMapKeys tbl fields) := by
  simp only [parseOutputsFromMap, parseLoop_ok raw keyTransform transformMapKeys tbl fields [] []
    hno, List.nil_append]

/-- C19: missing-field collection in `parseOutputsFromMap` is exhaustive.  When no present
value is type-mismatched and the lookup key of at least one tagged field is absent from the
raw map, the call fails with one missing-outputs report that lists exactly the lookup keys
(`keyTransform` applied to the tag) of all absent tagged fields, in field declaration order.
With fields tagged `x` and `y` and the raw map `{"x": 1}` the report is `["y"]`, through
`ParseTerraformOutputsFromMap` and through `ParseBicepOutputsFromMap` alike. -/
theorem parseOutputsFromMap_missing_exhaustive :
    (∀ (raw : GoMap) (fields : StructValue) (framework : GoString)
        (keyTransform : GoString → GoString) (transformMapKeys : Bool) (tbl : Nat → Nat),
      noTypeMismatch raw keyTransform transformMapKeys tbl fields = true →
      (∃ fv ∈ fields, fv.1.tag ≠ [] ∧ mapGet raw (keyTransform fv.1.tag) = none) →
      ∃ (fileHint : GoString) (now : StructValue),
        parseOutputsFromMap raw (.ptrToStruct fields) framework keyTransform transformMapKeys
            tbl
          = .missingOutputs
              ((((fields.map (fun fv => fv.1.tag)).filter (fun tag => decide (tag ≠ []))).map
                keyTransform).filter (fun key => (mapGet raw key).isNone))
              fileHint now) ∧
    (∀ tbl : Nat → Nat,
      ParseTerraformOutputsFromMap tbl [(runes "x", .num 1)]
          (.ptrToStruct [(⟨runes "x", .any, true⟩, .null), (⟨runes "y", .any, true⟩, .null)])
        = .missingOutputs [runes "y"] (runes "terraform/outputs.tf")
            [(⟨runes "x", .any, true⟩, .num 1), (⟨runes "y", .any, true⟩, .null)] ∧
      ParseBicepOutputsFromMap tbl [(runes "x", .num 1)]
          (.ptrToStruct [(⟨runes "x", .any, true⟩, .null), (⟨runes "y", .any, true⟩, .null)])
        = .missingOutputs [runes "y"] (runes "bicep/main.bicep")
            [(⟨runes "x", .any, true⟩, .num 1), (⟨runes "y", .any, true⟩, .null)]) := by
  refine ⟨?_, fun _ => ⟨rfl, rfl⟩⟩
  intro raw fields framework keyTransform transformMapKeys tbl hno habs
  have hne := absentKeys_ne_nil raw keyTransform fields habs
  have hpos : 0 < (absentKeys raw keyTransform fields).length := List.length_pos.2 hne
  refine ⟨if framework = runes "terraform" then runes "terraform/outputs.tf"
      else runes "bicep/main.bicep",
    populated raw keyTransform transformMapKeys tbl fields, ?_⟩
  rw [parseOutputsFromMap_of_ok raw fields framework keyTransform transformMapKeys tbl hno,
    if_pos hpos]
  rfl

/-- Witness of C19 at three fields, two of them absent from the raw map, with the Bicep
key transform. -/
theorem parseOutputsFromMap_missing_exhaustive_witness :
    noTypeMismatch [(runes "vmHost", .str (runes "h"))] (SnakeToCamelCase id) true id
      [(⟨runes "nat_gateway", .any, true⟩, .null), (⟨runes "vm_host", .string, true⟩, .null),
       (⟨runes "data_storage", .mapStringAny, true⟩, .null)] = true ∧
    (∃ fv ∈ [((⟨runes "nat_gateway", .any, true⟩ : Field), Value.null),
             (⟨runes "vm_host", .string, true⟩, .null),
             (⟨runes "data_storage", .mapStringAny, true⟩, .null)],
      fv.1.tag ≠ [] ∧
        mapGet [(runes "vmHost", .str (runes "h"))] (SnakeToCamelCase id fv.1.tag) = none) ∧
    ∃ (fileHint : GoString) (now : StructValue),
      parseOutputsFromMap [(runes "vmHost", .str (runes "h"))]
          (.ptrToStruct [(⟨runes "nat_gateway", .any, true⟩, .null),
            (⟨runes "vm_host", .string, true⟩, .null),
            (⟨runes "data_storage", .mapStringAny, true⟩, .null)])
          (runes "bicep") (SnakeToCamelCase id) true id
        = .missingOutputs [runes "natGateway", runes "dataStorage"] fileHint now :=
  have habs : ∃ fv ∈ [((⟨runes "nat_gateway", .any, true⟩ : Field), Value.null),
             (⟨runes "vm_host", .string, true⟩, .null),
             (⟨runes "data_storage", .mapStringAny, true⟩, .null)],
      fv.1.tag ≠ [] ∧
        mapGet [(runes "vmHost", .str (runes "h"))] (SnakeToCamelCase id fv.1.tag) = none :=
    ⟨_, List.mem_cons_self _ _, by decide, rfl⟩
  ⟨rfl, habs, parseOutputsFromMap_missing_exhaustive.1 _ _ _ _ _ _ rfl habs⟩

theorem noTypeMismatch_of_shape (raw : GoMap) (tbl : Nat → Nat) (fields : StructValue)
    (h : ∀ fv ∈ fields, fv.1.tag ≠ [] →
      fv.1.canSet = true ∧
        ∃ value, mapGet raw fv.1.tag = some value ∧ hasDeclaredShape value fv.1.typ = true) :
    noTypeMismatch raw (fun key => key) false tbl fields = true := by
  simp only [noTypeMismatch, List.all_eq_true]
  intro fv hfv
  by_cases htag : fv.1.tag = []
  · simp [htag]
  · obtain ⟨hset, value, hget, hshape⟩ := h fv hfv htag
    have hm := (typeMismatch_eq_false_iff value fv.1).2 ⟨hset, hshape⟩
    simp [htag, hget, hm]

/-- C20 (as amended): for every struct whose tagged fields are exported and every raw map
that contains every tag with a non-null value of the field's declared shape (its dynamic
type is the field's type, or the field is of type `any`),
`ParseTerraformOutputsFromMap` succeeds, and afterwards every tagged field holds exactly
the value stored under its tag in the raw map, with no key or value conversion, while every
untagged field still holds the value it had before the call. -/
theorem ParseTerraformOutputsFromMap_populates (tbl : Nat → Nat) (raw : GoMap)
    (fields : StructValue)
    (h : ∀ fv ∈ fields, fv.1.tag ≠ [] →
      fv.1.canSet = true ∧
        ∃ value, mapGet raw fv.1.tag = some value ∧ hasDeclaredShape value fv.1.typ = true) :
    ∃ now : StructValue,
      ParseTerraformOutputsFromMap tbl raw (.ptrToStruct fields) = .success now ∧
      now.length = fields.length ∧
      ∀ (i : Nat) (fv : Field × Value), fields[i]? = some fv →
        (fv.1.tag ≠ [] →
          ∃ value, mapGet raw fv.1.tag = some value ∧ now[i]? = some (fv.1, value)) ∧
        (fv.1.tag = [] → now[i]? = some fv) := by
  have hno := noTypeMismatch_of_shape raw tbl fields h
  have habs : absentKeys raw (fun key => key) fields = [] :=
    absentKeys_eq_nil raw (fun key => key) fields
      (fun fv hfv htag => (h fv hfv htag).2.imp (fun _ hv => hv.1))
  refine ⟨populated raw (fun key => key) false tbl fields, ?_, ?_, ?_⟩
  · unfold ParseTerraformOutputsFromMap
    rw [parseOutputsFromMap_of_ok raw fields _ _ false tbl hno, habs]
    rfl
  · simp [populated]
  · intro i fv hi
    have hmem : fv ∈ fields := List.getElem?_mem hi
    constructor
    · intro htag
      obtain ⟨_, value, hget, _⟩ := h fv hmem htag
      refine ⟨value, hget, ?_⟩
      simp [populated, hi, htag, hget]
    · intro htag
      simp [populated, hi, htag]

/-- Witness of C20 (as amended) at a struct with a tagged string field, an untagged field and a tagged
field of type `any` holding a nested mapping. -/
theorem ParseTerraformOutputsFromMap_populates_witness :
    (∀ fv ∈ [((⟨runes "location", .string, true⟩ : Field), Value.str []),
             (⟨[], .bool, true⟩, .bool true),
             (⟨runes "vm_host", .any, true⟩, .null)],
      fv.1.tag ≠ [] →
        fv.1.canSet = true ∧
          ∃ value,
            mapGet [(runes "vm_host", .map [(runes "hostName", .str (runes "h"))]),
                    (runes "location", .str (runes "westus")),
                    (runes "extra", .num 1)] fv.1.tag = some value ∧
              hasDeclaredShape value fv.1.typ = true) ∧
    (∃ now : StructValue,
      ParseTerraformOutputsFromMap id
          [(runes "vm_host", .map [(runes "hostName", .str (runes "h"))]),
           (runes "location", .str (runes "westus")),
           (runes "extra", .num 1)]
          (.ptrToStruct [(⟨runes "location", .string, true⟩, .str []),
                         (⟨[], .bool, true⟩, .bool true),
                         (⟨runes "vm_host", .any, true⟩, .null)])
        = .success now ∧
      now.length = 3 ∧
      ∀ (i : Nat) (fv : Field × Value),
        [((⟨runes "location", .string, true⟩ : Field), Value.str []),
         (⟨[], .bool, true⟩, .bool true),
         (⟨runes "vm_host", .any, true⟩, .null)][i]? = some fv →
        (fv.1.tag ≠ [] →
          ∃ value,
            mapGet [(runes "vm_host", .map [(runes "hostName", .str (runes "h"))]),
                    (runes "location", .str (runes "westus")),
                    (runes "extra", .num 1)] fv.1.tag = some value ∧
              now[i]? = some (fv.1, value)) ∧
        (fv.1.tag = [] → now[i]? = some fv)) ∧
    ParseTerraformOutputsFromMap id
        [(runes "vm_host", .map [(runes "hostName", .str (runes "h"))]),
         (runes "location", .str (runes "westus")),
         (runes "extra", .num 1)]
        (.ptrToStruct [(⟨runes "location", .string, true⟩, .str []),
                       (⟨[], .bool, true⟩, .bool true),
                       (⟨runes "vm_host", .any, true⟩, .null)])
      = .success [(⟨runes "location", .string, true⟩, .str (runes "westus")),
                  (⟨[], .bool, true⟩, .bool true),
                  (⟨runes "vm_host", .any, true⟩,
                    .map [(runes "hostName", .str (runes "h"))])] :=
  have h : ∀ fv ∈ [((⟨runes "location", .string, true⟩ : Field), Value.str []),
             (⟨[], .bool, true⟩, .bool true),
             (⟨runes "vm_host", .any, true⟩, .null)],
      fv.1.tag ≠ [] →
        fv.1.canSet = true ∧
          ∃ value,
            mapGet [(runes "vm_host", .map [(runes "hostName", .str (runes "h"))]),
                    (runes "location", .str (runes "westus")),
                    (runes "extra", .num 1)] fv.1.tag = some value ∧
              hasDeclaredShape value fv.1.typ = true := by
    intro fv hfv htag
    simp only [List.mem_cons, List.mem_singleton, List.not_mem_nil, or_false] at hfv
    rcases hfv with rfl | rfl | rfl
    · exact ⟨rfl, _, rfl, rfl⟩
    · exact absurd rfl htag
    · exact ⟨rfl, _, rfl, rfl⟩
  ⟨h, ParseTerraformOutputsFromMap_populates id _ _ h, rfl⟩

/-- C20 (as stated) fails: the struct has the unexported field `name string` tagged `name`,
and the raw map holds the string `x` under that tag, a value of the field's declared shape.
`reflect.Value.CanSet` is false for the field, so line 263 reports a type mismatch and the
parse fails, the field keeping its value. -/
theorem ParseTerraformOutputsFromMap_populates_counterexample :
    mapGet [(runes "name", Value.str (runes "x"))] (runes "name") = some (.str (runes "x")) ∧
    hasDeclaredShape (.str (runes "x")) .string = true ∧
    (∀ tbl : Nat → Nat,
      ParseTerraformOutputsFromMap tbl [(runes "name", .str (runes "x"))]
          (.ptrToStruct [(⟨runes "name", .string, false⟩, .str [])])
        = .typeMismatchFailure (runes "name") [(⟨runes "name", .string, false⟩, .str [])]) ∧
    (ParseTerraformOutputsFromMap (fun r => r) [(runes "name", .str (runes "x"))]
        (.ptrToStruct [(⟨runes "name", .string, false⟩, .str [])])).succeeded = false :=
  ⟨rfl, rfl, fun _ => rfl, rfl⟩

/-! ## Outcomes of `parseOutputsFromMap` -/

theorem populated_append (raw : GoMap) (keyTransform : GoString → GoString)
    (transformMapKeys : Bool) (tbl : Nat → Nat) (a b : StructValue) :
    populated raw keyTransform transformMapKeys tbl (a ++ b)
      = populated raw keyTransform transformMapKeys tbl a
        ++ populated raw keyTransform transformMapKeys tbl b := by
  simp [populated]

theorem parseLoop_append (raw : GoMap) (keyTransform : GoString → GoString)
    (transformMapKeys : Bool) (tbl : Nat → Nat) (pre rest : StructValue) :
    ∀ (done : StructValue) (missing : List GoString),
      noTypeMismatch raw keyTransform transformMapKeys tbl pre = true →
      parseLoop raw keyTransform transformMapKeys tbl (pre ++ rest) done missing
        = parseLoop raw keyTransform transformMapKeys tbl rest
            (done ++ populated raw keyTransform transformMapKeys tbl pre)
            (missing ++ absentKeys raw keyTransform pre) := by
  induction pre with
  | nil => intro done missing _; simp [populated, absentKeys, tagsOf]
  | cons fv pre ih =>
    obtain ⟨field, old⟩ := fv
    intro done missing hno
    simp only [noTypeMismatch, List.all_cons, Bool.and_eq_true] at hno
    have hrest : noTypeMismatch raw keyTransform transformMapKeys tbl pre = true := hno.2
    have hhead := hno.1
    rw [absentKeys_cons, List.cons_append]
    simp only [parseLoop]
    by_cases htag : field.tag = []
    · simp only [htag, if_true, ih _ _ hrest]
      simp [populated, htag]
    · simp only [htag, if_false]
      cases hget : mapGet raw (keyTransform field.tag) with
      | none =>
        simp only [ih _ _ hrest, Option.isNone_none, if_true]
        simp [populated, htag, hget]
      | some value =>
        have hm : typeMismatch
            (if transformMapKeys then transformMapKeysRecursive tbl value else value) field
              = false := by
          simpa [htag, hget] using hhead
        simp only [hm, Bool.false_eq_true, if_false, ih _ _ hrest, Option.isNone_some]
        simp [populated, htag, hget]

theorem parseLoop_mismatch (raw : GoMap) (keyTransform : GoString → GoString)
    (transformMapKeys : Bool) (tbl : Nat → Nat) (pre rest : StructValue) (field : Field)
    (old value : Value) (done : StructValue) (missing : List GoString)
    (hpre : noTypeMismatch raw keyTransform transformMapKeys tbl pre = true)
    (htag : field.tag ≠ [])
    (hget : mapGet raw (keyTransform field.tag) = some value)
    (hmis : typeMismatch
      (if transformMapKeys then transformMapKeysRecursive tbl value else value) field = true) :
    parseLoop raw keyTransform transformMapKeys tbl (pre ++ (field, old) :: rest) done missing
      = .error (keyTransform field.tag,
          done ++ populated raw keyTransform transformMapKeys tbl pre ++ (field, old) :: rest) := by
  rw [parseLoop_append raw keyTransform transformMapKeys tbl pre _ done missing hpre]
  simp only [parseLoop, htag, if_false, hget, hmis, if_true]

theorem exists_first_mismatch (raw : GoMap) (keyTransform : GoString → GoString)
    (transformMapKeys : Bool) (tbl : Nat → Nat) (fields : StructValue)
    (h : noTypeMismatch raw keyTransform transformMapKeys tbl fields = false) :
    ∃ (pre rest : StructValue) (field : Field) (old value : Value),
      fields = pre ++ (field, old) :: rest ∧
      noTypeMismatch raw keyTransform transformMapKeys tbl pre = true ∧
      field.tag ≠ [] ∧
      mapGet raw (keyTransform field.tag) = some value ∧
      typeMismatch
        (if transformMapKeys then transformMapKeysRecursive tbl value else value) field
          = true := by
  induction fields with
  | nil => simp [noTypeMismatch] at h
  | cons fv rest ih =>
    obtain ⟨field, old⟩ := fv
    by_cases hhead : noTypeMismatch raw keyTransform transformMapKeys tbl [(field, old)] = true
    · have hrest : noTypeMismatch raw keyTransform transformMapKeys tbl rest = false := by
        simp only [noTypeMismatch, List.all_cons, List.all_nil, Bool.and_true] at hhead h ⊢
        rw [hhead] at h
        simpa using h
      obtain ⟨pre, rest2, f, o, v, hf, hpre, htag, hget, hmis⟩ := ih hrest
      refine ⟨(field, old) :: pre, rest2, f, o, v, by rw [hf]; rfl, ?_, htag, hget, hmis⟩
      simp only [noTypeMismatch, List.all_cons, List.all_nil, Bool.and_true] at hhead hpre ⊢
      rw [hhead, hpre]
      rfl
    · simp only [noTypeMismatch, List.all_cons, List.all_nil, Bool.and_true,
        Bool.or_eq_true, decide_eq_true_eq, not_or] at hhead
      obtain ⟨htag, hm⟩ := hhead
      cases hget : mapGet raw (keyTransform field.tag) with
      | none => simp [hget] at hm
      | some value =>
        refine ⟨[], rest, field, old, value, rfl, by simp [noTypeMismatch], htag, hget, ?_⟩
        simpa [hget] using hm

theorem parseOutputsFromMap_of_mismatch (raw : GoMap) (fields : StructValue)
    (framework : GoString) (keyTransform : GoString → GoString) (transformMapKeys : Bool)
    (tbl : Nat → Nat)
    (h : noTypeMismatch raw keyTransform transformMapKeys tbl fields = false) :
    ∃ (lookupKey : GoString) (now : StructValue),
      parseOutputsFromMap raw (.ptrToStruct fields) framework keyTransform transformMapKeys tbl
        = .typeMismatchFailure lookupKey now := by
  obtain ⟨pre, rest, field, old, value, hf, hpre, htag, hget, hmis⟩ :=
    exists_first_mismatch raw keyTransform transformMapKeys tbl fields h
  refine ⟨keyTransform field.tag,
    [] ++ populated raw keyTransform transformMapKeys tbl pre ++ (field, old) :: rest, ?_⟩
  simp only [parseOutputsFromMap, hf,
    parseLoop_mismatch raw keyTransform transformMapKeys tbl pre rest field old value [] []
      hpre htag hget hmis]

theorem parseOutputsFromMap_success_inv (raw : GoMap) (fields : StructValue)
    (framework : GoString) (keyTransform : GoString → GoString) (transformMapKeys : Bool)
    (tbl : Nat → Nat) (now : StructValue)
    (h : parseOutputsFromMap raw (.ptrToStruct fields) framework keyTransform transformMapKeys
      tbl = .success now) :
    noTypeMismatch raw keyTransform transformMapKeys tbl fields = true ∧
    absentKeys raw keyTransform fields = [] ∧
    now = populated raw keyTransform transformMapKeys tbl fields := by
  cases hno : noTypeMismatch raw keyTransform transformMapKeys tbl fields with
  | false =>
    obtain ⟨k, n, hk⟩ := parseOutputsFromMap_of_mismatch raw fields framework keyTransform
      transformMapKeys tbl hno
    rw [hk] at h
    cases h
  | true =>
    rw [parseOutputsFromMap_of_ok raw fields framework keyTransform transformMapKeys tbl hno]
      at h
    by_cases hpos : 0 < (absentKeys raw keyTransform fields).length
    · rw [if_pos hpos] at h
      cases h
    · rw [if_neg hpos] at h
      have habs : absentKeys raw keyTransform fields = [] := by
        cases hk : absentKeys raw keyTransform fields with
        | nil => rfl
        | cons a l => rw [hk] at hpos; simp at hpos
      refine ⟨rfl, habs, ?_⟩
      injection h with h2
      exact h2.symm

theorem parseOutputsFromMap_missing_inv (raw : GoMap) (fields : StructValue)
    (framework : GoString) (keyTransform : GoString → GoString) (transformMapKeys : Bool)
    (tbl : Nat → Nat) (keys : List GoString) (fileHint : GoString) (now : StructValue)
    (h : parseOutputsFromMap raw (.ptrToStruct fields) framework keyTransform transformMapKeys
      tbl = .missingOutputs keys fileHint now) :
    noTypeMismatch raw keyTransform transformMapKeys tbl fields = true ∧
    keys = absentKeys raw keyTransform fields ∧
    now = populated raw keyTransform transformMapKeys tbl fields := by
  cases hno : noTypeMismatch raw keyTransform transformMapKeys tbl fields with
  | false =>
    obtain ⟨k, n, hk⟩ := parseOutputsFromMap_of_mismatch raw fields framework keyTransform
      transformMapKeys tbl hno
    rw [hk] at h
    cases h
  | true =>
    rw [parseOutputsFromMap_of_ok raw fields framework keyTransform transformMapKeys tbl hno]
      at h
    by_cases hpos : 0 < (absentKeys raw keyTransform fields).length
    · rw [if_pos hpos] at h
      injection h with h1 h2 h3
      exact ⟨rfl, h1.symm, h3.symm⟩
    · rw [if_neg hpos] at h
      cases h

theorem present_of_absentKeys_nil (raw : GoMap) (keyTransform : GoString → GoString)
    (fields : StructValue) (h : absentKeys raw keyTransform fields = [])
    (fv : Field × Value) (hfv : fv ∈ fields) (htag : fv.1.tag ≠ []) :
    ∃ value, mapGet raw (keyTransform fv.1.tag) = some value := by
  cases hget : mapGet raw (keyTransform fv.1.tag) with
  | some value => exact ⟨value, rfl⟩
  | none =>
    exact absurd h (absentKeys_ne_nil raw keyTransform fields ⟨fv, hfv, htag, hget⟩)

theorem populated_getElem? (raw : GoMap) (keyTransform : GoString → GoString)
    (transformMapKeys : Bool) (tbl : Nat → Nat) (fields : StructValue) (i : Nat)
    (fv : Field × Value) (hi : fields[i]? = some fv) :
    (populated raw keyTransform transformMapKeys tbl fields)[i]?
      = some (if fv.1.tag = [] then fv
          else match mapGet raw (keyTransform fv.1.tag) with
            | none => fv
            | some value =>
              (fv.1, if transformMapKeys then transformMapKeysRecursive tbl value else value)) := by
  simp [populated, hi]

/-- C21: for every raw Bicep map on which `ParseBicepOutputsFromMap` succeeds, every field
tagged with the snake_case name `n` holds `transformMapKeysRecursive(raw[SnakeToCamelCase(n)])`:
the value is looked up under the camelCase form of the tag and its nested map keys are
converted before the assignment. -/
theorem ParseBicepOutputsFromMap_fields (tbl : Nat → Nat) (raw : GoMap) (fields : StructValue)
    (now : StructValue)
    (h : ParseBicepOutputsFromMap tbl raw (.ptrToStruct fields) = .success now) :
    now.length = fields.length ∧
    ∀ (i : Nat) (fv : Field × Value), fields[i]? = some fv → fv.1.tag ≠ [] →
      ∃ value, mapGet raw (SnakeToCamelCase tbl fv.1.tag) = some value ∧
        now[i]? = some (fv.1, transformMapKeysRecursive tbl value) := by
  obtain ⟨_, habs, hnow⟩ := parseOutputsFromMap_success_inv raw fields _ _ _ tbl now h
  subst hnow
  refine ⟨by simp [populated], ?_⟩
  intro i fv hi htag
  obtain ⟨value, hget⟩ := present_of_absentKeys_nil raw _ fields habs fv
    (List.getElem?_mem hi) htag
  refine ⟨value, hget, ?_⟩
  rw [populated_getElem? raw _ true tbl fields i fv hi]
  simp [htag, hget]

/-- Witness of C21 at a raw map with the key `vmHost` holding a nested mapping. -/
theorem ParseBicepOutputsFromMap_fields_witness :
    ParseBicepOutputsFromMap id
        [(runes "vmHost", .map [(runes "hostName", .str (runes "h"))])]
        (.ptrToStruct [(⟨[], .bool, true⟩, .bool true), (⟨runes "vm_host", .any, true⟩, .null)])
      = .success [(⟨[], .bool, true⟩, .bool true),
          (⟨runes "vm_host", .any, true⟩, .map [(runes "host_name", .str (runes "h"))])] ∧
    ∀ (i : Nat) (fv : Field × Value),
      [((⟨[], .bool, true⟩ : Field), Value.bool true),
        (⟨runes "vm_host", .any, true⟩, .null)][i]? = some fv → fv.1.tag ≠ [] →
      ∃ value,
        mapGet [(runes "vmHost", .map [(runes "hostName", .str (runes "h"))])]
          (SnakeToCamelCase id fv.1.tag) = some value ∧
        [((⟨[], .bool, true⟩ : Field), Value.bool true),
          (⟨runes "vm_host", .any, true⟩,
            .map [(runes "host_name", .str (runes "h"))])][i]?
          = some (fv.1, transformMapKeysRecursive id value) :=
  have h : ParseBicepOutputsFromMap id
        [(runes "vmHost", .map [(runes "hostName", .str (runes "h"))])]
        (.ptrToStruct [(⟨[], .bool, true⟩, .bool true), (⟨runes "vm_host", .any, true⟩, .null)])
      = .success [(⟨[], .bool, true⟩, .bool true),
          (⟨runes "vm_host", .any, true⟩, .map [(runes "host_name", .str (runes "h"))])] := rfl
  ⟨h, (ParseBicepOutputsFromMap_fields id _ _ _ h).2⟩

theorem noTypeMismatch_eq_false (raw : GoMap) (keyTransform : GoString → GoString)
    (transformMapKeys : Bool) (tbl : Nat → Nat) (fields : StructValue)
    (h : ∃ fv ∈ fields, fv.1.tag ≠ [] ∧ ∃ value,
      mapGet raw (keyTransform fv.1.tag) = some value ∧
      typeMismatch
        (if transformMapKeys then transformMapKeysRecursive tbl value else value) fv.1 = true) :
    noTypeMismatch raw keyTransform transformMapKeys tbl fields = false := by
  obtain ⟨fv, hfv, htag, value, hget, hmis⟩ := h
  rw [← Bool.not_eq_true]
  intro hno
  simp only [noTypeMismatch, List.all_eq_true] at hno
  have := hno fv hfv
  simp [htag, hget, hmis] at this

/-- C22: a type mismatch short-circuits the batching of missing fields.  If the lookup key
of some tagged field is present in the raw map with a value that line 263 rejects for the
field, the call ends in a type-mismatch failure naming the lookup key of the first such
field in declaration order; no missing-outputs report is emitted, whatever other tagged
fields are absent; the fields before it are populated, and the mismatched field and every
field declared after it keep the values they had. -/
theorem parseOutputsFromMap_type_mismatch (raw : GoMap) (fields : StructValue)
    (framework : GoString) (keyTransform : GoString → GoString) (transformMapKeys : Bool)
    (tbl : Nat → Nat)
    (h : ∃ fv ∈ fields, fv.1.tag ≠ [] ∧ ∃ value,
      mapGet raw (keyTransform fv.1.tag) = some value ∧
      typeMismatch
        (if transformMapKeys then transformMapKeysRecursive tbl value else value) fv.1 = true) :
    ∃ (pre rest : StructValue) (field : Field) (old value : Value),
      fields = pre ++ (field, old) :: rest ∧
      noTypeMismatch raw keyTransform transformMapKeys tbl pre = true ∧
      field.tag ≠ [] ∧
      mapGet raw (keyTransform field.tag) = some value ∧
      typeMismatch
        (if transformMapKeys then transformMapKeysRecursive tbl value else value) field
          = true ∧
      parseOutputsFromMap raw (.ptrToStruct fields) framework keyTransform transformMapKeys tbl
        = .typeMismatchFailure (keyTransform field.tag)
            (populated raw keyTransform transformMapKeys tbl pre ++ (field, old) :: rest) ∧
      reportedMissing
          (parseOutputsFromMap raw (.ptrToStruct fields) framework keyTransform
            transformMapKeys tbl) = [] := by
  obtain ⟨pre, rest, field, old, value, hf, hpre, htag, hget, hmis⟩ :=
    exists_first_mismatch raw keyTransform transformMapKeys tbl fields
      (noTypeMismatch_eq_false raw keyTransform transformMapKeys tbl fields h)
  have hres : parseOutputsFromMap raw (.ptrToStruct fields) framework keyTransform
      transformMapKeys tbl
        = .typeMismatchFailure (keyTransform field.tag)
            (populated raw keyTransform transformMapKeys tbl pre ++ (field, old) :: rest) := by
    simp only [parseOutputsFromMap, hf,
      parseLoop_mismatch raw keyTransform transformMapKeys tbl pre rest field old value [] []
        hpre htag hget hmis, List.nil_append]
  exact ⟨pre, rest, field, old, value, hf, hpre, htag, hget, hmis, hres, by rw [hres]; rfl⟩

/-- Witness of C22 at four fields: `a` is absent, `b` is present and assignable, `c` holds
a number where a string is declared, `d` is present and assignable. -/
theorem parseOutputsFromMap_type_mismatch_witness :
    (∃ fv ∈ [((⟨runes "a", .any, true⟩ : Field), Value.null),
             (⟨runes "b", .any, true⟩, .null), (⟨runes "c", .string, true⟩, .str []),
             (⟨runes "d", .any, true⟩, .null)],
      fv.1.tag ≠ [] ∧ ∃ value,
        mapGet [(runes "b", .num 1), (runes "c", .num 2), (runes "d", .num 3)]
          ((fun key => key) fv.1.tag) = some value ∧
        typeMismatch (if false then transformMapKeysRecursive id value else value) fv.1
          = true) ∧
    parseOutputsFromMap [(runes "b", .num 1), (runes "c", .num 2), (runes "d", .num 3)]
        (.ptrToStruct [(⟨runes "a", .any, true⟩, .null), (⟨runes "b", .any, true⟩, .null),
          (⟨runes "c", .string, true⟩, .str []), (⟨runes "d", .any, true⟩, .null)])
        (runes "terraform") (fun key => key) false id
      = .typeMismatchFailure (runes "c")
          [(⟨runes "a", .any, true⟩, .null), (⟨runes "b", .any, true⟩, .num 1),
           (⟨runes "c", .string, true⟩, .str []), (⟨runes "d", .any, true⟩, .null)] ∧
    ∃ (pre rest : StructValue) (field : Field) (old value : Value),
      [((⟨runes "a", .any, true⟩ : Field), Value.null),
        (⟨runes "b", .any, true⟩, .null), (⟨runes "c", .string, true⟩, .str []),
        (⟨runes "d", .any, true⟩, .null)] = pre ++ (field, old) :: rest ∧
      noTypeMismatch [(runes "b", .num 1), (runes "c", .num 2), (runes "d", .num 3)]
        (fun key => key) false id pre = true ∧
      field.tag ≠ [] ∧
      mapGet [(runes "b", .num 1), (runes "c", .num 2), (runes "d", .num 3)]
        ((fun key => key) field.tag) = some value ∧
      typeMismatch (if false then transformMapKeysRecursive id value else value) field
        = true ∧
      parseOutputsFromMap [(runes "b", .num 1), (runes "c", .num 2), (runes "d", .num 3)]
          (.ptrToStruct [(⟨runes "a", .any, true⟩, .null), (⟨runes "b", .any, true⟩, .null),
            (⟨runes "c", .string, true⟩, .str []), (⟨runes "d", .any, true⟩, .null)])
          (runes "terraform") (fun key => key) false id
        = .typeMismatchFailure ((fun key => key) field.tag)
            (populated [(runes "b", .num 1), (runes "c", .num 2), (runes "d", .num 3)]
              (fun key => key) false id pre ++ (field, old) :: rest) ∧
      reportedMissing
          (parseOutputsFromMap [(runes "b", .num 1), (runes "c", .num 2), (runes "d", .num 3)]
            (.ptrToStruct [(⟨runes "a", .any, true⟩, .null), (⟨runes "b", .any, true⟩, .null),
              (⟨runes "c", .string, true⟩, .str []), (⟨runes "d", .any, true⟩, .null)])
            (runes "terraform") (fun key => key) false id) = [] :=
  have h : ∃ fv ∈ [((⟨runes "a", .any, true⟩ : Field), Value.null),
             (⟨runes "b", .any, true⟩, .null), (⟨runes "c", .string, true⟩, .str []),
             (⟨runes "d", .any, true⟩, .null)],
      fv.1.tag ≠ [] ∧ ∃ value,
        mapGet [(runes "b", .num 1), (runes "c", .num 2), (runes "d", .num 3)]
          ((fun key => key) fv.1.tag) = some value ∧
        typeMismatch (if false then transformMapKeysRecursive id value else value) fv.1
          = true :=
    ⟨(⟨runes "c", .string, true⟩, .str []), by simp, by decide, .num 2, rfl, rfl⟩
  ⟨h, rfl, parseOutputsFromMap_type_mismatch _ _ (runes "terraform") (fun key => key) false id h⟩

/-- C28: population is not atomic.  When `parseOutputsFromMap` fails with a missing-outputs
report, every tagged field whose lookup key is present in the raw map has nevertheless been
assigned its value (key-transformed when `transformMapKeys` is set), while the tagged
fields whose key is absent, and the untagged fields, keep their previous values. -/
theorem parseOutputsFromMap_not_atomic (raw : GoMap) (fields : StructValue)
    (framework : GoString) (keyTransform : GoString → GoString) (transformMapKeys : Bool)
    (tbl : Nat → Nat) (keys : List GoString) (fileHint : GoString) (now : StructValue)
    (h : parseOutputsFromMap raw (.ptrToStruct fields) framework keyTransform transformMapKeys
      tbl = .missingOutputs keys fileHint now) :
    now.length = fields.length ∧
    ∀ (i : Nat) (fv : Field × Value), fields[i]? = some fv →
      (fv.1.tag ≠ [] → ∀ value, mapGet raw (keyTransform fv.1.tag) = some value →
        now[i]? = some (fv.1,
          if transformMapKeys then transformMapKeysRecursive tbl value else value)) ∧
      (fv.1.tag ≠ [] → mapGet raw (keyTransform fv.1.tag) = none → now[i]? = some fv) ∧
      (fv.1.tag = [] → now[i]? = some fv) := by
  obtain ⟨_, _, hnow⟩ := parseOutputsFromMap_missing_inv raw fields framework keyTransform
    transformMapKeys tbl keys fileHint now h
  subst hnow
  refine ⟨by simp [populated], ?_⟩
  intro i fv hi
  rw [populated_getElem? raw keyTransform transformMapKeys tbl fields i fv hi]
  refine ⟨?_, ?_, ?_⟩
  · intro htag value hget
    simp [htag, hget]
  · intro htag hget
    simp [htag, hget]
  · intro htag
    simp [htag]

/-- Witness of C28 at the Bicep parse of three fields of which only `vm_host` is present:
the report lists the two absent keys and `vm_host` has been assigned. -/
theorem parseOutputsFromMap_not_atomic_witness :
    parseOutputsFromMap [(runes "vmHost", .map [(runes "hostName", .str (runes "h"))])]
        (.ptrToStruct [(⟨runes "nat_gateway", .any, true⟩, .null),
          (⟨runes "vm_host", .any, true⟩, .null),
          (⟨runes "data_storage", .mapStringAny, true⟩, .null)])
        (runes "bicep") (SnakeToCamelCase id) true id
      = .missingOutputs [runes "natGateway", runes "dataStorage"] (runes "bicep/main.bicep")
          [(⟨runes "nat_gateway", .any, true⟩, .null),
           (⟨runes "vm_host", .any, true⟩, .map [(runes "host_name", .str (runes "h"))]),
           (⟨runes "data_storage", .mapStringAny, true⟩, .null)] ∧
    ∀ (i : Nat) (fv : Field × Value),
      [((⟨runes "nat_gateway", .any, true⟩ : Field), Value.null),
        (⟨runes "vm_host", .any, true⟩, .null),
        (⟨runes "data_storage", .mapStringAny, true⟩, .null)][i]? = some fv →
      (fv.1.tag ≠ [] → ∀ value,
        mapGet [(runes "vmHost", .map [(runes "hostName", .str (runes "h"))])]
          (SnakeToCamelCase id fv.1.tag) = some value →
        [((⟨runes "nat_gateway", .any, true⟩ : Field), Value.null),
          (⟨runes "vm_host", .any, true⟩, .map [(runes "host_name", .str (runes "h"))]),
          (⟨runes "data_storage", .mapStringAny, true⟩, .null)][i]?
          = some (fv.1, if true then transformMapKeysRecursive id value else value)) ∧
      (fv.1.tag ≠ [] →
        mapGet [(runes "vmHost", .map [(runes "hostName", .str (runes "h"))])]
          (SnakeToCamelCase id fv.1.tag) = none →
        [((⟨runes "nat_gateway", .any, true⟩ : Field), Value.null),
          (⟨runes "vm_host", .any, true⟩, .map [(runes "host_name", .str (runes "h"))]),
          (⟨runes "data_storage", .mapStringAny, true⟩, .null)][i]? = some fv) ∧
      (fv.1.tag = [] →
        [((⟨runes "nat_gateway", .any, true⟩ : Field), Value.null),
          (⟨runes "vm_host", .any, true⟩, .map [(runes "host_name", .str (runes "h"))]),
          (⟨runes "data_storage", .mapStringAny, true⟩, .null)][i]? = some fv) :=
  have h : parseOutputsFromMap [(runes "vmHost", .map [(runes "hostName", .str (runes "h"))])]
        (.ptrToStruct [(⟨runes "nat_gateway", .any, true⟩, .null),
          (⟨runes "vm_host", .any, true⟩, .null),
          (⟨runes "data_storage", .mapStringAny, true⟩, .null)])
        (runes "bicep") (SnakeToCamelCase id) true id
      = .missingOutputs [runes "natGateway", runes "dataStorage"] (runes "bicep/main.bicep")
          [(⟨runes "nat_gateway", .any, true⟩, .null),
           (⟨runes "vm_host", .any, true⟩, .map [(runes "host_name", .str (runes "h"))]),
           (⟨runes "data_storage", .mapStringAny, true⟩, .null)] := rfl
  ⟨h, (parseOutputsFromMap_not_atomic _ _ (runes "bicep") (SnakeToCamelCase id) true id _ _ _
    h).2⟩

/-! ## `GetBicepOutputs` -/

theorem azureLoop_of_nodup (azure : AzureOutputs) :
    ∀ result : GoMap, (mapKeys result ++ azure.map Prod.fst).Nodup →
      azureLoop azure result = result ++ azure.filterMap unwrapEntry := by
  induction azure with
  | nil => intro result _; simp [azureLoop]
  | cons e rest ih =>
    obtain ⟨key, outputObj⟩ := e
    intro result hnd
    simp only [azureLoop]
    cases hv : mapGet outputObj (runes "value") with
    | none =>
      have hnd2 : (mapKeys result ++ rest.map Prod.fst).Nodup := by
        simp only [List.map_cons] at hnd
        exact (List.nodup_cons.1 (List.nodup_middle.1 hnd)).2
      simp only [ih result hnd2]
      simp [List.filterMap_cons, unwrapEntry, hv]
    | some val =>
      have hk : key ∉ mapKeys result := by
        intro hm
        rw [List.nodup_append] at hnd
        exact hnd.2.2 hm (by simp)
      have hnd2 : (mapKeys (result ++ [(key, val)]) ++ rest.map Prod.fst).Nodup := by
        simpa [mapKeys] using hnd
      simp only [mapSet_of_not_mem _ _ _ hk, ih _ hnd2]
      simp [List.filterMap_cons, unwrapEntry, hv]

theorem mapGet_filterMap_none (rest : AzureOutputs) (name : GoString)
    (h : name ∉ rest.map Prod.fst) : mapGet (rest.filterMap unwrapEntry) name = none := by
  induction rest with
  | nil => rfl
  | cons e rest ih =>
    obtain ⟨k, obj⟩ := e
    simp only [List.map_cons, List.mem_cons, not_or] at h
    have hk : ¬ k = name := fun e => h.1 e.symm
    cases hv : mapGet obj (runes "value") with
    | none => simp [List.filterMap_cons, unwrapEntry, hv, ih h.2]
    | some val => simp [List.filterMap_cons, unwrapEntry, hv, mapGet, hk, ih h.2]

theorem mapGet_filterMap_unwrap (azure : AzureOutputs) (hnd : (azure.map Prod.fst).Nodup)
    (name : GoString) :
    mapGet (azure.filterMap unwrapEntry) name
      = (azureGet azure name).bind (fun outputObj => mapGet outputObj (runes "value")) := by
  induction azure with
  | nil => rfl
  | cons e rest ih =>
    obtain ⟨k, obj⟩ := e
    simp only [List.map_cons, List.nodup_cons] at hnd
    by_cases hk : k = name
    · subst hk
      cases hv : mapGet obj (runes "value") with
      | none =>
        simp [List.filterMap_cons, unwrapEntry, hv, azureGet, mapGet_filterMap_none rest k hnd.1]
      | some val => simp [List.filterMap_cons, unwrapEntry, hv, azureGet, mapGet]
    · cases hv : mapGet obj (runes "value") with
      | none => simp [List.filterMap_cons, unwrapEntry, hv, azureGet, hk, ih hnd.2]
      | some val => simp [List.filterMap_cons, unwrapEntry, hv, azureGet, mapGet, hk, ih hnd.2]

/-- C23: the conversion in `GetBicepOutputs` maps a parsed document
`{name: {"type": ..., "value": v, ...}}` to `{name: v}`.  The result contains exactly the
names whose entry has a `value` member, each mapped to that member (a null value included);
entries without a `value` member are dropped and every other member is ignored. -/
theorem GetBicepOutputs_unwraps :
    (∀ azureOutputs : AzureOutputs, (azureOutputs.map Prod.fst).Nodup →
      (∀ name : GoString,
        mapGet (GetBicepOutputs azureOutputs) name
          = (azureGet azureOutputs name).bind
              (fun outputObj => mapGet outputObj (runes "value"))) ∧
      mapKeys (GetBicepOutputs azureOutputs)
        = (azureOutputs.filter
            (fun e => (mapGet e.2 (runes "value")).isSome)).map Prod.fst) ∧
    GetBicepOutputs
        [(runes "vmHost", [(runes "type", .str (runes "String")),
                           (runes "value", .str (runes "host"))]),
         (runes "natGateway", [(runes "type", .str (runes "Object")),
                               (runes "value", .null)]),
         (runes "broken", [(runes "type", .str (runes "String"))])]
      = [(runes "vmHost", .str (runes "host")), (runes "natGateway", .null)] := by
  refine ⟨?_, rfl⟩
  intro azureOutputs hnd
  have heq : GetBicepOutputs azureOutputs = azureOutputs.filterMap unwrapEntry := by
    unfold GetBicepOutputs
    rw [azureLoop_of_nodup azureOutputs [] (by simpa [mapKeys] using hnd)]
    simp
  rw [heq]
  refine ⟨mapGet_filterMap_unwrap azureOutputs hnd, ?_⟩
  clear hnd heq
  induction azureOutputs with
  | nil => rfl
  | cons e rest ih =>
    obtain ⟨k, obj⟩ := e
    cases hv : mapGet obj (runes "value") with
    | none => simpa [List.filterMap_cons, unwrapEntry, hv, List.filter_cons] using ih
    | some val =>
      simp only [mapKeys] at ih
      simp [List.filterMap_cons, unwrapEntry, hv, List.filter_cons, mapKeys, ih]

/-- Witness of C23 at a document with one unwrapped entry, one null value and one entry
without a `value` member. -/
theorem GetBicepOutputs_unwraps_witness :
    ([(runes "vmHost", [(runes "type", Value.str (runes "String")),
                        (runes "value", Value.str (runes "host"))]),
      (runes "natGateway", [(runes "value", Value.null)]),
      (runes "broken", [(runes "type", Value.str (runes "String"))])].map Prod.fst).Nodup ∧
    (∀ name : GoString,
      mapGet (GetBicepOutputs
          [(runes "vmHost", [(runes "type", .str (runes "String")),
                             (runes "value", .str (runes "host"))]),
           (runes "natGateway", [(runes "value", .null)]),
           (runes "broken", [(runes "type", .str (runes "String"))])]) name
        = (azureGet
          [(runes "vmHost", [(runes "type", .str (runes "String")),
                             (runes "value", .str (runes "host"))]),
           (runes "natGateway", [(runes "value", .null)]),
           (runes "broken", [(runes "type", .str (runes "String"))])] name).bind
            (fun outputObj => mapGet outputObj (runes "value"))) ∧
    mapKeys (GetBicepOutputs
        [(runes "vmHost", [(runes "type", .str (runes "String")),
                           (runes "value", .str (runes "host"))]),
         (runes "natGateway", [(runes "value", .null)]),
         (runes "broken", [(runes "type", .str (runes "String"))])])
      = ([(runes "vmHost", [(runes "type", Value.str (runes "String")),
                            (runes "value", Value.str (runes "host"))]),
          (runes "natGateway", [(runes "value", Value.null)]),
          (runes "broken", [(runes "type", Value.str (runes "String"))])].filter
          (fun e => (mapGet e.2 (runes "value")).isSome)).map Prod.fst :=
  ⟨by decide, GetBicepOutputs_unwraps.1 _ (by decide)⟩

/-! ## The reverse round trip -/

theorem split_cons_underscore (cs : GoString) : split (underscore :: cs) = [] :: split cs := by
  simp [split]

theorem split_cons_of_ne (c : Nat) (cs p : GoString) (ps : List GoString)
    (hc : c ≠ underscore) (h : split cs = p :: ps) : split (c :: cs) = (c :: p) :: ps := by
  simp [split, hc, h]

theorem SnakeToCamelCase_eq_segments (tbl : Nat → Nat) (s p : GoString) (ps : List GoString)
    (h : split s = p :: ps) :
    SnakeToCamelCase tbl s = toLower tbl p ++ ps.flatMap (capitalize tbl) := by
  by_cases hm : underscore ∈ s
  · rw [SnakeToCamelCase_of_mem tbl s hm, h]
    rfl
  · rw [SnakeToCamelCase_of_not_mem tbl s hm]
    have h2 := split_of_not_mem s hm
    rw [h] at h2
    have hp : p = s := (List.cons.inj h2).1
    have hps : ps = [] := (List.cons.inj h2).2
    rw [hp, hps]
    simp

theorem isAlnum_bounds (r : Nat) (h : isAlnum r = true) : r < 128 ∧ r ≠ underscore := by
  simp only [isAlnum, isUpperAZ, isLowerAZ, Bool.or_eq_true, Bool.and_eq_true,
    decide_eq_true_eq] at h
  unfold underscore
  omega

theorem split_toLower_camelBody (tbl : Nat → Nat) (rs : GoString)
    (h : ∀ r ∈ rs, isAlnum r = true) :
    ∃ (p : GoString) (ps : List GoString),
      split (toLower tbl (camelBody rs)) = p :: ps ∧
      toLower tbl p = p ∧
      p ++ ps.flatMap (capitalize tbl) = rs := by
  induction rs with
  | nil => exact ⟨[], [], rfl, rfl, rfl⟩
  | cons r rest ih =>
    obtain ⟨p, ps, hsplit, hlow, hcat⟩ := ih (fun a ha => h a (List.mem_cons_of_mem _ ha))
    obtain ⟨hr128, hr95⟩ := isAlnum_bounds r (h r (List.mem_cons_self _ _))
    have hbody : camelBody (r :: rest)
        = (if isUpperAZ r then [underscore, r] else [r]) ++ camelBody rest := by
      simp [camelBody]
    by_cases hu : isUpperAZ r = true
    · have hub := (isUpperAZ_iff r).1 hu
      have hl1 : toLowerRune tbl underscore = underscore := by
        simp [toLowerRune, underscore, isUpperAZ]
      have hl2 : toLowerRune tbl r = r + 32 := by
        rw [toLowerRune_ascii tbl r hr128]; simp [hu]
      have hy : toLower tbl (camelBody (r :: rest))
          = underscore :: (r + 32) :: toLower tbl (camelBody rest) := by
        rw [hbody]
        simp [hu, toLower, hl1, hl2]
      have hne : r + 32 ≠ underscore := by unfold underscore; omega
      refine ⟨[], ((r + 32) :: p) :: ps, ?_, rfl, ?_⟩
      · rw [hy, split_cons_underscore, split_cons_of_ne (r + 32) _ p ps hne hsplit]
      · have hasc : isASCII (r + 32) = true := by simp [isASCII]; omega
        have hlo : isLowerAZ (r + 32) = true := by rw [isLowerAZ_iff]; omega
        simp only [List.flatMap_cons, capitalize, hasc, if_true, toUpperASCII, hlo, hlow,
          List.nil_append, List.cons_append]
        rw [← hcat]
        simp
    · have hl2 : toLowerRune tbl r = r := by
        rw [toLowerRune_ascii tbl r hr128]; simp [hu]
      have hy : toLower tbl (camelBody (r :: rest)) = r :: toLower tbl (camelBody rest) := by
        rw [hbody]
        simp [hu, toLower, hl2]
      refine ⟨r :: p, ps, ?_, ?_, ?_⟩
      · rw [hy, split_cons_of_ne r _ p ps hr95 hsplit]
      · show toLowerRune tbl r :: toLower tbl p = r :: p
        rw [hl2, hlow]
      · rw [← hcat]
        rfl

/-- C24: the reverse round trip holds even for acronyms.  For every non-empty string `x`
of ASCII letters and digits whose first character is a lowercase letter,
`SnakeToCamelCase(CamelToSnakeCase(x)) == x`; `aBCd` becomes `a_b_cd` and comes back as
`aBCd`. -/
theorem SnakeToCamelCase_CamelToSnakeCase :
    (∀ (tbl : Nat → Nat) (x : GoString), x ≠ [] → (∀ r ∈ x, isAlnum r = true) →
      startsLower x = true →
      SnakeToCamelCase tbl (CamelToSnakeCase tbl x) = x) ∧
    (∀ tbl : Nat → Nat,
      CamelToSnakeCase tbl (runes "aBCd") = runes "a_b_cd" ∧
      SnakeToCamelCase tbl (runes "a_b_cd") = runes "aBCd") := by
  refine ⟨?_, fun _ => ⟨rfl, rfl⟩⟩
  intro tbl x _ halnum hfirst
  cases x with
  | nil => simp [startsLower] at hfirst
  | cons a rs =>
    have ha : 97 ≤ a ∧ a ≤ 122 := (isLowerAZ_iff a).1 hfirst
    have hal : toLowerRune tbl a = a := by
      rw [toLowerRune_ascii tbl a (by omega)]
      have : isUpperAZ a = false := by rw [isUpperAZ_eq_false_iff]; omega
      simp [this]
    obtain ⟨p, ps, hsplit, hlow, hcat⟩ :=
      split_toLower_camelBody tbl rs (fun r hr => halnum r (List.mem_cons_of_mem _ hr))
    have hy : CamelToSnakeCase tbl (a :: rs) = a :: toLower tbl (camelBody rs) := by
      rw [CamelToSnakeCase_cons]
      show toLowerRune tbl a :: toLower tbl (camelBody rs) = _
      rw [hal]
    have hne : a ≠ underscore := by unfold underscore; omega
    rw [hy, SnakeToCamelCase_eq_segments tbl _ (a :: p) ps
      (split_cons_of_ne a _ p ps hne hsplit)]
    show toLowerRune tbl a :: toLower tbl p ++ ps.flatMap (capitalize tbl) = a :: rs
    rw [hal, hlow, ← hcat]
    rfl

/-- Witness of C24 at `aBCd`. -/
theorem SnakeToCamelCase_CamelToSnakeCase_witness :
    runes "aBCd" ≠ [] ∧ (∀ r ∈ runes "aBCd", isAlnum r = true) ∧
    startsLower (runes "aBCd") = true ∧
    SnakeToCamelCase id (CamelToSnakeCase id (runes "aBCd")) = runes "aBCd" :=
  ⟨by decide, by decide, by decide,
    SnakeToCamelCase_CamelToSnakeCase.1 id (runes "aBCd") (by decide) (by decide) (by decide)⟩

/-- C25: for every input without a `_`, `SnakeToCamelCase` returns the input lowercased.
It therefore destroys the word boundaries of a name that is already camelCase and is not
idempotent: `deployment_summary` gives `deploymentSummary`, which gives
`deploymentsummary`. -/
theorem SnakeToCamelCase_not_idempotent :
    (∀ (tbl : Nat → Nat) (s : GoString), underscore ∉ s →
      SnakeToCamelCase tbl s = toLower tbl s) ∧
    (∀ tbl : Nat → Nat,
      SnakeToCamelCase tbl (runes "deployment_summary") = runes "deploymentSummary" ∧
      SnakeToCamelCase tbl (SnakeToCamelCase tbl (runes "deployment_summary"))
        = runes "deploymentsummary" ∧
      SnakeToCamelCase tbl (SnakeToCamelCase tbl (runes "deployment_summary"))
        ≠ SnakeToCamelCase tbl (runes "deployment_summary")) :=
  ⟨SnakeToCamelCase_of_not_mem, fun tbl =>
    ⟨rfl, rfl,
      (show SnakeToCamelCase tbl (SnakeToCamelCase tbl (runes "deployment_summary"))
          = runes "deploymentsummary" from rfl) ▸
        (show SnakeToCamelCase tbl (runes "deployment_summary") = runes "deploymentSummary"
          from rfl) ▸ (by decide)⟩⟩

/-- Witness of C25 at the camelCase name `deploymentSummary`. -/
theorem SnakeToCamelCase_not_idempotent_witness :
    underscore ∉ runes "deploymentSummary" ∧
    SnakeToCamelCase id (runes "deploymentSummary") = toLower id (runes "deploymentSummary") :=
  ⟨by decide, SnakeToCamelCase_not_idempotent.1 id (runes "deploymentSummary") (by decide)⟩

/-! ## The tags of `BlueprintOutputs` -/

theorem BlueprintOutputs_tags_camel (tbl : Nat → Nat) :
    (BlueprintOutputs.map (fun fv => fv.1.tag)).map (SnakeToCamelCase tbl)
      = [runes "deploymentSummary", runes "securityIdentity", runes "observability",
          runes "natGateway", runes "natGatewayPublicIps", runes "dataStorage",
          runes "containerRegistry", runes "messaging", runes "vmHost",
          runes "arcConnectedCluster", runes "clusterConnection",
          runes "azureIotOperations", runes "assets", runes "acrNetworkPosture"] := rfl

theorem BlueprintOutputs_camel_back (tbl : Nat → Nat) :
    [runes "deploymentSummary", runes "securityIdentity", runes "observability",
      runes "natGateway", runes "natGatewayPublicIps", runes "dataStorage",
      runes "containerRegistry", runes "messaging", runes "vmHost",
      runes "arcConnectedCluster", runes "clusterConnection",
      runes "azureIotOperations", runes "assets", runes "acrNetworkPosture"].map
        (CamelToSnakeCase tbl)
      = BlueprintOutputs.map (fun fv => fv.1.tag) := rfl

theorem BlueprintOutputs_tags_back (tbl : Nat → Nat) :
    BlueprintOutputs.map (fun fv => CamelToSnakeCase tbl (SnakeToCamelCase tbl fv.1.tag))
      = BlueprintOutputs.map (fun fv => fv.1.tag) := by
  have h := BlueprintOutputs_camel_back tbl
  rw [← BlueprintOutputs_tags_camel tbl, List.map_map, List.map_map] at h
  exact h

/-- C30: for each of the 14 output tags of `BlueprintOutputs`,
`CamelToSnakeCase(SnakeToCamelCase(tag)) == tag`, and `SnakeToCamelCase` is injective on
these tags, so the 14 Bicep lookup keys are pairwise distinct and each converts back to its
canonical name. -/
theorem BlueprintOutputs_tags_round_trip (tbl : Nat → Nat) :
    (∀ fv ∈ BlueprintOutputs,
      CamelToSnakeCase tbl (SnakeToCamelCase tbl fv.1.tag) = fv.1.tag) ∧
    (∀ a ∈ BlueprintOutputs.map (fun fv => fv.1.tag),
      ∀ b ∈ BlueprintOutputs.map (fun fv => fv.1.tag),
        SnakeToCamelCase tbl a = SnakeToCamelCase tbl b → a = b) ∧
    ((BlueprintOutputs.map (fun fv => fv.1.tag)).map (SnakeToCamelCase tbl)).Nodup ∧
    ((BlueprintOutputs.map (fun fv => fv.1.tag)).map (SnakeToCamelCase tbl)).length = 14 := by
  have hnd : ((BlueprintOutputs.map (fun fv => fv.1.tag)).map (SnakeToCamelCase tbl)).Nodup := by
    rw [BlueprintOutputs_tags_camel]
    decide
  refine ⟨List.map_inj_left.1 (BlueprintOutputs_tags_back tbl), ?_, hnd, ?_⟩
  · intro a ha b hb hab
    exact List.inj_on_of_nodup_map hnd ha hb hab
  · rw [BlueprintOutputs_tags_camel]
    rfl

/-! ## Idempotence of the key renaming -/

theorem CamelToSnakeCase_idem (tbl : Nat → Nat)
    (hidem : ∀ r, 127 < r → toLowerRune tbl (tbl r) = tbl r) (s : GoString) :
    CamelToSnakeCase tbl (CamelToSnakeCase tbl s) = CamelToSnakeCase tbl s := by
  have hfix : ∀ r ∈ CamelToSnakeCase tbl s, toLowerRune tbl r = r := by
    intro r hr
    rw [CamelToSnakeCase_eq_insertDelims] at hr
    rcases List.mem_map.1 hr with ⟨a, _, e⟩
    rw [← e]
    exact toLowerRune_idem tbl hidem a
  cases hz : CamelToSnakeCase tbl s with
  | nil => rfl
  | cons a rest =>
    rw [hz] at hfix
    rw [CamelToSnakeCase_cons,
      camelBody_of_fixed tbl rest (fun r hr => hfix r (List.mem_cons_of_mem _ hr))]
    exact (toLower_eq_self_iff tbl (a :: rest)).2 hfix

mutual
theorem transform_idem (tbl : Nat → Nat)
    (hidem : ∀ r, 127 < r → toLowerRune tbl (tbl r) = tbl r) :
    ∀ v : Value, distinctImagesDeep tbl v = true →
      transformMapKeysRecursive tbl (transformMapKeysRecursive tbl v)
        = transformMapKeysRecursive tbl v
  | .null, _ => rfl
  | .str _, _ => rfl
  | .num _, _ => rfl
  | .bool _, _ => rfl
  | .map es, h => by
    simp only [distinctImagesDeep, Bool.and_eq_true] at h
    rw [transformMapKeysRecursive_map_eq tbl es h.1]
    have hd : distinctImages tbl
        (es.map (fun e => (CamelToSnakeCase tbl e.1, transformMapKeysRecursive tbl e.2)))
          = true := by
      have h1 := h.1
      simp only [distinctImages, decide_eq_true_eq, List.map_map] at h1 ⊢
      have : ((fun e : GoString × Value => CamelToSnakeCase tbl e.1) ∘
          fun e : GoString × Value =>
            (CamelToSnakeCase tbl e.1, transformMapKeysRecursive tbl e.2))
            = fun e : GoString × Value => CamelToSnakeCase tbl e.1 := by
        funext e
        exact CamelToSnakeCase_idem tbl hidem e.1
      rw [this]
      exact h1
    rw [transformMapKeysRecursive_map_eq tbl _ hd, transformEntries_idem tbl hidem es h.2]
  | .seq xs, h => by
    simp only [distinctImagesDeep] at h
    simp only [transformMapKeysRecursive, transformItems_eq_map]
    rw [transformItems_idem tbl hidem xs h]
theorem transformEntries_idem (tbl : Nat → Nat)
    (hidem : ∀ r, 127 < r → toLowerRune tbl (tbl r) = tbl r) :
    ∀ es : GoMap, distinctImagesEntries tbl es = true →
      (es.map (fun e => (CamelToSnakeCase tbl e.1, transformMapKeysRecursive tbl e.2))).map
          (fun e => (CamelToSnakeCase tbl e.1, transformMapKeysRecursive tbl e.2))
        = es.map (fun e => (CamelToSnakeCase tbl e.1, transformMapKeysRecursive tbl e.2))
  | [], _ => rfl
  | (k, v) :: rest, h => by
    simp only [distinctImagesEntries, Bool.and_eq_true] at h
    simp only [List.map_cons]
    rw [transformEntries_idem tbl hidem rest h.2, CamelToSnakeCase_idem tbl hidem k,
      transform_idem tbl hidem v h.1]
theorem transformItems_idem (tbl : Nat → Nat)
    (hidem : ∀ r, 127 < r → toLowerRune tbl (tbl r) = tbl r) :
    ∀ xs : List Value, distinctImagesItems tbl xs = true →
      (xs.map (transformMapKeysRecursive tbl)).map (transformMapKeysRecursive tbl)
        = xs.map (transformMapKeysRecursive tbl)
  | [], _ => rfl
  | v :: rest, h => by
    simp only [distinctImagesItems, Bool.and_eq_true] at h
    simp only [List.map_cons]
    rw [transformItems_idem tbl hidem rest h.2, transform_idem tbl hidem v h.1]
end

/-- C26: `transformMapKeysRecursive` is idempotent on every nested value whose mappings
have keys with pairwise distinct `CamelToSnakeCase` images, because `CamelToSnakeCase` is
the identity on its own outputs (given that lowercasing is idempotent on the values of the
Unicode lowercase table). -/
theorem transformMapKeysRecursive_idem (tbl : Nat → Nat)
    (hidem : ∀ r, 127 < r → toLowerRune tbl (tbl r) = tbl r) :
    (∀ s : GoString, CamelToSnakeCase tbl (CamelToSnakeCase tbl s) = CamelToSnakeCase tbl s) ∧
    (∀ v : Value, distinctImagesDeep tbl v = true →
      transformMapKeysRecursive tbl (transformMapKeysRecursive tbl v)
        = transformMapKeysRecursive tbl v) :=
  ⟨CamelToSnakeCase_idem tbl hidem, transform_idem tbl hidem⟩

/-- Witness of C26 with the identity table at a mapping holding a sequence of mappings. -/
theorem transformMapKeysRecursive_idem_witness :
    (∀ r, 127 < r → toLowerRune id (id r) = id r) ∧
    distinctImagesDeep id
        (.map [(runes "resourceGroup", .seq [.map [(runes "keyVaultName", .num 1)], .null]),
               (runes "aioIdentity", .str (runes "x"))]) = true ∧
    transformMapKeysRecursive id (transformMapKeysRecursive id
        (.map [(runes "resourceGroup", .seq [.map [(runes "keyVaultName", .num 1)], .null]),
               (runes "aioIdentity", .str (runes "x"))]))
      = transformMapKeysRecursive id
        (.map [(runes "resourceGroup", .seq [.map [(runes "keyVaultName", .num 1)], .null]),
               (runes "aioIdentity", .str (runes "x"))]) :=
  have h : ∀ r, 127 < r → toLowerRune id (id r) = id r := fun r hr => by
    have : ¬ r ≤ 127 := by omega
    simp [toLowerRune, this]
  ⟨h, by decide, (transformMapKeysRecursive_idem id h).2 _ (by decide)⟩

/-! ## Static check against runtime population -/

theorem mapGet_isNone_iff (raw : GoMap) (k : GoString) :
    (mapGet raw k).isNone = true ↔ k ∉ mapKeys raw := by
  induction raw with
  | nil => simp [mapGet, mapKeys]
  | cons e rest ih =>
    obtain ⟨k1, v1⟩ := e
    by_cases hk : k1 = k
    · simp [mapGet, mapKeys, hk]
    · have hk2 : ¬ k = k1 := fun e => hk e.symm
      simp only [mapKeys] at ih
      simp [mapGet, mapKeys, hk, hk2, ih]

theorem absentKeys_eq_missingNames (raw : GoMap) (fields : StructValue) :
    absentKeys raw (fun key => key) fields = missingNames (mapKeys raw) (tagsOf fields) := by
  unfold absentKeys missingNames
  rw [List.map_id']
  apply List.filter_congr
  intro k _
  by_cases h : k ∈ mapKeys raw
  · have : ¬ (mapGet raw k).isNone = true := fun e => (mapGet_isNone_iff raw k).1 e h
    simp [h, this]
  · have : (mapGet raw k).isNone = true := (mapGet_isNone_iff raw k).2 h
    simp only [h, not_false_eq_true, decide_True]
    exact this

/-- C27: the static contract check and the runtime population agree on what is missing.
For every struct and raw map in which no present value is type-mismatched, the missing list
reported by `ParseTerraformOutputsFromMap` equals the missing list that
`ValidateOutputContract` computes for declared = the keys of the raw map and required =
`GetOutputKeysFromStruct` of the struct, and one succeeds exactly when the other does. -/
theorem parse_agrees_with_contract (tbl : Nat → Nat) (raw : GoMap) (fields : StructValue)
    (framework : GoString)
    (h : noTypeMismatch raw (fun key => key) false tbl fields = true) :
    ∃ required : List GoString,
      GetOutputKeysFromStruct (.ptrToStruct fields) = some required ∧
      reportedMissing (ParseTerraformOutputsFromMap tbl raw (.ptrToStruct fields))
        = (ValidateOutputContract (mapKeys raw) required framework).missing ∧
      ((ParseTerraformOutputsFromMap tbl raw (.ptrToStruct fields)).succeeded = true
        ↔ (ValidateOutputContract (mapKeys raw) required framework).failed = false) := by
  refine ⟨tagsOf fields, by simp [GetOutputKeysFromStruct, outputKeysLoop_eq], ?_, ?_⟩
  · rw [ValidateOutputContract_missing, ← absentKeys_eq_missingNames]
    unfold ParseTerraformOutputsFromMap
    rw [parseOutputsFromMap_of_ok raw fields _ _ false tbl h]
    by_cases hpos : 0 < (absentKeys raw (fun key => key) fields).length
    · rw [if_pos hpos]
      rfl
    · rw [if_neg hpos]
      cases hk : absentKeys raw (fun key => key) fields with
      | nil => rfl
      | cons a l => rw [hk] at hpos; simp at hpos
  · rw [ValidateOutputContract_failed, ← absentKeys_eq_missingNames]
    unfold ParseTerraformOutputsFromMap
    rw [parseOutputsFromMap_of_ok raw fields _ _ false tbl h]
    by_cases hpos : 0 < (absentKeys raw (fun key => key) fields).length
    · rw [if_pos hpos]
      have hne : absentKeys raw (fun key => key) fields ≠ [] := List.ne_nil_of_length_pos hpos
      simp [ParseResult.succeeded, hne]
    · rw [if_neg hpos]
      have hnil : absentKeys raw (fun key => key) fields = [] := by
        cases hk : absentKeys raw (fun key => key) fields with
        | nil => rfl
        | cons a l => rw [hk] at hpos; simp at hpos
      simp [ParseResult.succeeded, hnil]

/-- Witness of C27 at fields `x`, `y`, `z` with the raw map `{"y": 2}`. -/
theorem parse_agrees_with_contract_witness :
    noTypeMismatch [(runes "y", .num 2)] (fun key => key) false id
      [(⟨runes "x", .any, true⟩, .null), (⟨runes "y", .float64, true⟩, .num 0),
       (⟨runes "z", .any, true⟩, .null)] = true ∧
    reportedMissing (ParseTerraformOutputsFromMap id [(runes "y", .num 2)]
        (.ptrToStruct [(⟨runes "x", .any, true⟩, .null), (⟨runes "y", .float64, true⟩, .num 0),
          (⟨runes "z", .any, true⟩, .null)])) = [runes "x", runes "z"] ∧
    ∃ required : List GoString,
      GetOutputKeysFromStruct
          (.ptrToStruct [(⟨runes "x", .any, true⟩, .null),
            (⟨runes "y", .float64, true⟩, .num 0), (⟨runes "z", .any, true⟩, .null)])
        = some required ∧
      reportedMissing (ParseTerraformOutputsFromMap id [(runes "y", .num 2)]
          (.ptrToStruct [(⟨runes "x", .any, true⟩, .null),
            (⟨runes "y", .float64, true⟩, .num 0), (⟨runes "z", .any, true⟩, .null)]))
        = (ValidateOutputContract (mapKeys [(runes "y", .num 2)]) required
            (runes "terraform")).missing ∧
      ((ParseTerraformOutputsFromMap id [(runes "y", .num 2)]
          (.ptrToStruct [(⟨runes "x", .any, true⟩, .null),
            (⟨runes "y", .float64, true⟩, .num 0),
            (⟨runes "z", .any, true⟩, .null)])).succeeded = true
        ↔ (ValidateOutputContract (mapKeys [(runes "y", .num 2)]) required
            (runes "terraform")).failed = false) :=
  ⟨rfl, rfl, parse_agrees_with_contract id _ _ (runes "terraform") rfl⟩

/-! ## Two traversals of the same map -/

theorem mapGet_mapErase_of_ne (fs : GoMap) (k0 k : GoString) (h : k ≠ k0) :
    mapGet (mapErase fs k0) k = mapGet fs k := by
  induction fs with
  | nil => rfl
  | cons e rest ih =>
    obtain ⟨k1, v1⟩ := e
    by_cases h1 : k1 = k0
    · subst h1
      have h2 : ¬ k1 = k := fun e => h e.symm
      simp [mapErase, mapGet, h2]
    · by_cases h2 : k1 = k
      · subst h2
        simp [mapErase, mapGet, h1]
      · simp [mapErase, mapGet, h1, h2, ih]

theorem mapKeys_perm_of_mapGet (fs : GoMap) (k : GoString) (w : Value)
    (h : mapGet fs k = some w) : (mapKeys fs).Perm (k :: mapKeys (mapErase fs k)) := by
  induction fs with
  | nil => simp [mapGet] at h
  | cons e rest ih =>
    obtain ⟨k1, v1⟩ := e
    by_cases h1 : k1 = k
    · simp [mapErase, mapKeys, h1]
    · simp only [mapGet, h1, if_false] at h
      have h2 := ih h
      simp only [mapErase, h1, if_false, mapKeys, List.map_cons] at h2 ⊢
      exact (List.Perm.cons k1 h2).trans (List.Perm.swap k k1 _)

theorem sameEntries_cons (k : GoString) (v : Value) (es fs : GoMap)
    (h : sameEntries ((k, v) :: es) fs = true) :
    ∃ w, mapGet fs k = some w ∧ sameValue v w = true ∧ sameEntries es (mapErase fs k) = true := by
  simp only [sameEntries] at h
  cases hget : mapGet fs k with
  | none => simp [hget] at h
  | some w =>
    simp only [hget, Bool.and_eq_true] at h
    exact ⟨w, rfl, h.1, h.2⟩

theorem sameEntries_keys_perm (es : GoMap) :
    ∀ fs : GoMap, sameEntries es fs = true → (mapKeys fs).Perm (mapKeys es) := by
  induction es with
  | nil =>
    intro fs h
    simp only [sameEntries, List.isEmpty_iff] at h
    rw [h]
  | cons e rest ih =>
    obtain ⟨k, v⟩ := e
    intro fs h
    obtain ⟨w, hget, _, hrest⟩ := sameEntries_cons k v rest fs h
    have h1 := mapKeys_perm_of_mapGet fs k w hget
    have h2 := ih _ hrest
    exact h1.trans (List.Perm.cons k h2)

theorem sameEntries_lookup (es : GoMap) :
    ∀ fs : GoMap, sameEntries es fs = true → (mapKeys es).Nodup →
      ∀ (k : GoString) (v : Value), mapGet es k = some v →
        ∃ w, mapGet fs k = some w ∧ sameValue v w = true := by
  induction es with
  | nil => intro fs _ _ k v h; simp [mapGet] at h
  | cons e rest ih =>
    obtain ⟨k0, v0⟩ := e
    intro fs h hnd k v hget
    obtain ⟨w0, hget0, hsame0, hrest⟩ := sameEntries_cons k0 v0 rest fs h
    simp only [mapKeys, List.map_cons, List.nodup_cons] at hnd
    simp only [mapGet] at hget
    by_cases hk : k0 = k
    · simp only [hk, if_true, Option.some.injEq] at hget
      subst hk
      rw [← hget]
      exact ⟨w0, hget0, hsame0⟩
    · simp only [hk, if_false] at hget
      obtain ⟨w, hw, hs⟩ := ih _ hrest hnd.2 k v hget
      rw [mapGet_mapErase_of_ne fs k0 k (fun e => hk e.symm)] at hw
      exact ⟨w, hw, hs⟩

theorem distinctImages_of_sameEntries (tbl : Nat → Nat) (es fs : GoMap)
    (hd : distinctImages tbl es = true) (hs : sameEntries es fs = true) :
    distinctImages tbl fs = true := by
  simp only [distinctImages, decide_eq_true_eq] at hd ⊢
  have hp := sameEntries_keys_perm es fs hs
  have hp2 : (fs.map (fun e => CamelToSnakeCase tbl e.1)).Perm
      (es.map (fun e => CamelToSnakeCase tbl e.1)) := by
    have := hp.map (CamelToSnakeCase tbl)
    simpa [mapKeys, List.map_map] using this
  exact hp2.nodup_iff.2 hd

theorem nodup_keys_of_images (tbl : Nat → Nat) (es : GoMap)
    (h : (es.map (fun e => CamelToSnakeCase tbl e.1)).Nodup) : (mapKeys es).Nodup := by
  have : es.map (fun e => CamelToSnakeCase tbl e.1) = (mapKeys es).map (CamelToSnakeCase tbl) := by
    simp [mapKeys, List.map_map]
  rw [this] at h
  exact List.Nodup.of_map _ h

theorem mapErase_map_renamed (tbl : Nat → Nat) (fs : GoMap)
    (hnd : (fs.map (fun e => CamelToSnakeCase tbl e.1)).Nodup) (k : GoString) (w : Value)
    (h : mapGet fs k = some w) :
    mapErase (fs.map (fun e => (CamelToSnakeCase tbl e.1, transformMapKeysRecursive tbl e.2)))
        (CamelToSnakeCase tbl k)
      = (mapErase fs k).map
          (fun e => (CamelToSnakeCase tbl e.1, transformMapKeysRecursive tbl e.2)) := by
  induction fs with
  | nil => simp [mapGet] at h
  | cons e rest ih =>
    obtain ⟨k1, v1⟩ := e
    rw [List.map_cons, List.nodup_cons] at hnd
    by_cases hk : k1 = k
    · simp [mapErase, hk]
    · simp only [mapGet, hk, if_false] at h
      have hmem := mapGet_isSome_mem rest k w h
      have hne : CamelToSnakeCase tbl k1 ≠ CamelToSnakeCase tbl k := by
        intro e
        apply hnd.1
        simp only [List.mem_map]
        simp only [mapKeys, List.mem_map] at hmem
        obtain ⟨a, ha, hak⟩ := hmem
        exact ⟨a, ha, by rw [hak, e]⟩
      simp only [List.map_cons, mapErase, hne, hk, if_false, ih hnd.2 h]

theorem nodup_images_mapErase (tbl : Nat → Nat) (fs : GoMap) (k : GoString)
    (hnd : (fs.map (fun e => CamelToSnakeCase tbl e.1)).Nodup) :
    ((mapErase fs k).map (fun e => CamelToSnakeCase tbl e.1)).Nodup := by
  induction fs with
  | nil => simp [mapErase]
  | cons e rest ih =>
    obtain ⟨k1, v1⟩ := e
    rw [List.map_cons, List.nodup_cons] at hnd
    by_cases hk : k1 = k
    · simp only [mapErase, hk, if_true]
      exact hnd.2
    · simp only [mapErase, hk, if_false, List.map_cons, List.nodup_cons]
      refine ⟨?_, ih hnd.2⟩
      intro hm
      apply hnd.1
      simp only [List.mem_map] at hm ⊢
      obtain ⟨a, ha, hak⟩ := hm
      refine ⟨a, ?_, hak⟩
      clear ih hnd hak
      induction rest with
      | nil => simp [mapErase] at ha
      | cons e2 rest2 ih2 =>
        obtain ⟨k2, v2⟩ := e2
        by_cases hk2 : k2 = k
        · simp only [mapErase, hk2, if_true] at ha
          exact List.mem_cons_of_mem _ ha
        · simp only [mapErase, hk2, if_false, List.mem_cons] at ha
          rcases ha with h | h
          · rw [h]; exact List.mem_cons_self _ _
          · exact List.mem_cons_of_mem _ (ih2 h)

theorem typeOf_transform (tbl : Nat → Nat) (v : Value) :
    typeOf (transformMapKeysRecursive tbl v) = typeOf v := by
  cases v <;> simp [transformMapKeysRecursive, typeOf]

theorem typeOf_of_sameValue (v w : Value) (h : sameValue v w = true) : typeOf v = typeOf w := by
  cases v <;> cases w <;> simp [sameValue] at h <;> rfl

mutual
theorem sameValue_transform (tbl : Nat → Nat) :
    ∀ v w : Value, distinctImagesDeep tbl v = true → sameValue v w = true →
      sameValue (transformMapKeysRecursive tbl v) (transformMapKeysRecursive tbl w) = true
  | .null, w, _, hs => by cases w <;> simp [sameValue, transformMapKeysRecursive] at hs ⊢
  | .str a, w, _, hs => by
    cases w <;> simp [sameValue, transformMapKeysRecursive] at hs ⊢
    exact hs
  | .num a, w, _, hs => by
    cases w <;> simp [sameValue, transformMapKeysRecursive] at hs ⊢
    exact hs
  | .bool a, w, _, hs => by
    cases w <;> simp [sameValue, transformMapKeysRecursive] at hs ⊢
    exact hs
  | .seq xs, w, hd, hs => by
    cases w with
    | seq ys =>
      simp only [sameValue] at hs
      simp only [distinctImagesDeep] at hd
      simp only [transformMapKeysRecursive, transformItems_eq_map, sameValue]
      exact sameItems_transform tbl xs ys hd hs
    | null => simp [sameValue] at hs
    | str _ => simp [sameValue] at hs
    | num _ => simp [sameValue] at hs
    | bool _ => simp [sameValue] at hs
    | map _ => simp [sameValue] at hs
  | .map es, w, hd, hs => by
    cases w with
    | map fs =>
      simp only [sameValue] at hs
      simp only [distinctImagesDeep, Bool.and_eq_true] at hd
      have hdf := distinctImages_of_sameEntries tbl es fs hd.1 hs
      rw [transformMapKeysRecursive_map_eq tbl es hd.1,
        transformMapKeysRecursive_map_eq tbl fs hdf]
      simp only [sameValue]
      exact sameEntries_transform tbl es fs hd.2 (by simpa [distinctImages] using hdf) hs
    | null => simp [sameValue] at hs
    | str _ => simp [sameValue] at hs
    | num _ => simp [sameValue] at hs
    | bool _ => simp [sameValue] at hs
    | seq _ => simp [sameValue] at hs
theorem sameEntries_transform (tbl : Nat → Nat) :
    ∀ es fs : GoMap, distinctImagesEntries tbl es = true →
      (fs.map (fun e => CamelToSnakeCase tbl e.1)).Nodup → sameEntries es fs = true →
      sameEntries
          (es.map (fun e => (CamelToSnakeCase tbl e.1, transformMapKeysRecursive tbl e.2)))
          (fs.map (fun e => (CamelToSnakeCase tbl e.1, transformMapKeysRecursive tbl e.2)))
        = true
  | [], fs, _, _, hs => by
    simp only [sameEntries, List.isEmpty_iff] at hs
    rw [hs]
    rfl
  | (k, v) :: rest, fs, hd, hnd, hs => by
    obtain ⟨w, hget, hsame, hrest⟩ := sameEntries_cons k v rest fs hs
    simp only [distinctImagesEntries, Bool.and_eq_true] at hd
    simp only [List.map_cons, sameEntries, mapGet_renamed tbl fs hnd k w hget,
      mapErase_map_renamed tbl fs hnd k w hget, Bool.and_eq_true]
    exact ⟨sameValue_transform tbl v w hd.1 hsame,
      sameEntries_transform tbl rest (mapErase fs k) hd.2
        (nodup_images_mapErase tbl fs k hnd) hrest⟩
theorem sameItems_transform (tbl : Nat → Nat) :
    ∀ xs ys : List Value, distinctImagesItems tbl xs = true → sameItems xs ys = true →
      sameItems (xs.map (transformMapKeysRecursive tbl)) (ys.map (transformMapKeysRecursive tbl))
        = true
  | [], ys, _, hs => by
    simp only [sameItems, List.isEmpty_iff] at hs
    rw [hs]
    rfl
  | x :: rest, ys, hd, hs => by
    cases ys with
    | nil => simp [sameItems] at hs
    | cons y ys2 =>
      simp only [sameItems, Bool.and_eq_true] at hs
      simp only [distinctImagesItems, Bool.and_eq_true] at hd
      simp only [List.map_cons, sameItems, Bool.and_eq_true]
      exact ⟨sameValue_transform tbl x y hd.1 hs.1, sameItems_transform tbl rest ys2 hd.2 hs.2⟩
end

theorem distinctImagesDeep_of_mapGet (tbl : Nat → Nat) (es : GoMap)
    (hd : distinctImagesEntries tbl es = true) (k : GoString) (v : Value)
    (h : mapGet es k = some v) : distinctImagesDeep tbl v = true := by
  induction es with
  | nil => simp [mapGet] at h
  | cons e rest ih =>
    obtain ⟨k1, v1⟩ := e
    simp only [distinctImagesEntries, Bool.and_eq_true] at hd
    simp only [mapGet] at h
    by_cases hk : k1 = k
    · simp only [hk, if_true, Option.some.injEq] at h
      rw [← h]
      exact hd.1
    · simp only [hk, if_false] at h
      exact ih hd.2 h

theorem sameFields_populated (tbl : Nat → Nat) (raw renamed : GoMap) (fields : StructValue)
    (h : ∀ fv ∈ fields, fv.1.tag ≠ [] ∧
      ∃ v w, mapGet raw (SnakeToCamelCase tbl fv.1.tag) = some v ∧
        mapGet renamed fv.1.tag = some w ∧
        sameValue (transformMapKeysRecursive tbl v) w = true) :
    sameFields (populated raw (SnakeToCamelCase tbl) true tbl fields)
      (populated renamed (fun key => key) false tbl fields) := by
  induction fields with
  | nil => simp [populated, sameFields]
  | cons fv rest ih =>
    obtain ⟨htag, v, w, hv, hw, hs⟩ := h fv (List.mem_cons_self _ _)
    have ih2 := ih (fun fv2 hfv2 => h fv2 (List.mem_cons_of_mem _ hfv2))
    obtain ⟨field, old⟩ := fv
    have htag2 : field.tag ≠ [] := htag
    have hv2 : mapGet raw (SnakeToCamelCase tbl field.tag) = some v := hv
    have hw2 : mapGet renamed field.tag = some w := hw
    have h1 : populated raw (SnakeToCamelCase tbl) true tbl ((field, old) :: rest)
        = (field, transformMapKeysRecursive tbl v)
          :: populated raw (SnakeToCamelCase tbl) true tbl rest := by
      simp [populated, htag2, hv2]
    have h2 : populated renamed (fun key => key) false tbl ((field, old) :: rest)
        = (field, w) :: populated renamed (fun key => key) false tbl rest := by
      simp [populated, htag2, hw2]
    rw [h1, h2]
    exact ⟨w, _, rfl, hs, ih2⟩

/-! ## Bicep against Terraform population -/

theorem typeMismatch_congr (a b : Value) (field : Field) (h : typeOf a = typeOf b) :
    typeMismatch a field = typeMismatch b field := by
  simp only [typeMismatch, h]

theorem terraform_of_bicep_success (tbl : Nat → Nat) (raw raw2 : GoMap)
    (fields now : StructValue)
    (htags : ∀ fv ∈ fields, fv.1.tag ≠ [] ∧
      CamelToSnakeCase tbl (SnakeToCamelCase tbl fv.1.tag) = fv.1.tag)
    (hdeep : distinctImagesDeep tbl (.map raw) = true)
    (hsame : sameValue (.map raw) (.map raw2) = true)
    (hsucc : ParseBicepOutputsFromMap tbl raw (.ptrToStruct fields) = .success now) :
    ∃ now2 : StructValue,
      ParseTerraformOutputsFromMap tbl
          (raw2.map (fun e => (CamelToSnakeCase tbl e.1, transformMapKeysRecursive tbl e.2)))
          (.ptrToStruct fields)
        = .success now2 ∧
      sameFields now now2 := by
  obtain ⟨hno, habs, hnow⟩ := parseOutputsFromMap_success_inv raw fields _ _ _ tbl now hsucc
  simp only [distinctImagesDeep, Bool.and_eq_true] at hdeep
  simp only [sameValue] at hsame
  have hnd : (raw.map (fun e => CamelToSnakeCase tbl e.1)).Nodup := by
    simpa [distinctImages] using hdeep.1
  have hnd2 : (raw2.map (fun e => CamelToSnakeCase tbl e.1)).Nodup := by
    simpa [distinctImages] using distinctImages_of_sameEntries tbl raw raw2 hdeep.1 hsame
  have hlook : ∀ fv ∈ fields, fv.1.tag ≠ [] ∧
      ∃ v w, mapGet raw (SnakeToCamelCase tbl fv.1.tag) = some v ∧
        mapGet (raw2.map (fun e => (CamelToSnakeCase tbl e.1, transformMapKeysRecursive tbl e.2)))
          fv.1.tag = some w ∧
        sameValue (transformMapKeysRecursive tbl v) w = true := by
    intro fv hfv
    obtain ⟨htag, hback⟩ := htags fv hfv
    obtain ⟨v, hget⟩ := present_of_absentKeys_nil raw _ fields habs fv hfv htag
    obtain ⟨w, hget2, hvw⟩ := sameEntries_lookup raw raw2 hsame
      (nodup_keys_of_images tbl raw hnd) _ v hget
    have h2 := mapGet_renamed tbl raw2 hnd2 _ w hget2
    rw [hback] at h2
    exact ⟨htag, v, _, hget, h2,
      sameValue_transform tbl v w (distinctImagesDeep_of_mapGet tbl raw hdeep.2 _ v hget) hvw⟩
  have hno2 : noTypeMismatch
      (raw2.map (fun e => (CamelToSnakeCase tbl e.1, transformMapKeysRecursive tbl e.2)))
      (fun key => key) false tbl fields = true := by
    simp only [noTypeMismatch, List.all_eq_true]
    intro fv hfv
    obtain ⟨htag, v, w, hv, hw, hs⟩ := hlook fv hfv
    have h3 : typeMismatch (transformMapKeysRecursive tbl v) fv.1 = false := by
      simp only [noTypeMismatch, List.all_eq_true] at hno
      have := hno fv hfv
      simpa [htag, hv] using this
    have h4 : typeMismatch w fv.1 = false := by
      rw [← typeMismatch_congr _ w fv.1 (typeOf_of_sameValue _ w hs)]
      exact h3
    simp [htag, hw, h4]
  have habs2 : absentKeys
      (raw2.map (fun e => (CamelToSnakeCase tbl e.1, transformMapKeysRecursive tbl e.2)))
      (fun key => key) fields = [] :=
    absentKeys_eq_nil _ _ fields (fun fv hfv _ =>
      match hlook fv hfv with
      | ⟨_, _, w, _, hw, _⟩ => ⟨w, hw⟩)
  refine ⟨populated
    (raw2.map (fun e => (CamelToSnakeCase tbl e.1, transformMapKeysRecursive tbl e.2)))
    (fun key => key) false tbl fields, ?_, ?_⟩
  · unfold ParseTerraformOutputsFromMap
    rw [parseOutputsFromMap_of_ok _ fields _ _ false tbl hno2, habs2]
    rfl
  · rw [hnow]
    exact sameFields_populated tbl raw _ fields hlook

/-- C29 (as amended): Bicep and Terraform population agree on `BlueprintOutputs` when no two
keys of a mapping of the raw map, at any nesting depth, have the same `CamelToSnakeCase`
image.  For every such raw Bicep output map on which `ParseBicepBlueprintOutputs` succeeds,
and in whatever order the call `transformMapKeysRecursive(raw)` visits the entries of each
mapping (`raw2` is the same map in that order), `ParseTerraformBlueprintOutputs` applied to
the result succeeds as well and yields the same `BlueprintOutputs` value. -/
theorem ParseBlueprintOutputs_agree (tbl : Nat → Nat) (raw raw2 renamed : GoMap)
    (hdeep : distinctImagesDeep tbl (.map raw) = true)
    (hsame : sameValue (.map raw) (.map raw2) = true)
    (hsucc : (ParseBicepBlueprintOutputs tbl raw).succeeded = true)
    (hren : transformMapKeysRecursive tbl (.map raw2) = .map renamed) :
    ∃ now now2 : StructValue,
      ParseBicepBlueprintOutputs tbl raw = .success now ∧
      ParseTerraformBlueprintOutputs tbl renamed = .success now2 ∧
      sameFields now now2 := by
  have hd2 : distinctImages tbl raw2 = true := by
    have h1 := hdeep
    have h2 := hsame
    simp only [distinctImagesDeep, Bool.and_eq_true] at h1
    simp only [sameValue] at h2
    exact distinctImages_of_sameEntries tbl raw raw2 h1.1 h2
  have hr : renamed
      = raw2.map (fun e => (CamelToSnakeCase tbl e.1, transformMapKeysRecursive tbl e.2)) := by
    rw [transformMapKeysRecursive_map_eq tbl raw2 hd2] at hren
    injection hren with h
    exact h.symm
  have htags : ∀ fv ∈ BlueprintOutputs, fv.1.tag ≠ [] ∧
      CamelToSnakeCase tbl (SnakeToCamelCase tbl fv.1.tag) = fv.1.tag := by
    intro fv hfv
    have h1 : ∀ fv ∈ BlueprintOutputs, fv.1.tag ≠ [] := by decide
    exact ⟨h1 fv hfv, List.map_inj_left.1 (BlueprintOutputs_tags_back tbl) fv hfv⟩
  cases hb : ParseBicepBlueprintOutputs tbl raw with
  | success now =>
    obtain ⟨now2, ht, hsf⟩ :=
      terraform_of_bicep_success tbl raw raw2 BlueprintOutputs now htags hdeep hsame hb
    refine ⟨now, now2, rfl, ?_, hsf⟩
    rw [hr]
    exact ht
  | notAStructPointer => rw [hb] at hsucc; cases hsucc
  | typeMismatchFailure k n => rw [hb] at hsucc; cases hsucc
  | missingOutputs ks hint n => rw [hb] at hsucc; cases hsucc

/-- Witness of C29 (as amended) at `sampleBicepOutputs`, visited by the second traversal in
the order of `sampleBicepOutputsReordered`. -/
theorem ParseBlueprintOutputs_agree_witness :
    distinctImagesDeep id (.map sampleBicepOutputs) = true ∧
    sameValue (.map sampleBicepOutputs) (.map sampleBicepOutputsReordered) = true ∧
    (ParseBicepBlueprintOutputs id sampleBicepOutputs).succeeded = true ∧
    transformMapKeysRecursive id (.map sampleBicepOutputsReordered)
      = .map sampleRenamedOutputs ∧
    ∃ now now2 : StructValue,
      ParseBicepBlueprintOutputs id sampleBicepOutputs = .success now ∧
      ParseTerraformBlueprintOutputs id sampleRenamedOutputs = .success now2 ∧
      sameFields now now2 :=
  ⟨by decide, by decide, rfl, rfl,
    ParseBlueprintOutputs_agree id sampleBicepOutputs sampleBicepOutputsReordered
      sampleRenamedOutputs (by decide) (by decide) rfl rfl⟩

/-- C29 (as stated) fails: the top-level keys of `collidingBicepOutputs` have pairwise
distinct images and `ParseBicepBlueprintOutputs` succeeds on it, but the mapping under
`natGateway` holds `publicIp` and `public_ip`.  The Bicep parse renames that mapping
visiting `publicIp` first and keeps the value 2; the separate call
`transformMapKeysRecursive(raw)` may visit `public_ip` first and keep the value 1, so the
Terraform parse of its result succeeds with a different `NatGateway` field. -/
theorem ParseBlueprintOutputs_agree_counterexample :
    distinctImages id collidingBicepOutputs = true ∧
    sameValue (.map collidingBicepOutputs) (.map collidingBicepOutputsReordered) = true ∧
    (∃ (now now2 : StructValue) (renamed : GoMap),
      ParseBicepBlueprintOutputs id collidingBicepOutputs = .success now ∧
      transformMapKeysRecursive id (.map collidingBicepOutputsReordered) = .map renamed ∧
      ParseTerraformBlueprintOutputs id renamed = .success now2 ∧
      now[3]? = some (⟨runes "nat_gateway", .any, true⟩, .map [(runes "public_ip", .num 2)]) ∧
      now2[3]? = some (⟨runes "nat_gateway", .any, true⟩, .map [(runes "public_ip", .num 1)])) ∧
    sameValue (.map [(runes "public_ip", .num 2)]) (.map [(runes "public_ip", .num 1)])
      = false ∧
    Value.map [(runes "public_ip", .num 2)] ≠ Value.map [(runes "public_ip", .num 1)] :=
  ⟨by decide, by decide, ⟨_, _, _, rfl, rfl, rfl, rfl, rfl⟩, by decide,
    fun h => by
      injection h with h1
      injection h1 with h2
      injection h2 with _ h3
      injection h3 with h4
      exact absurd h4 (by decide)⟩

end Testutil
